import Mathlib

/-!
Proton discovery pipeline: a shallow embedding of `internal/discovery/discovery.go`
with the properties proved about it.

Go strings are modelled as lists of Unicode code points (`Str`).  Every string the
pipeline handles comes out of the Go parser, which rejects source text that is not
valid UTF-8, so the code-point view and the byte view agree; the single place where
the code slices a string by bytes (`Name[:1]`) is modelled with an explicit UTF-8
lead byte.
-/

namespace Proton

/-- A Go string, as its sequence of code points. -/
abbrev Str := List Char

/-! ## The parts of Go's `strings` / `unicode` packages the code calls -/

/-- The test `unicode.IsSpace`: the Latin-1 spaces and the White_Space table. -/
def isSpace (c : Char) : Bool :=
  let n := c.toNat
  (9 ≤ n && n ≤ 13) || n == 0x20 || n == 0x85 || n == 0xA0 || n == 0x1680 ||
    (0x2000 ≤ n && n ≤ 0x200A) || n == 0x2028 || n == 0x2029 || n == 0x202F ||
    n == 0x205F || n == 0x3000

/-- The function `strings.TrimSpace`. -/
def trimSpace (s : Str) : Str := (s.dropWhile isSpace).rdropWhile isSpace

/-- The function `unicode.ToLower` on the code points that matter to the callers: the
ASCII capitals, and the two non-ASCII code points whose lower case is an ASCII letter
(U+0130 and the Kelvin sign U+212A).  The other case pairs of Unicode map non-ASCII
to non-ASCII; the callers only compare the lowered text with ASCII keywords, so those
pairs cannot change any result and are left out. -/
def toLowerRune (c : Char) : Char :=
  if 'A'.toNat ≤ c.toNat ∧ c.toNat ≤ 'Z'.toNat then Char.ofNat (c.toNat + 32)
  else if c.toNat = 0x130 then 'i'
  else if c.toNat = 0x212A then 'k'
  else c

/-- The function `strings.ToLower`. -/
def toLower (s : Str) : Str := s.map toLowerRune

/-- The function `strings.HasPrefix`. -/
def hasPrefix (s pre : Str) : Bool := pre.isPrefixOf s

/-- The function `strings.Contains`. -/
def contains : Str → Str → Bool
  | [], sub => sub.isEmpty
  | c :: cs, sub => sub.isPrefixOf (c :: cs) || contains cs sub

/-- The function `strings.TrimPrefix`. -/
def trimPrefix (s pre : Str) : Str := if hasPrefix s pre then s.drop pre.length else s

/-- The function `strings.Split` with a one-character separator. -/
def split (sep : Char) : Str → List Str
  | [] => [[]]
  | c :: cs =>
    if c = sep then [] :: split sep cs
    else match split sep cs with
      | [] => [[c]]
      | l :: ls => (c :: l) :: ls

/-- The function `strings.SplitN(s, sep, 2)` with a one-character separator: the text
before the first separator and the text after it, or the whole text alone. -/
def splitN2 (sep : Char) : Str → List Str
  | [] => [[]]
  | c :: cs =>
    if c = sep then [[], cs]
    else match splitN2 sep cs with
      | [a, b] => [c :: a, b]
      | _ => [c :: cs]

/-- The function `strings.Join`. -/
def join (parts : List Str) (sep : Str) : Str := sep.intercalate parts

/-- The function `strings.Trim(s, "*")` with a one-character cutset. -/
def trimChar (s : Str) (c : Char) : Str :=
  (s.dropWhile (fun x => x == c)).rdropWhile (fun x => x == c)

/-! ## Glob matching (`path/filepath.Match`, Unix flavour)

The library function works on bytes; this model works on code points.  The two agree
on every ASCII name (in the library a `*` can stop in the middle of a multi-byte
character, which a code point model cannot express). -/

/-- The scanning loop of `scanChunk` after the leading stars: the chunk and the rest
of the pattern, cut at the first `*` outside a character class. -/
def scanChunkLoop : Str → Bool → Str × Str
  | [], _ => ([], [])
  | [c], inrange => if c = '*' ∧ inrange = false then ([], [c]) else ([c], [])
  | c :: d :: rest, inrange =>
    if c = '\\' then
      let r := scanChunkLoop rest inrange
      (c :: d :: r.1, r.2)
    else if c = '[' then
      let r := scanChunkLoop (d :: rest) true
      (c :: r.1, r.2)
    else if c = ']' then
      let r := scanChunkLoop (d :: rest) false
      (c :: r.1, r.2)
    else if c = '*' ∧ inrange = false then ([], c :: d :: rest)
    else
      let r := scanChunkLoop (d :: rest) inrange
      (c :: r.1, r.2)

/-- The function `scanChunk`: whether the segment starts with a star, the segment,
and the rest of the pattern. -/
def scanChunk (pattern : Str) : Bool × Str × Str :=
  let body := pattern.dropWhile (fun c => c == '*')
  (decide (body.length < pattern.length), scanChunkLoop body false)

/-- The function `getEsc`: the next (possibly escaped) character of a class and the
rest of the chunk; `none` is `ErrBadPattern`. -/
def getEsc (chunk : Str) : Option (Char × Str) :=
  match chunk with
  | [] => none
  | c :: rest =>
    if c = '-' ∨ c = ']' then none
    else
      match (if c = '\\' then rest else c :: rest) with
      | [] => none
      | r :: nchunk => if nchunk = [] then none else some (r, nchunk)

/-- The range loop of a character class in `matchChunk`: whether `r` is in one of the
ranges, and the chunk after the closing bracket; `none` is `ErrBadPattern`. -/
def matchRanges : Nat → Str → Char → Bool → Nat → Option (Bool × Str)
  | 0, _, _, _, _ => none
  | fuel + 1, chunk, r, found, nrange =>
    match chunk with
    | ']' :: after =>
      if 0 < nrange then some (found, after)
      else none
    | _ =>
      match getEsc chunk with
      | none => none
      | some (lo, chunk1) =>
        match chunk1 with
        | '-' :: chunk2 =>
          match getEsc chunk2 with
          | none => none
          | some (hi, chunk3) =>
            matchRanges fuel chunk3 r (found || (decide (lo ≤ r) && decide (r ≤ hi))) (nrange + 1)
        | _ => matchRanges fuel chunk1 r (found || decide (lo = r)) (nrange + 1)

/-- The function `matchChunk`: `none` is `ErrBadPattern`, `some none` a failed match,
`some (some rest)` a match that leaves `rest` of the name. -/
def matchChunk : Nat → Str → Str → Bool → Option (Option Str)
  | 0, _, _, _ => none
  | fuel + 1, chunk, s, failed =>
    match chunk with
    | [] => if failed then some none else some (some s)
    | c :: chunk1 =>
      let failed := failed || s.isEmpty
      if c = '[' then
        let r := if failed then Char.ofNat 0 else s.headD (Char.ofNat 0)
        let s1 := if failed then s else s.tail
        let negated := chunk1.head? = some '^'
        let chunk2 := if negated then chunk1.tail else chunk1
        match matchRanges (chunk2.length + 1) chunk2 r false 0 with
        | none => none
        | some (found, chunk3) =>
          matchChunk fuel chunk3 s1 (failed || (found == decide negated))
      else if c = '?' then
        matchChunk fuel chunk1 (if failed then s else s.tail)
          (failed || s.head? = some '/')
      else if c = '\\' then
        match chunk1 with
        | [] => none
        | d :: chunk2 =>
          matchChunk fuel chunk2 (if failed then s else s.tail) (failed || s.head? ≠ some d)
      else
        matchChunk fuel chunk1 (if failed then s else s.tail) (failed || s.head? ≠ some c)

/-- The star loop of `Match`: try the chunk after skipping `1, 2, ...` characters of
the name, never past a separator.  The result is `none` on `ErrBadPattern`,
`some none` when no position matches, `some (some rest)` at the first match. -/
def matchStar (chunk : Str) (lastChunk : Bool) : Str → Option (Option Str)
  | [] => some none
  | c :: name =>
    if c = '/' then some none
    else
      match matchChunk (chunk.length + 1) chunk name false with
      | none => none
      | some (some t) =>
        if lastChunk ∧ t ≠ [] then matchStar chunk lastChunk name else some (some t)
      | some none => matchStar chunk lastChunk name

/-- The main loop of `Match`; an `ErrBadPattern` result is reported as no match, which
is what the one caller makes of it. -/
def matchLoop : Nat → Str → Str → Bool
  | 0, _, _ => false
  | fuel + 1, pattern, name =>
    if pattern = [] then name.isEmpty
    else
      let sc := scanChunk pattern
      let star := sc.1
      let chunk := sc.2.1
      let rest := sc.2.2
      if star ∧ chunk = [] then !contains name "/".toList
      else
        match matchChunk (chunk.length + 1) chunk name false with
        | none => false
        | some (some t) =>
          if t = [] ∨ rest ≠ [] then matchLoop fuel rest t
          else if star then
            match matchStar chunk (rest = []) name with
            | some (some t1) => matchLoop fuel rest t1
            | _ => false
          else false
        | some none =>
          if star then
            match matchStar chunk (rest = []) name with
            | some (some t1) => matchLoop fuel rest t1
            | _ => false
          else false

/-- The function `filepath.Match`, its error dropped (`matched, _ := ...`). -/
def filepathMatch (pattern name : Str) : Bool := matchLoop (pattern.length + 1) pattern name

/-! ## Configuration and exclusion patterns -/

/-- A manual package entry of the configuration. -/
structure ManualPackage where
  Name : Str
  Path : Str
  Description : Str
  deriving DecidableEq, Repr

/-- The settings of `config.Config` that the discoverer reads. -/
structure Config where
  ImportPath : Str
  AutoDiscover : Bool
  ExcludePatterns : List Str
  ManualPackages : List ManualPackage
  IncludeTests : Bool
  IncludeExamples : Bool
  deriving DecidableEq, Repr

/-- The discoverer: its configuration and project path. -/
structure Discoverer where
  config : Config
  projectPath : Str
  deriving DecidableEq, Repr

/-- The default exclude patterns that `setDefaults` installs. -/
def defaultExcludePatterns : List Str := ["./vendor/...".toList, "./test/...".toList]

/-- The loop of `shouldExcludePackage` over the configured patterns. -/
def shouldExcludeLoop (pkgPath : Str) : List Str → Bool
  | [] => false
  | pattern :: rest =>
    if filepathMatch pattern pkgPath then true
    else if contains pkgPath (trimChar pattern '*') then true
    else shouldExcludeLoop pkgPath rest

/-- The function `shouldExcludePackage`. -/
def shouldExcludePackage (d : Discoverer) (pkgPath : Str) : Bool :=
  shouldExcludeLoop pkgPath d.config.ExcludePatterns

/-! ## Doc-comment section parser -/

/-- The loop of `extractMainDescription`: `mainLines` is the accumulator. -/
def mainDescriptionLoop : List Str → List Str → List Str
  | [], mainLines => mainLines
  | line :: rest, mainLines =>
    let line := trimSpace line
    let lower := toLower line
    if hasPrefix lower "parameters:".toList || hasPrefix lower "returns:".toList then
      mainLines
    else if line ≠ [] then mainDescriptionLoop rest (mainLines ++ [line])
    else mainDescriptionLoop rest mainLines

/-- The function `extractMainDescription`. -/
def extractMainDescription (doc : Str) : Str :=
  if doc = [] then []
  else trimSpace (join (mainDescriptionLoop (split '\n' doc) []) " ".toList)

/-- The loop of `extractParamDoc`; `paramSection` is the section flag. -/
def paramDocLoop (paramName : Str) : List Str → Bool → Str
  | [], _ => []
  | line :: rest, paramSection =>
    let line := trimSpace line
    let lower := toLower line
    if hasPrefix lower "parameters:".toList then paramDocLoop paramName rest true
    else
      let parts := splitN2 ':' line
      if paramSection && hasPrefix line "- ".toList && contains line (paramName ++ ":".toList)
          && decide (1 < parts.length) then
        trimSpace (parts.getD 1 [])
      else if hasPrefix line (paramName ++ ":".toList) then
        trimSpace (trimPrefix line (paramName ++ ":".toList))
      else if hasPrefix line ("- ".toList ++ paramName ++ ":".toList) then
        trimSpace (trimPrefix line ("- ".toList ++ paramName ++ ":".toList))
      else paramDocLoop paramName rest paramSection

/-- The function `extractParamDoc`. -/
def extractParamDoc (doc paramName : Str) : Str :=
  if doc = [] then [] else paramDocLoop paramName (split '\n' doc) false

/-- The loop of `extractReturnDoc`; `returnSection` is the section flag and
`returnCount` the running entry counter. -/
def returnDocLoop (index : Int) : List Str → Bool → Int → Str
  | [], _, _ => []
  | line :: rest, returnSection, returnCount =>
    let line := trimSpace line
    let lower := toLower line
    if hasPrefix lower "returns:".toList then returnDocLoop index rest true returnCount
    else if returnSection && hasPrefix line "- ".toList && contains line ":".toList then
      let parts := splitN2 ':' line
      if returnCount = index ∧ 1 < parts.length then trimSpace (parts.getD 1 [])
      else returnDocLoop index rest returnSection (returnCount + 1)
    else returnDocLoop index rest returnSection returnCount

/-- The function `extractReturnDoc`. -/
def extractReturnDoc (doc : Str) (index : Int) : Str :=
  if doc = [] then [] else returnDocLoop index (split '\n' doc) false 0

/-! ## Syntax trees (`go/ast`) -/

/-- The channel directions `ast.SEND`, `ast.RECV` and `ast.SEND | ast.RECV`. -/
inductive ChanDir where
  | SEND
  | RECV
  | BOTH
  deriving DecidableEq, Repr

/-- The literal kinds of `ast.BasicLit`. -/
inductive LitKind where
  | INT
  | FLOAT
  | IMAG
  | CHAR
  | STRING
  deriving DecidableEq, Repr

mutual
/-- An `ast.Expr` value.  `Nil` is the nil interface value (the `Len` of a slice type,
the `Elt` of a bare `...`).  A `*ast.FieldList` is an optional list of fields, `none`
being the nil pointer.  The expression kinds that no function of the pipeline looks
into carry no children. -/
inductive Expr where
  | Nil
  | BadExpr
  | Ident (Name : Str)
  | Ellipsis (Elt : Expr)
  | BasicLit (Kind : LitKind) (Value : Str)
  | FuncLit
  | CompositeLit
  | ParenExpr (X : Expr)
  | SelectorExpr (X : Expr) (Sel : Str)
  | IndexExpr (X : Expr) (Index : Expr)
  | IndexListExpr
  | SliceExpr
  | TypeAssertExpr
  | CallExpr
  | StarExpr (X : Expr)
  | UnaryExpr
  | BinaryExpr
  | KeyValueExpr
  | ArrayType (Len : Expr) (Elt : Expr)
  | StructType (Fields : Option (List Field))
  | FuncType (Params : Option (List Field)) (Results : Option (List Field))
  | InterfaceType (Methods : Option (List Field))
  | MapType (Key : Expr) (Value : Expr)
  | ChanType (Dir : ChanDir) (Value : Expr)
/-- An `ast.Field`: a comment group is the list of its comments' texts, a tag is the
literal's source text (`Type_` is the field `Type`). -/
inductive Field where
  | mk (Doc : Option (List Str)) (Names : List Str) (Type_ : Expr) (Tag : Option Str)
      (Comment : Option (List Str))
end

/-- The names of a field. -/
def Field.Names : Field → List Str
  | .mk _ names _ _ _ => names

/-- The type of a field. -/
def Field.Type_ : Field → Expr
  | .mk _ _ type _ _ => type

/-- The dynamic type of an expression as `fmt.Sprintf("%T", expr)` prints it. -/
def typeName : Expr → Str
  | .Nil => "<nil>".toList
  | .BadExpr => "*ast.BadExpr".toList
  | .Ident _ => "*ast.Ident".toList
  | .Ellipsis _ => "*ast.Ellipsis".toList
  | .BasicLit _ _ => "*ast.BasicLit".toList
  | .FuncLit => "*ast.FuncLit".toList
  | .CompositeLit => "*ast.CompositeLit".toList
  | .ParenExpr _ => "*ast.ParenExpr".toList
  | .SelectorExpr _ _ => "*ast.SelectorExpr".toList
  | .IndexExpr _ _ => "*ast.IndexExpr".toList
  | .IndexListExpr => "*ast.IndexListExpr".toList
  | .SliceExpr => "*ast.SliceExpr".toList
  | .TypeAssertExpr => "*ast.TypeAssertExpr".toList
  | .CallExpr => "*ast.CallExpr".toList
  | .StarExpr _ => "*ast.StarExpr".toList
  | .UnaryExpr => "*ast.UnaryExpr".toList
  | .BinaryExpr => "*ast.BinaryExpr".toList
  | .KeyValueExpr => "*ast.KeyValueExpr".toList
  | .ArrayType _ _ => "*ast.ArrayType".toList
  | .StructType _ => "*ast.StructType".toList
  | .FuncType _ _ => "*ast.FuncType".toList
  | .InterfaceType _ => "*ast.InterfaceType".toList
  | .MapType _ _ => "*ast.MapType".toList
  | .ChanType _ _ => "*ast.ChanType".toList

/-! ## Type-expression formatter -/

/-- The inner loop of the parameter half of `formatFuncSignature`, from index `j`:
a name is preceded by `, ` unless it is the first. -/
def writeParamNames : List Str → Nat → Str
  | [], _ => []
  | name :: rest, j =>
    (if 0 < j then ", ".toList else []) ++ name ++ writeParamNames rest (j + 1)

/-- The inner loop of the result half of `formatFuncSignature`, from index `j`:
a name is preceded by `, ` unless it is the first, and followed by a space. -/
def writeResultNames : List Str → Nat → Str
  | [], _ => []
  | name :: rest, j =>
    (if 0 < j then ", ".toList else []) ++ name ++ " ".toList ++ writeResultNames rest (j + 1)

mutual
/-- The function `formatType`. -/
def formatType : Expr → Str
  | .Ident name => name
  | .StarExpr x => "*".toList ++ formatType x
  | .ArrayType .Nil elt => "[]".toList ++ formatType elt
  | .ArrayType len elt => "[".toList ++ formatType len ++ "]".toList ++ formatType elt
  | .MapType key value => "map[".toList ++ formatType key ++ "]".toList ++ formatType value
  | .ChanType dir value =>
    (if dir = ChanDir.SEND then "chan<-".toList
      else if dir = ChanDir.RECV then "<-chan".toList
      else "chan".toList) ++ " ".toList ++ formatType value
  | .FuncType params results =>
    "func".toList ++ ("(".toList ++ formatParams params ++ ")".toList ++ formatResults results)
  | .InterfaceType _ => "interface\x7b\x7d".toList
  | .SelectorExpr x sel => formatType x ++ ".".toList ++ sel
  | .Ellipsis elt => "...".toList ++ formatType elt
  | .Nil => typeName .Nil
  | .BadExpr => typeName .BadExpr
  | .BasicLit kind value => typeName (.BasicLit kind value)
  | .FuncLit => typeName .FuncLit
  | .CompositeLit => typeName .CompositeLit
  | .ParenExpr x => typeName (.ParenExpr x)
  | .IndexExpr x index => typeName (.IndexExpr x index)
  | .IndexListExpr => typeName .IndexListExpr
  | .SliceExpr => typeName .SliceExpr
  | .TypeAssertExpr => typeName .TypeAssertExpr
  | .CallExpr => typeName .CallExpr
  | .UnaryExpr => typeName .UnaryExpr
  | .BinaryExpr => typeName .BinaryExpr
  | .KeyValueExpr => typeName .KeyValueExpr
  | .StructType fields => typeName (.StructType fields)
/-- The parameter half of `formatFuncSignature`, between the parentheses. -/
def formatParams : Option (List Field) → Str
  | none => []
  | some list => formatParamList list 0
/-- The result half of `formatFuncSignature`. -/
def formatResults : Option (List Field) → Str
  | none => []
  | some list =>
    if 0 < list.length then
      " ".toList
        ++ (if 1 < list.length then "(".toList else [])
        ++ formatResultList list 0
        ++ (if 1 < list.length then ")".toList else [])
    else []
/-- The parameter loop of `formatFuncSignature`, from index `i`. -/
def formatParamList : List Field → Nat → Str
  | [], _ => []
  | .mk _ names type _ _ :: rest, i =>
    (if 0 < i then ", ".toList else [])
      ++ (if 0 < names.length then writeParamNames names 0 ++ " ".toList else [])
      ++ formatType type
      ++ formatParamList rest (i + 1)
/-- The result loop of `formatFuncSignature`, from index `i`. -/
def formatResultList : List Field → Nat → Str
  | [], _ => []
  | .mk _ names type _ _ :: rest, i =>
    (if 0 < i then ", ".toList else [])
      ++ (if 0 < names.length then writeResultNames names 0 else [])
      ++ formatType type
      ++ formatResultList rest (i + 1)
end

/-- The function `formatFuncSignature`, given the two field lists of the function
type: the parenthesised parameters, then the results. -/
def formatFuncSignature (params results : Option (List Field)) : Str :=
  "(".toList ++ formatParams params ++ ")".toList ++ formatResults results

/-! ## Declarations, files and packages (`go/ast`, `go/doc`) -/

/-- An `ast.FuncType`; `none` is a nil field list. -/
structure FuncType where
  Params : Option (List Field)
  Results : Option (List Field)

/-- An `ast.TypeSpec` (`Type_` is the field `Type`); `Line` is the line of `Pos()` in
its file, as the file set reports it. -/
structure TypeSpec where
  Doc : Option (List Str)
  Name : Str
  Type_ : Expr
  Comment : Option (List Str)
  Line : Nat

/-- An `ast.Spec`; value specs keep their names, import specs nothing.  The values of a
value spec are left out: the tree is taken to hold no function literal that declares a
local type. -/
inductive Spec where
  | TypeSpec (spec : TypeSpec)
  | ValueSpec (Names : List Str)
  | ImportSpec

/-- The keyword of a general declaration. -/
inductive Token where
  | IMPORT
  | CONST
  | TYPE
  | VAR
  deriving DecidableEq, Repr

/-- An `ast.GenDecl`. -/
structure GenDecl where
  Doc : Option (List Str)
  Tok : Token
  Specs : List Spec

/-- An `ast.FuncDecl` (`Type_` is the field `Type`).  The body is left out: `doc.New`,
which `parseASTPackage` calls first, sets the body of every function declaration of the
tree to nil. -/
structure FuncDecl where
  Doc : Option (List Str)
  Recv : Option (List Field)
  Name : Str
  Type_ : FuncType

/-- An `ast.Decl`. -/
inductive Decl where
  | FuncDecl (decl : FuncDecl)
  | GenDecl (decl : GenDecl)
  | BadDecl

/-- An `ast.File`. -/
structure File where
  Decls : List Decl

/-- An `ast.Package`.  `Files` is a Go map from file name to file; the list gives its
entries in the order in which a `range` over the map visits them. -/
structure AstPackage where
  Name : Str
  Files : List (Str × File)

/-- A `doc.Func`. -/
structure DocFunc where
  Name : Str
  Doc : Str
  deriving DecidableEq, Repr

/-- A function parameter. -/
structure Parameter where
  Name : Str
  Type_ : Str
  Doc : Str
  deriving DecidableEq, Repr

/-- A function return value. -/
structure Result where
  Name : Str
  Type_ : Str
  Doc : Str
  deriving DecidableEq, Repr

/-- An `EnhancedFunc`: `Func` is the embedded `*doc.Func`. -/
structure EnhancedFunc where
  Func : DocFunc
  Params : List Parameter
  Results : List Result
  ExampleCode : Str
  Declaration : Str
  Doc : Str
  deriving DecidableEq, Repr

/-! ## Symbol enhancer: functions -/

/-- The function `generateExampleCode`. -/
def generateExampleCode (fn : DocFunc) : Str :=
  "result := ".toList ++ fn.Name ++ "(".toList ++ "/* parameters */".toList ++ ")".toList

/-- The parameter loop of `generateFunctionDeclaration`, from index `i`. -/
def declarationParams : List Field → Nat → Str
  | [], _ => []
  | param :: rest, i =>
    (if 0 < i then ", ".toList else [])
      ++ (if 0 < param.Names.length then writeParamNames param.Names 0 ++ " ".toList else [])
      ++ formatType param.Type_
      ++ declarationParams rest (i + 1)

/-- The result loop of `generateFunctionDeclaration`, from index `i`. -/
def declarationResults : List Field → Nat → Str
  | [], _ => []
  | resultParam :: rest, i =>
    (if 0 < i then ", ".toList else [])
      ++ (if 0 < resultParam.Names.length then writeResultNames resultParam.Names 0 else [])
      ++ formatType resultParam.Type_
      ++ declarationResults rest (i + 1)

/-- The function `generateFunctionDeclaration`; `none` is the run-time panic of
`funcDecl.Recv.List[0]` on a receiver clause without a field. -/
def generateFunctionDeclaration (fn : DocFunc) (funcDecl : FuncDecl) : Option Str :=
  let head : Option Str :=
    match funcDecl.Recv with
    | some [] => none
    | some (recv :: _) =>
      some ("func (".toList ++ formatType recv.Type_ ++ ") ".toList ++ fn.Name)
    | none => some ("func ".toList ++ fn.Name)
  head.map fun h =>
    h ++ "(".toList
      ++ (match funcDecl.Type_.Params with
          | none => []
          | some list => declarationParams list 0)
      ++ ")".toList
      ++ (match funcDecl.Type_.Results with
          | none => []
          | some list =>
            if 0 < list.length then
              " ".toList
                ++ (if 1 < list.length then "(".toList else [])
                ++ declarationResults list 0
                ++ (if 1 < list.length then ")".toList else [])
            else [])

/-- One `ast.Inspect` pass of `enhanceFunction` over the declarations of a file.
Function declarations only occur at the top level of a file.  Returning `false` from
the callback prunes the matched node but does not end the pass, so a later match in
the same file overwrites `funcDecl`. -/
def inspectFuncDecl (name : Str) : List Decl → Option FuncDecl → Option FuncDecl
  | [], funcDecl => funcDecl
  | .FuncDecl f :: rest, funcDecl =>
    if f.Name = name then inspectFuncDecl name rest (some f)
    else inspectFuncDecl name rest funcDecl
  | _ :: rest, funcDecl => inspectFuncDecl name rest funcDecl

/-- The search loop of `enhanceFunction` over the files: it stops after the first
file in which the pass found a declaration. -/
def findFuncDecl (name : Str) : List (Str × File) → Option FuncDecl
  | [] => none
  | (_, file) :: rest =>
    match inspectFuncDecl name file.Decls none with
    | some f => some f
    | none => findFuncDecl name rest

/-- The inner loop of the parameter extraction: one entry per name of a group. -/
def appendNamedParams (fullDoc paramType : Str) : List Str → List Parameter → List Parameter
  | [], params => params
  | name :: rest, params =>
    appendNamedParams fullDoc paramType rest
      (params ++ [{ Name := name, Type_ := paramType, Doc := extractParamDoc fullDoc name }])

/-- The parameter extraction loop of `enhanceFunction`. -/
def appendParams (fullDoc : Str) : List Field → List Parameter → List Parameter
  | [], params => params
  | param :: rest, params =>
    let paramType := formatType param.Type_
    if 0 < param.Names.length then
      appendParams fullDoc rest (appendNamedParams fullDoc paramType param.Names params)
    else
      appendParams fullDoc rest (params ++ [{ Name := [], Type_ := paramType, Doc := [] }])

/-- The return value extraction loop of `enhanceFunction`, from index `i`. -/
def appendResults (fullDoc : Str) : List Field → Nat → List Result → List Result
  | [], _, results => results
  | result :: rest, i, results =>
    let resultType := formatType result.Type_
    let resultName := if 0 < result.Names.length then result.Names.headD [] else []
    appendResults fullDoc rest (i + 1)
      (results ++ [{ Name := resultName, Type_ := resultType,
                     Doc := extractReturnDoc fullDoc (Int.ofNat i) }])

/-- The function `enhanceFunction`; `none` is the panic of
`generateFunctionDeclaration`. -/
def enhanceFunction (fn : DocFunc) (astPkg : AstPackage) : Option EnhancedFunc :=
  let funcDecl := findFuncDecl fn.Name astPkg.Files
  let fullDoc := fn.Doc
  let doc := extractMainDescription fullDoc
  match funcDecl with
  | none =>
    some { Func := fn, Params := [], Results := [], ExampleCode := generateExampleCode fn,
           Declaration := [], Doc := doc }
  | some funcDecl =>
    match generateFunctionDeclaration fn funcDecl with
    | none => none
    | some declaration =>
      some { Func := fn
             Params :=
               match funcDecl.Type_.Params with
               | none => []
               | some list => appendParams fullDoc list []
             Results :=
               match funcDecl.Type_.Results with
               | none => []
               | some list => appendResults fullDoc list 0 []
             ExampleCode := generateExampleCode fn
             Declaration := declaration
             Doc := doc }

/-! ## Package discoverer: the export filter -/

/-- The first byte of the UTF-8 encoding of a code point. -/
def utf8LeadByte (c : Char) : Nat :=
  if c.toNat < 0x80 then c.toNat
  else if c.toNat < 0x800 then 0xC0 + c.toNat / 0x40
  else if c.toNat < 0x10000 then 0xE0 + c.toNat / 0x1000
  else 0xF0 + c.toNat / 0x40000

/-- The byte slice `name[:1]` of a non-empty name, as a list of bytes. -/
def firstByte (name : Str) : List Nat :=
  match name with
  | [] => []
  | c :: _ => [utf8LeadByte c]

/-- The function `strings.ToUpper` on a string of at most one byte.  An ASCII byte is
upper-cased; a byte from `0x80` on is not valid UTF-8 by itself and comes back as the
three bytes of the replacement character U+FFFD. -/
def toUpperByte (s : List Nat) : List Nat :=
  match s with
  | [b] =>
    if b < 0x80 then
      if 'a'.toNat ≤ b ∧ b ≤ 'z'.toNat then [b - 32] else [b]
    else [0xEF, 0xBF, 0xBD]
  | other => other

/-- The export test of `parseASTPackage`:
`len(name) > 0 && strings.ToUpper(name[:1]) == name[:1]`. -/
def passesExportTest (name : Str) : Bool :=
  decide (0 < name.length) && decide (toUpperByte (firstByte name) = firstByte name)

/-- The function loop of `parseASTPackage`: the enhanced functions that end up in
`PackageInfo.Functions`; `none` is a panic inside `enhanceFunction`. -/
def enhancedFuncsLoop (astPkg : AstPackage) :
    List DocFunc → List EnhancedFunc → Option (List EnhancedFunc)
  | [], enhancedFuncs => some enhancedFuncs
  | fn :: rest, enhancedFuncs =>
    if passesExportTest fn.Name then
      match enhanceFunction fn astPkg with
      | none => none
      | some e => enhancedFuncsLoop astPkg rest (enhancedFuncs ++ [e])
    else enhancedFuncsLoop astPkg rest enhancedFuncs

/-- A `doc.Type`: its name, its documentation, its methods and its constructors. -/
structure DocType where
  Name : Str
  Doc : Str
  Methods : List DocFunc
  Funcs : List DocFunc
  deriving DecidableEq, Repr

/-- The type loop of `parseASTPackage` up to the enhancement: the documented types that
are handed to `enhanceType` and so end up in `PackageInfo.Types`, in order. -/
def exportedTypesLoop : List DocType → List DocType → List DocType
  | [], kept => kept
  | typ :: rest, kept =>
    if passesExportTest typ.Name then exportedTypesLoop rest (kept ++ [typ])
    else exportedTypesLoop rest kept

/-- A field that carries only names and a type. -/
def plainField (names : List String) (type : Expr) : Field :=
  .mk none (names.map String.toList) type none none

/-! ## More of Go's `strings` and `path/filepath` packages -/

/-- The function `strings.HasSuffix`. -/
def hasSuffix (s suf : Str) : Bool := suf.isSuffixOf s

/-- The function `strings.TrimSuffix`. -/
def trimSuffix (s suf : Str) : Str := if hasSuffix s suf then s.take (s.length - suf.length) else s

/-- The loop of `strings.Split` for a non-empty separator: `skip` counts the characters
of a separator still to pass over, `cur` is the piece being read. -/
def splitStrLoop (sep : Str) : Str → Nat → Str → List Str
  | [], _, cur => [cur]
  | _ :: cs, skip + 1, cur => splitStrLoop sep cs skip cur
  | c :: cs, 0, cur =>
    if sep.isPrefixOf (c :: cs) then cur :: splitStrLoop sep cs (sep.length - 1) []
    else splitStrLoop sep cs 0 (cur ++ [c])

/-- The function `strings.Split` with a non-empty separator. -/
def splitStr (s sep : Str) : List Str := splitStrLoop sep s 0 []

/-- The element loop of `filepath.Clean`: empty and `.` elements go, a `..` element
takes the element before it with it, or stays when there is none to take and the path
is not rooted. `out` is the stack of kept elements, last first. -/
def cleanSegments (rooted : Bool) : List Str → List Str → List Str
  | [], out => out.reverse
  | seg :: rest, out =>
    if seg = [] ∨ seg = ".".toList then cleanSegments rooted rest out
    else if seg = "..".toList then
      match out with
      | top :: below =>
        if top = "..".toList then cleanSegments rooted rest (seg :: out)
        else cleanSegments rooted rest below
      | [] => if rooted then cleanSegments rooted rest [] else cleanSegments rooted rest [seg]
    else cleanSegments rooted rest (seg :: out)

/-- The function `filepath.Clean` (Unix). -/
def filepathClean (path : Str) : Str :=
  if path = [] then ".".toList
  else
    let rooted := decide (path.head? = some '/')
    let body := "/".toList.intercalate (cleanSegments rooted (split '/' path) [])
    if rooted then '/' :: body else if body = [] then ".".toList else body

/-- The function `filepath.Join` of two elements. -/
def filepathJoin (a b : Str) : Str :=
  if a = [] then (if b = [] then [] else filepathClean b)
  else filepathClean (a ++ "/".toList ++ b)

/-- The function `filepath.Dir`: the path up to its last separator, cleaned. -/
def filepathDir (path : Str) : Str :=
  filepathClean ((path.reverse.dropWhile (fun c => c != '/')).reverse)

/-- The function `filepath.IsAbs` (Unix). -/
def filepathIsAbs (path : Str) : Bool := hasPrefix path "/".toList

/-- The elements of a cleaned path as `filepath.Rel` steps through them: a rooted path
starts with an empty element, the empty base has none. -/
def relSegments (path : Str) : List Str :=
  if path = [] then [] else if path = "/".toList then [[]] else split '/' path

/-- The comparison loop of `filepath.Rel`: the elements left of base and target after
their common start. -/
def relStrip : List Str → List Str → List Str × List Str
  | b :: bs, t :: ts => if b = t then relStrip bs ts else (b :: bs, t :: ts)
  | bs, ts => (bs, ts)

/-- The function `filepath.Rel` (Unix); `none` is its error.  The model follows the
library for a rooted base path, which is what the command line hands to the discoverer
(an absolute, cleaned project path); for a base path that is not rooted the result can
differ from the library's, and for a base path with `..` elements the library has error
cases that are not traced here. -/
def filepathRel (basepath targpath : Str) : Option Str :=
  let base := filepathClean basepath
  let targ := filepathClean targpath
  if targ = base then some ".".toList
  else
    let base := if base = ".".toList then [] else base
    if decide (base.head? = some '/') != decide (targ.head? = some '/') then none
    else
      let left := relStrip (relSegments base) (relSegments targ)
      if left.1.head? = some "..".toList ∧ left.2 ≠ [] then none
      else if left.1 ≠ [] then
        some ("/".toList.intercalate (left.1.map (fun _ => "..".toList) ++ left.2))
      else some ("/".toList.intercalate left.2)

/-! ## Symbol enhancer: types -/

/-- The doc comment of a field. -/
def Field.Doc : Field → Option (List Str)
  | .mk doc _ _ _ _ => doc

/-- The tag literal of a field. -/
def Field.Tag : Field → Option Str
  | .mk _ _ _ tag _ => tag

/-- The line comment of a field. -/
def Field.Comment : Field → Option (List Str)
  | .mk _ _ _ _ comment => comment

/-- A struct field as the enhancer describes it (the type `Field` of the package). -/
structure FieldInfo where
  Name : Str
  Type_ : Str
  Tag : Str
  Doc : Str
  deriving DecidableEq, Repr

/-- An `EnhancedType`: `Type_` is the embedded `*doc.Type`. -/
structure EnhancedType where
  Type_ : DocType
  Fields : List FieldInfo
  Methods : List EnhancedFunc
  Funcs : List EnhancedFunc
  TypeKind : Str
  Declaration : Str
  Doc : Str
  ExampleCode : Str
  deriving DecidableEq, Repr

/-- The comment loop shared by `extractTypeDoc`, `extractFieldDoc` and
`extractTypeDocumentation`: each comment text loses a leading `//`, is trimmed, and is
appended when something is left. -/
def appendCommentTexts : List Str → List Str → List Str
  | [], docs => docs
  | comment :: rest, docs =>
    let text := trimSpace (trimPrefix comment "//".toList)
    if text ≠ [] then appendCommentTexts rest (docs ++ [text]) else appendCommentTexts rest docs

/-- The function `extractTypeDoc`. -/
def extractTypeDoc (commentGroup : Option (List Str)) : Str :=
  match commentGroup with
  | none => []
  | some list => trimSpace (join (appendCommentTexts list []) " ".toList)

/-- The function `extractFieldDoc`. -/
def extractFieldDoc (field : Field) : Str :=
  match field.Doc with
  | some list => trimSpace (join (appendCommentTexts list []) " ".toList)
  | none =>
    match field.Comment with
    | some list => trimSpace (join (appendCommentTexts list []) " ".toList)
    | none => []

/-- The function `generateExampleValue`. -/
def generateExampleValue : Expr → Str
  | .Ident name =>
    if name = "string".toList then "\"example\"".toList
    else if name ∈ ["int".toList, "int8".toList, "int16".toList, "int32".toList, "int64".toList]
      then "42".toList
    else if name ∈ ["uint".toList, "uint8".toList, "uint16".toList, "uint32".toList,
        "uint64".toList] then "42".toList
    else if name ∈ ["float32".toList, "float64".toList] then "3.14".toList
    else if name = "bool".toList then "true".toList
    else name ++ "\x7b\x7d".toList
  | .StarExpr x => "&".toList ++ generateExampleValue x ++ "\x7b\x7d".toList
  | .ArrayType _ _ => "[]".toList
  | .MapType _ _ => "map[]".toList
  | _ => "/* value */".toList

/-- The name loop inside the field loop of `generateStructDeclaration`. -/
def structDeclarationNames (fieldType fieldTag : Str) : List Str → Str
  | [] => []
  | fieldName :: rest =>
    "    ".toList ++ fieldName ++ " ".toList ++ fieldType ++ fieldTag ++ "\n".toList
      ++ structDeclarationNames fieldType fieldTag rest

/-- The field loop of `generateStructDeclaration`. -/
def structDeclarationFields : List Field → Str
  | [] => []
  | field :: rest =>
    let fieldType := formatType field.Type_
    let fieldTag := match field.Tag with
      | some value => " ".toList ++ value
      | none => []
    (if 0 < field.Names.length then structDeclarationNames fieldType fieldTag field.Names
      else "    ".toList ++ fieldType ++ fieldTag ++ "\n".toList)
      ++ structDeclarationFields rest

/-- The function `generateStructDeclaration`; `none` is the nil dereference of
`structType.Fields.List` on a struct type without a field list. -/
def generateStructDeclaration (name : Str) (fields : Option (List Field)) : Option Str :=
  fields.map fun list =>
    "type ".toList ++ name ++ " struct \x7b\n".toList ++ structDeclarationFields list
      ++ "\x7d".toList

/-- The method loop of `generateInterfaceDeclaration`. -/
def interfaceDeclarationMethods : List Field → Str
  | [] => []
  | method :: rest =>
    (if 0 < method.Names.length then
        match method.Type_ with
        | .FuncType params results =>
          "    ".toList ++ method.Names.headD [] ++ formatFuncSignature params results
            ++ "\n".toList
        | _ => []
      else "    ".toList ++ formatType method.Type_ ++ "\n".toList)
      ++ interfaceDeclarationMethods rest

/-- The function `generateInterfaceDeclaration`; `none` is the nil dereference of
`interfaceType.Methods.List`. -/
def generateInterfaceDeclaration (name : Str) (methods : Option (List Field)) : Option Str :=
  methods.map fun list =>
    "type ".toList ++ name ++ " interface \x7b\n".toList ++ interfaceDeclarationMethods list
      ++ "\x7d".toList

/-- The field loop of the struct case of `generateTypeExample`; `i` is the index of the
field and `n` the number of fields. -/
def typeExampleFields (n : Nat) : List Field → Nat → Str
  | [], _ => []
  | field :: rest, i =>
    (if 0 < field.Names.length then
        "    ".toList ++ field.Names.headD [] ++ ": ".toList ++ generateExampleValue field.Type_
          ++ ",".toList ++ (if i + 1 < n then "\n".toList else [])
      else [])
      ++ typeExampleFields n rest (i + 1)

/-- The parameter loop of the interface case of `generateTypeExample`, from index `i`. -/
def typeExampleParams : List Field → Nat → Str
  | [], _ => []
  | param :: rest, i =>
    (if 0 < i then ", ".toList else [])
      ++ "param".toList ++ (toString (i + 1)).toList ++ " ".toList ++ formatType param.Type_
      ++ typeExampleParams rest (i + 1)

/-- The method loop of the interface case of `generateTypeExample`. -/
def typeExampleMethods (typeName : Str) : List Field → Str
  | [] => []
  | method :: rest =>
    (if 0 < method.Names.length then
        match method.Type_ with
        | .FuncType params results =>
          "func (m My".toList ++ typeName ++ ") ".toList ++ method.Names.headD [] ++ "(".toList
            ++ (match params with
                | some list => typeExampleParams list 0
                | none => [])
            ++ ") ".toList
            ++ (match results with
                | some (first :: _) => formatType first.Type_
                | _ => [])
            ++ " \x7b\n".toList ++ "    // Implement your logic here\n".toList
            ++ "    return\n".toList ++ "\x7d\n\n".toList
        | _ => []
      else [])
      ++ typeExampleMethods typeName rest

/-- The function `generateTypeExample`; `none` is a nil dereference of the field list
of a struct type or of the method list of an interface type.  The lower-cased type name
is right for names whose capitals are ASCII. -/
def generateTypeExample (typ : DocType) (typeSpec : TypeSpec) : Option Str :=
  match typeSpec.Type_ with
  | .StructType fields =>
    fields.map fun list =>
      "// Create a new ".toList ++ typ.Name ++ "\n".toList
        ++ toLower typ.Name ++ " := ".toList ++ typ.Name ++ "\x7b\n".toList
        ++ typeExampleFields list.length list 0
        ++ "\n\x7d".toList
  | .InterfaceType methods =>
    methods.map fun list =>
      "// Example implementation of ".toList ++ typ.Name ++ "\n".toList
        ++ "type My".toList ++ typ.Name ++ " struct \x7b\n".toList
        ++ "    // Add your fields here\n".toList
        ++ "\x7d\n\n".toList
        ++ typeExampleMethods typ.Name list
  | _ =>
    some ("// Example usage of ".toList ++ typ.Name ++ "\n".toList
      ++ "var value ".toList ++ typ.Name ++ "\n".toList
      ++ "// Initialize with appropriate value".toList)

/-- The scan of `extractInterfaceMethodDoc` over the lines of the interface doc: the
first line that contains the method name decides, by the text after its first space or,
failing that, by a following line without a space. -/
def interfaceMethodDocLoop (methodName : Str) : List Str → Str
  | [] => []
  | line :: rest =>
    let line := trimSpace line
    if contains line methodName then
      let parts := splitN2 ' ' line
      if contains line " ".toList ∧ 1 < parts.length then trimSpace (parts.getD 1 [])
      else
        match rest with
        | next :: _ =>
          let nextLine := trimSpace next
          if nextLine ≠ [] ∧ contains nextLine " ".toList = false then nextLine
          else interfaceMethodDocLoop methodName rest
        | [] => interfaceMethodDocLoop methodName rest
    else interfaceMethodDocLoop methodName rest

/-- The function `extractInterfaceMethodDoc`. -/
def extractInterfaceMethodDoc (typ : DocType) (methodName : Str) : Str :=
  if typ.Doc = [] then [] else interfaceMethodDocLoop methodName (split '\n' typ.Doc)

/-! ## The outside world: file system, parser and `go/doc` -/

/-- A node of the file tree under the project path, as `filepath.Walk` reads it: the
children of a directory are in the (lexical) order in which it lists them; `lstatErr`
is the error of `os.Lstat` on the node and `readErr` the error of reading a directory,
if there is one. -/
inductive FsNode where
  | file (name : Str) (lstatErr : Option Str)
  | dir (name : Str) (lstatErr : Option Str) (readErr : Option Str) (children : List FsNode)

/-- The base name of a node. -/
def FsNode.name : FsNode → Str
  | .file name _ => name
  | .dir name _ _ _ => name

/-- The `os.Lstat` error of a node. -/
def FsNode.lstatErr : FsNode → Option Str
  | .file _ err => err
  | .dir _ err _ _ => err

/-- Whether a node is a directory. -/
def FsNode.isDir : FsNode → Bool
  | .file _ _ => false
  | .dir _ _ _ _ => true

/-- A `doc.Value`: the documentation and the names of one const or var declaration. -/
structure DocValue where
  Doc : Str
  Names : List Str
  deriving DecidableEq, Repr

/-- A `doc.Package`. -/
structure DocPackage where
  Doc : Str
  Consts : List DocValue
  Types : List DocType
  Vars : List DocValue
  Funcs : List DocFunc
  deriving DecidableEq, Repr

/-- A `doc.Example`. -/
structure DocExample where
  Name : Str
  Output : Str
  deriving DecidableEq, Repr

/-- What the discoverer takes from outside the repository.
* `root` is the file tree at the project path;
* `parseDir path filter` is the result of `parser.ParseDir` on a directory with a file
  filter: an error, or the packages of the directory, keyed by their names, in the order
  in which a `range` over the map visits them;
* `docNew` is `doc.New` in mode `AllDecls`: the documentation package, and the files of
  the tree as `doc.New` leaves them (it edits the declarations of the tree it is given,
  not the name of the package);
* `examples` is `doc.Examples` on one file;
* `readFile` is `os.ReadFile`, `none` being an error. -/
structure World where
  root : FsNode
  parseDir : Str → (Str → Bool) → Except Str (List AstPackage)
  docNew : AstPackage → DocPackage × List (Str × File)
  examples : File → List DocExample
  readFile : Str → Option Str

/-- The result of a function that returns a pointer and an error: a value, an error
message, or a run-time panic. -/
inductive Outcome (α : Type) where
  | ok (val : α)
  | error (msg : Str)
  | panic

/-- The upward scan of `extractManualComments`: `fuel` bounds the number of lines looked
at (ten), `next` is the index of the line to look at plus one, `comments` the texts
collected so far; `none` is an index beyond the lines read from disk. -/
def manualCommentsLoop (lines : List Str) : Nat → Nat → List Str → Option (List Str)
  | 0, _, comments => some comments
  | _ + 1, 0, comments => some comments
  | fuel + 1, i + 1, comments =>
    match lines[i]? with
    | none => none
    | some raw =>
      let line := trimSpace raw
      if line = [] then manualCommentsLoop lines fuel i comments
      else if hasPrefix line "//".toList then
        let comment := trimSpace (trimPrefix line "//".toList)
        manualCommentsLoop lines fuel i (if comment ≠ [] then comment :: comments else comments)
      else if hasPrefix line "/*".toList then
        let comment := trimSpace (trimSuffix (trimSpace (trimPrefix line "/*".toList)) "*/".toList)
        manualCommentsLoop lines fuel i (if comment ≠ [] then comment :: comments else comments)
      else some comments

/-- The function `extractManualComments`, given the name of the file and the line of the
position. -/
def extractManualComments (w : World) (filename : Str) (line : Nat) : Option Str :=
  match w.readFile filename with
  | none => some []
  | some content =>
    (manualCommentsLoop (split '\n' content) 10 (line - 1) []).map fun comments =>
      join comments " ".toList

/-- The comments of an optional comment group, appended by `appendCommentTexts`. -/
def appendCommentGroup (group : Option (List Str)) (documentation : List Str) : List Str :=
  match group with
  | some list => appendCommentTexts list documentation
  | none => documentation

/-- The loop of `extractTypeDocumentation` over the specs of one type declaration: it
returns at the first spec that declares the type.  The state is the documentation
collected so far and the flag `found`; `none` is a panic. -/
def typeDocumentationSpecs (w : World) (filename typeName : Str) (genDoc : Option (List Str)) :
    List Spec → List Str × Bool → Option (List Str × Bool)
  | [], state => some state
  | .TypeSpec typeSpec :: rest, state =>
    if typeSpec.Name = typeName then
      let documentation := appendCommentGroup typeSpec.Comment
        (appendCommentGroup typeSpec.Doc (appendCommentGroup genDoc state.1))
      if documentation.length = 0 then
        match extractManualComments w filename typeSpec.Line with
        | none => none
        | some manualDoc =>
          some (if manualDoc ≠ [] then documentation ++ [manualDoc] else documentation, true)
      else some (documentation, true)
    else typeDocumentationSpecs w filename typeName genDoc rest state
  | _ :: rest, state => typeDocumentationSpecs w filename typeName genDoc rest state

/-- One `ast.Inspect` pass of `extractTypeDocumentation` over the declarations of a
file. -/
def typeDocumentationDecls (w : World) (filename typeName : Str) :
    List Decl → List Str × Bool → Option (List Str × Bool)
  | [], state => some state
  | .GenDecl genDecl :: rest, state =>
    if genDecl.Tok = Token.TYPE then
      match typeDocumentationSpecs w filename typeName genDecl.Doc genDecl.Specs state with
      | none => none
      | some state1 => typeDocumentationDecls w filename typeName rest state1
    else typeDocumentationDecls w filename typeName rest state
  | _ :: rest, state => typeDocumentationDecls w filename typeName rest state

/-- The loop of `extractTypeDocumentation` over the files: it stops after the first file
that left some documentation. -/
def typeDocumentationFiles (w : World) (typeName : Str) :
    List (Str × File) → List Str × Bool → Option (List Str × Bool)
  | [], state => some state
  | (filename, file) :: rest, state =>
    match typeDocumentationDecls w filename typeName file.Decls state with
    | none => none
    | some state1 =>
      if 0 < state1.1.length then some state1
      else typeDocumentationFiles w typeName rest state1

/-- The function `extractTypeDocumentation`: its result, `none` being a panic. -/
def extractTypeDocumentation (w : World) (typeName : Str) (astPkg : AstPackage) : Option Str :=
  (typeDocumentationFiles w typeName astPkg.Files ([], false)).map fun state =>
    trimSpace (join state.1 " ".toList)

/-- The messages that `extractTypeDocumentation` writes to standard output: the warning,
when no type declaration of the name was met. -/
def extractTypeDocumentationOutput (w : World) (typeName : Str) (astPkg : AstPackage) :
    List Str :=
  match typeDocumentationFiles w typeName astPkg.Files ([], false) with
  | some (_, false) => ["WARNING: Type ".toList ++ typeName ++ " not found in AST\n".toList]
  | _ => []

/-- One `ast.Inspect` pass of `extractFunctionDocumentation` over the declarations of a
file: the documentation collected so far and the flag `found`. -/
def functionDocumentationDecls (funcName : Str) : List Decl → List Str × Bool → List Str × Bool
  | [], state => state
  | .FuncDecl funcDecl :: rest, state =>
    if funcDecl.Name = funcName then
      functionDocumentationDecls funcName rest (appendCommentGroup funcDecl.Doc state.1, true)
    else functionDocumentationDecls funcName rest state
  | _ :: rest, state => functionDocumentationDecls funcName rest state

/-- The loop of `extractFunctionDocumentation` over the files. -/
def functionDocumentationFiles (funcName : Str) :
    List (Str × File) → List Str × Bool → List Str × Bool
  | [], state => state
  | (_, file) :: rest, state =>
    let state1 := functionDocumentationDecls funcName file.Decls state
    if 0 < state1.1.length then state1 else functionDocumentationFiles funcName rest state1

/-- The function `extractFunctionDocumentation`, which no function of the package
calls: its result. -/
def extractFunctionDocumentation (funcName : Str) (astPkg : AstPackage) : Str :=
  trimSpace (join (functionDocumentationFiles funcName astPkg.Files ([], false)).1 " ".toList)

/-- The messages that `extractFunctionDocumentation` writes to standard output: the
warning, when no function declaration of the name was met. -/
def extractFunctionDocumentationOutput (funcName : Str) (astPkg : AstPackage) : List Str :=
  if (functionDocumentationFiles funcName astPkg.Files ([], false)).2 then []
  else ["WARNING: Function ".toList ++ funcName ++ " not found in AST\n".toList]

/-- The messages that one call of `enhanceFunction` writes to standard output.  The
function and the functions it calls (`generateExampleCode`, `extractMainDescription`,
`generateFunctionDeclaration`, `formatType`, `extractParamDoc`, `extractReturnDoc`)
hold no write at all; in particular `enhanceFunction` does not call
`extractFunctionDocumentation`. -/
def enhanceFunctionOutput (_fn : DocFunc) (_astPkg : AstPackage) : List Str := []

/-- The part of an `ast.Inspect` pass of `enhanceType` inside one general declaration:
a later type spec of the name overwrites an earlier one. -/
def inspectTypeSpecs (name : Str) : List Spec → Option TypeSpec → Option TypeSpec
  | [], typeSpec => typeSpec
  | .TypeSpec ts :: rest, typeSpec =>
    if ts.Name = name then inspectTypeSpecs name rest (some ts)
    else inspectTypeSpecs name rest typeSpec
  | _ :: rest, typeSpec => inspectTypeSpecs name rest typeSpec

/-- One `ast.Inspect` pass of `enhanceType` over the declarations of a file. -/
def inspectTypeSpec (name : Str) : List Decl → Option TypeSpec → Option TypeSpec
  | [], typeSpec => typeSpec
  | .GenDecl genDecl :: rest, typeSpec =>
    inspectTypeSpec name rest (inspectTypeSpecs name genDecl.Specs typeSpec)
  | _ :: rest, typeSpec => inspectTypeSpec name rest typeSpec

/-- The search loop of `enhanceType` over the files: it stops after the first file in
which the pass found a type spec. -/
def findTypeSpec (name : Str) : List (Str × File) → Option TypeSpec
  | [] => none
  | (_, file) :: rest =>
    match inspectTypeSpec name file.Decls none with
    | some ts => some ts
    | none => findTypeSpec name rest

/-- The name loop inside the field loop of `enhanceType`. -/
def appendNamedFields (fieldType fieldTag fieldDoc : Str) : List Str → List FieldInfo → List FieldInfo
  | [], fields => fields
  | name :: rest, fields =>
    appendNamedFields fieldType fieldTag fieldDoc rest
      (fields ++ [{ Name := name, Type_ := fieldType, Tag := fieldTag, Doc := fieldDoc }])

/-- The field loop of `enhanceType` over the fields of a struct type. -/
def appendFields : List Field → List FieldInfo → List FieldInfo
  | [], fields => fields
  | field :: rest, fields =>
    let fieldType := formatType field.Type_
    let fieldTag := match field.Tag with
      | some value => value
      | none => []
    if 0 < field.Names.length then
      appendFields rest (appendNamedFields fieldType fieldTag (extractFieldDoc field) field.Names fields)
    else
      appendFields rest
        (fields ++ [{ Name := [], Type_ := fieldType, Tag := fieldTag, Doc := extractFieldDoc field }])

/-- The method loop of `enhanceType`; `none` is a panic inside `enhanceFunction`. -/
def enhanceMethodsLoop (typ : DocType) (astPkg : AstPackage) (typeKind : Str) :
    List DocFunc → List EnhancedFunc → Option (List EnhancedFunc)
  | [], methods => some methods
  | method :: rest, methods =>
    match enhanceFunction method astPkg with
    | none => none
    | some enhancedMethod =>
      let enhancedMethod :=
        if typeKind = "interface".toList ∧ enhancedMethod.Doc = [] then
          { enhancedMethod with Doc := extractInterfaceMethodDoc typ method.Name }
        else enhancedMethod
      enhanceMethodsLoop typ astPkg typeKind rest (methods ++ [enhancedMethod])

/-- The constructor loop of `enhanceType`; `none` is a panic inside `enhanceFunction`. -/
def enhanceConstructorsLoop (astPkg : AstPackage) :
    List DocFunc → List EnhancedFunc → Option (List EnhancedFunc)
  | [], funcs => some funcs
  | fn :: rest, funcs =>
    match enhanceFunction fn astPkg with
    | none => none
    | some e => enhanceConstructorsLoop astPkg rest (funcs ++ [e])

/-- The function `enhanceType`; `none` is a panic. -/
def enhanceType (w : World) (typ : DocType) (astPkg : AstPackage) : Option EnhancedType :=
  match extractTypeDocumentation w typ.Name astPkg with
  | none => none
  | some doc =>
    match findTypeSpec typ.Name astPkg.Files with
    | none =>
      some { Type_ := typ, Fields := [], Methods := [], Funcs := [],
             TypeKind := "unknown".toList, Declaration := [], Doc := doc, ExampleCode := [] }
    | some typeSpec =>
      let typeKind : Str :=
        match typeSpec.Type_ with
        | .StructType _ => "struct".toList
        | .InterfaceType _ => "interface".toList
        | _ => "type".toList
      let declaration : Option Str :=
        match typeSpec.Type_ with
        | .StructType fields => generateStructDeclaration typ.Name fields
        | .InterfaceType methods => generateInterfaceDeclaration typ.Name methods
        | other => some ("type ".toList ++ typ.Name ++ " ".toList ++ formatType other)
      let doc1 := if doc = [] ∧ typeSpec.Doc.isSome then extractTypeDoc typeSpec.Doc else doc
      let fields : Option (List FieldInfo) :=
        match typeSpec.Type_ with
        | .StructType (some list) => some (appendFields list [])
        | .StructType none => none
        | _ => some []
      match declaration, generateTypeExample typ typeSpec, fields,
          enhanceMethodsLoop typ astPkg typeKind typ.Methods [],
          enhanceConstructorsLoop astPkg typ.Funcs [] with
      | some declaration, some exampleCode, some fields, some methods, some funcs =>
        some { Type_ := typ, Fields := fields, Methods := methods, Funcs := funcs,
               TypeKind := typeKind, Declaration := declaration, Doc := doc1,
               ExampleCode := exampleCode }
      | _, _, _, _, _ => none

/-- The messages that one call of `enhanceType` writes to standard output: those of
`extractTypeDocumentation`, which it calls first. -/
def enhanceTypeOutput (w : World) (typ : DocType) (astPkg : AstPackage) : List Str :=
  extractTypeDocumentationOutput w typ.Name astPkg

/-! ## Package discoverer -/

/-- A `PackageInfo`. -/
structure PackageInfo where
  Name : Str
  Path : Str
  ImportPath : Str
  Description : Str
  Doc : DocPackage
  Functions : List EnhancedFunc
  Types : List EnhancedType
  Variables : List DocValue
  Constants : List DocValue
  Examples : List DocExample
  Files : List Str
  deriving DecidableEq, Repr

/-- The type loop of `parseASTPackage`: the enhanced types that end up in
`PackageInfo.Types`; `none` is a panic inside `enhanceType`. -/
def enhancedTypesLoop (w : World) (astPkg : AstPackage) :
    List DocType → List EnhancedType → Option (List EnhancedType)
  | [], enhancedTypes => some enhancedTypes
  | typ :: rest, enhancedTypes =>
    if passesExportTest typ.Name then
      match enhanceType w typ astPkg with
      | none => none
      | some e => enhancedTypesLoop w astPkg rest (enhancedTypes ++ [e])
    else enhancedTypesLoop w astPkg rest enhancedTypes

/-- The variable loop and the constant loop of `parseASTPackage`: a declaration is kept
when it has a first name and that name passes the export test. -/
def publicValuesLoop : List DocValue → List DocValue → List DocValue
  | [], kept => kept
  | v :: rest, kept =>
    if 0 < v.Names.length ∧ passesExportTest (v.Names.headD []) = true then
      publicValuesLoop rest (kept ++ [v])
    else publicValuesLoop rest kept

/-- The function `getImportPath`. -/
def getImportPath (d : Discoverer) (pkgPath : Str) : Str :=
  match filepathRel d.projectPath pkgPath with
  | none => []
  | some relPath =>
    if relPath = ".".toList then d.config.ImportPath
    else d.config.ImportPath ++ "/".toList ++ relPath

/-- The function `extractExamples`. -/
def extractExamples (w : World) (astPkg : AstPackage) : List DocExample :=
  astPkg.Files.flatMap fun entry => w.examples entry.2

/-- The description that `parseASTPackage` computes from the package doc. -/
def packageDescription (docPkg : DocPackage) : Str :=
  let description := docPkg.Doc
  if description = [] ∧ 0 < docPkg.Doc.length then
    let parts := splitStr docPkg.Doc ". ".toList
    if 0 < parts.length then parts.headD [] else description
  else description

/-- The function `parseASTPackage`; `none` is a panic.  After `doc.New` every use of the
tree is a use of the tree as `doc.New` left it. -/
def parseASTPackage (d : Discoverer) (w : World) (astPkg : AstPackage) (pkgPath : Str) :
    Option PackageInfo :=
  let docPkg := (w.docNew astPkg).1
  let astPkg : AstPackage := { Name := astPkg.Name, Files := (w.docNew astPkg).2 }
  match enhancedFuncsLoop astPkg docPkg.Funcs [], enhancedTypesLoop w astPkg docPkg.Types [] with
  | some enhancedFuncs, some enhancedTypes =>
    some { Name := astPkg.Name
           Path := pkgPath
           ImportPath := getImportPath d pkgPath
           Description := packageDescription docPkg
           Doc := docPkg
           Functions := enhancedFuncs
           Types := enhancedTypes
           Variables := publicValuesLoop docPkg.Vars []
           Constants := publicValuesLoop docPkg.Consts []
           Examples := if d.config.IncludeExamples then extractExamples w astPkg else []
           Files := astPkg.Files.map fun entry => entry.1 }
  | _, _ => none

/-- The file filter that `parsePackage` hands to `parser.ParseDir`. -/
def parseFilter (d : Discoverer) (name : Str) : Bool :=
  if hasSuffix name "_test.go".toList && !d.config.IncludeTests then false
  else hasSuffix name ".go".toList

/-- The loop of `parsePackage` over the packages of the directory: the first one whose
name does not end in `_test`. -/
def firstNonTestPackage : List AstPackage → Option AstPackage
  | [] => none
  | pkg :: rest => if !hasSuffix pkg.Name "_test".toList then some pkg else firstNonTestPackage rest

/-- The full path that `parsePackage` computes for a package path. -/
def resolvePath (d : Discoverer) (pkgPath : Str) : Str :=
  if !filepathIsAbs pkgPath then filepathJoin d.projectPath pkgPath else pkgPath

/-- The function `parsePackage`. -/
def parsePackage (d : Discoverer) (w : World) (pkgPath : Str) : Outcome PackageInfo :=
  let fullPath := resolvePath d pkgPath
  match w.parseDir fullPath (parseFilter d) with
  | .error err =>
    .error ("failed to parse directory ".toList ++ fullPath ++ ": ".toList ++ err)
  | .ok pkgs =>
    match firstNonTestPackage pkgs with
    | none => .error ("no non-test package found in ".toList ++ fullPath)
    | some mainPkg =>
      match parseASTPackage d w mainPkg fullPath with
      | none => .panic
      | some pkgInfo => .ok pkgInfo

/-- What the callback of the walk returns: nil, `filepath.SkipDir`, or an error. -/
inductive WalkSignal where
  | next
  | skipDir
  | fail (err : Str)
  deriving DecidableEq, Repr

/-- The callback that `autoDiscoverPackages` hands to `filepath.Walk`, on a path, the
name and kind of the node (absent with an error), the error passed in and the packages
collected so far; `none` is a panic. -/
def walkFn (d : Discoverer) (w : World) (path : Str) (info : Option (Str × Bool))
    (err : Option Str) (allPackages : List PackageInfo) :
    Option (WalkSignal × List PackageInfo) :=
  match err, info with
  | some e, _ => some (.fail e, allPackages)
  | none, none => none
  | none, some (name, isDir) =>
    if isDir then
      if contains path "/vendor/".toList ||
          (contains path "/test/".toList && !d.config.IncludeTests) then
        some (.skipDir, allPackages)
      else some (.next, allPackages)
    else if !hasSuffix name ".go".toList then some (.next, allPackages)
    else if hasSuffix name "_test.go".toList && !d.config.IncludeTests then
      some (.next, allPackages)
    else
      let pkgDir := filepathDir path
      if allPackages.any (fun pkg => decide (pkg.Path = pkgDir)) then some (.next, allPackages)
      else
        match filepathRel d.projectPath pkgDir with
        | none => some (.next, allPackages)
        | some relPath =>
          if shouldExcludePackage d relPath then some (.next, allPackages)
          else
            match parsePackage d w relPath with
            | .error _ => some (.next, allPackages)
            | .panic => none
            | .ok pkgInfo => some (.next, allPackages ++ [pkgInfo])

mutual
/-- The function `walk` of `path/filepath` on a node whose `Lstat` succeeded. -/
def walk (d : Discoverer) (w : World) (path : Str) :
    FsNode → List PackageInfo → Option (WalkSignal × List PackageInfo)
  | .file name _, allPackages => walkFn d w path (some (name, false)) none allPackages
  | .dir name _ readErr children, allPackages =>
    match walkFn d w path (some (name, true)) readErr allPackages with
    | none => none
    | some (signal, allPackages1) =>
      if readErr.isSome ∨ signal ≠ WalkSignal.next then some (signal, allPackages1)
      else walkChildren d w path children allPackages1
/-- The loop of `walk` over the entries of a directory. -/
def walkChildren (d : Discoverer) (w : World) (path : Str) :
    List FsNode → List PackageInfo → Option (WalkSignal × List PackageInfo)
  | [], allPackages => some (.next, allPackages)
  | child :: rest, allPackages =>
    match child.lstatErr with
    | some e =>
      match walkFn d w (filepathJoin path child.name) none (some e) allPackages with
      | none => none
      | some (.fail err, allPackages1) => some (.fail err, allPackages1)
      | some (_, allPackages1) => walkChildren d w path rest allPackages1
    | none =>
      match walk d w (filepathJoin path child.name) child allPackages with
      | none => none
      | some (.fail err, allPackages1) => some (.fail err, allPackages1)
      | some (.skipDir, allPackages1) =>
        if child.isDir then walkChildren d w path rest allPackages1
        else some (.skipDir, allPackages1)
      | some (.next, allPackages1) => walkChildren d w path rest allPackages1
end

/-- The function `filepath.Walk` on the project path with the callback of
`autoDiscoverPackages`: its error, if any, and the packages collected; `none` is a
panic. -/
def filepathWalk (d : Discoverer) (w : World) : Option (Option Str × List PackageInfo) :=
  let result :=
    match w.root.lstatErr with
    | some e => walkFn d w d.projectPath none (some e) []
    | none => walk d w d.projectPath w.root []
  result.map fun r =>
    match r.1 with
    | .fail err => (some err, r.2)
    | _ => (none, r.2)

/-- The function `autoDiscoverPackages`: the packages and the error it returns; `none`
is a panic. -/
def autoDiscoverPackages (d : Discoverer) (w : World) : Option (List PackageInfo × Option Str) :=
  (filepathWalk d w).map fun r =>
    match r.1 with
    | some err => ([], some ("failed to walk project directory: ".toList ++ err))
    | none => (r.2, none)

/-- The overrides that `DiscoverPackages` applies to a manually configured package. -/
def applyManualOverrides (manualPkg : ManualPackage) (pkgInfo : PackageInfo) : PackageInfo :=
  let pkgInfo := if manualPkg.Name ≠ [] then { pkgInfo with Name := manualPkg.Name } else pkgInfo
  if manualPkg.Description ≠ [] then { pkgInfo with Description := manualPkg.Description }
  else pkgInfo

/-- The loop of `DiscoverPackages` over the manually configured packages. -/
def manualPackagesLoop (d : Discoverer) (w : World) :
    List ManualPackage → List PackageInfo → Option (List PackageInfo × Option Str)
  | [], allPackages => some (allPackages, none)
  | manualPkg :: rest, allPackages =>
    match parsePackage d w manualPkg.Path with
    | .error err =>
      some ([], some ("failed to parse manual package ".toList ++ manualPkg.Path ++ ": ".toList
        ++ err))
    | .panic => none
    | .ok pkgInfo =>
      manualPackagesLoop d w rest (allPackages ++ [applyManualOverrides manualPkg pkgInfo])

/-- The function `DiscoverPackages`: the packages and the error it returns; `none` is a
panic. -/
def DiscoverPackages (d : Discoverer) (w : World) : Option (List PackageInfo × Option Str) :=
  if d.config.AutoDiscover then
    match autoDiscoverPackages d w with
    | none => none
    | some (_, some err) => some ([], some ("auto-discovery failed: ".toList ++ err))
    | some (discovered, none) => manualPackagesLoop d w d.config.ManualPackages discovered
  else manualPackagesLoop d w d.config.ManualPackages []

/-- The function `determinePackageCategory`. -/
def determinePackageCategory (pkg : PackageInfo) : Str :=
  if contains pkg.Path "/internal/".toList then "internal".toList
  else if contains pkg.Path "/cmd/".toList then "commands".toList
  else if hasSuffix pkg.Name "_test".toList then "test".toList
  else if pkg.Name = "main".toList then "main".toList
  else "api".toList

/-! ## Reference descriptions of the section parser

The definitions below restate, with list operations, what the specification says the
section parser computes.  They take the header test as an argument. -/

/-- A trimmed line begins, ignoring case, with `parameters:`. -/
def startsParameters (line : Str) : Bool := hasPrefix (toLower line) "parameters:".toList

/-- A trimmed line begins, ignoring case, with `returns:`. -/
def startsReturns (line : Str) : Bool := hasPrefix (toLower line) "returns:".toList

/-- A trimmed line begins, ignoring case, with one of the two section keywords. -/
def startsSection (line : Str) : Bool := startsParameters line || startsReturns line

/-- A trimmed line is, ignoring case, exactly `parameters:`. -/
def isParametersLine (line : Str) : Bool := decide (toLower line = "parameters:".toList)

/-- A trimmed line is, ignoring case, exactly `returns:`. -/
def isReturnsLine (line : Str) : Bool := decide (toLower line = "returns:".toList)

/-- A trimmed line is, ignoring case, exactly one of the two section keywords. -/
def isSectionLine (line : Str) : Bool := isParametersLine line || isReturnsLine line

/-- The trimmed lines of a documentation text. -/
def trimmedLines (doc : Str) : List Str := (split '\n' doc).map trimSpace

/-- The main description: the non-empty trimmed lines before the first header line,
joined by single spaces. -/
def mainDescriptionWith (header : Str → Bool) (doc : Str) : Str :=
  " ".toList.intercalate
    (((trimmedLines doc).takeWhile (fun l => !header l)).filter (fun l => decide (l ≠ [])))

/-- The lines of a section: those after the first line that opens it, up to the first
later line that closes it. -/
def sectionLines (opens closes : Str → Bool) (lines : List Str) : List Str :=
  ((lines.dropWhile (fun l => !opens l)).drop 1).takeWhile (fun l => !closes l)

/-- A line of the shape `- ...: text`. -/
def isReturnEntry (line : Str) : Bool := hasPrefix line "- ".toList && contains line ":".toList

/-- The trimmed text after the first colon of a line. -/
def textAfterColon (line : Str) : Str := trimSpace ((line.dropWhile (fun c => c != ':')).drop 1)

/-- The return lookup by position: the text of the `index`-th entry line of the
`Returns:` section, or the empty string. -/
def returnDocWith (opens closes : Str → Bool) (doc : Str) (index : Int) : Str :=
  match index with
  | Int.ofNat n =>
    match ((sectionLines opens closes (trimmedLines doc)).filter isReturnEntry)[n]? with
    | some l => textAfterColon l
    | none => []
  | Int.negSucc _ => []

/-- A line of the shape `name: text` or `- name: text`. -/
def isParamEntry (paramName line : Str) : Bool :=
  hasPrefix line (paramName ++ ":".toList) || hasPrefix line ("- ".toList ++ paramName ++ ":".toList)

/-- A line that starts with `- ` and has `name:` somewhere. -/
def mentionsParam (paramName line : Str) : Bool :=
  hasPrefix line "- ".toList && contains line (paramName ++ ":".toList)

/-- The text that a matching line gives for a parameter: inside the section a line that
starts with `- ` and mentions `name:` gives the text after its first colon; otherwise
the text after the `name:` or `- name:` at its start. -/
def paramText (paramName line : Str) (inSection : Bool) : Str :=
  if inSection && mentionsParam paramName line then textAfterColon line
  else if hasPrefix line (paramName ++ ":".toList) then
    trimSpace (line.drop (paramName.length + 1))
  else trimSpace (line.drop (paramName.length + 3))

/-- The parameter lookup by name: before the first header only lines of the shape
`name: text` / `- name: text` count; from the header on, lines that start with `- `
and mention `name:` count as well; header lines never count; the first line that
counts gives the text. -/
def paramDocWith (header : Str → Bool) (doc paramName : Str) : Str :=
  let lines := trimmedLines doc
  match (lines.takeWhile (fun l => !header l)).find? (isParamEntry paramName) with
  | some l => paramText paramName l false
  | none =>
    match ((lines.dropWhile (fun l => !header l)).filter (fun l => !header l)).find?
        (fun l => mentionsParam paramName l || isParamEntry paramName l) with
    | some l => paramText paramName l true
    | none => []

/-- The (name, type) pairs that a parameter list declares: a group with names gives one
pair per name, a group without names one pair with the empty name. -/
def declaredParams (list : List Field) : List (Str × Str) :=
  list.flatMap fun g =>
    if g.Names = [] then [([], formatType g.Type_)]
    else g.Names.map fun n => (n, formatType g.Type_)

/-- The number of parameters that a parameter list declares. -/
def declaredParamCount (list : List Field) : Nat :=
  (list.map fun g => max 1 g.Names.length).sum

/-- Neither end of the text is a space. -/
def NoSpaceEnds (s : Str) : Prop :=
  (∀ c, s.head? = some c → isSpace c = false) ∧ (∀ c, s.getLast? = some c → isSpace c = false)

/-- The expression kinds that have a case of their own in `formatType`. -/
def hasOwnCase : Expr → Bool
  | .Ident _ => true
  | .StarExpr _ => true
  | .ArrayType _ _ => true
  | .MapType _ _ => true
  | .ChanType _ _ => true
  | .FuncType _ _ => true
  | .InterfaceType _ => true
  | .SelectorExpr _ _ => true
  | .Ellipsis _ => true
  | _ => false

/-! ## Sample inputs -/

/-- The type `int`. -/
def intType : Expr := .Ident "int".toList

/-- The array type `[5]int`. -/
def arrayOfFiveInt : Expr := .ArrayType (.BasicLit .INT "5".toList) intType

/-- The function type `func() (x, y int)`. -/
def funcWithNamedResults : Expr :=
  .FuncType (some []) (some [plainField ["x", "y"] intType])

/-- The function type `func(a, b int)`. -/
def funcWithNamedParams : Expr :=
  .FuncType (some [plainField ["a", "b"] intType]) none

/-- The declaration `func _helper() {}`. -/
def helperDecl : FuncDecl :=
  { Doc := none, Recv := none, Name := "_helper".toList, Type_ := ⟨some [], none⟩ }

/-- A package whose one file declares `func _helper() {}`. -/
def helperPkg : AstPackage :=
  { Name := "demo".toList, Files := [("demo.go".toList, ⟨[.FuncDecl helperDecl]⟩)] }

/-- The documented function `_helper` as `doc.New` lists it. -/
def helperFunc : DocFunc := { Name := "_helper".toList, Doc := [] }

/-- The documented type `_state` as `doc.New` lists it. -/
def stateType : DocType := { Name := "_state".toList, Doc := [], Methods := [], Funcs := [] }

/-- The declaration `func Add(a, b int, string) int`. -/
def addDecl : FuncDecl :=
  { Doc := none, Recv := none, Name := "Add".toList,
    Type_ := ⟨some [plainField ["a", "b"] intType, plainField [] (.Ident "string".toList)],
              some [plainField [] intType]⟩ }

/-- A package whose one file declares `Add`. -/
def addPkg : AstPackage :=
  { Name := "demo".toList, Files := [("add.go".toList, ⟨[.FuncDecl addDecl]⟩)] }

/-- The documented function `Add`. -/
def addFunc : DocFunc := { Name := "Add".toList, Doc := [] }

/-- A discoverer with the default exclude patterns. -/
def defaultDiscoverer : Discoverer :=
  { config := { ImportPath := "example.com/demo".toList, AutoDiscover := true,
                ExcludePatterns := defaultExcludePatterns, ManualPackages := [],
                IncludeTests := false, IncludeExamples := true },
    projectPath := "/src/demo".toList }

/-- A text whose `Parameters:` section documents `username` before `name`. -/
def usernameDoc : Str := "Parameters:\n- username: the user\n- name: the thing".toList

/-- A text whose `Returns:` section is followed by a `Parameters:` section. -/
def returnsFirstDoc : Str := "Returns:\n- int: n\nParameters:\n- name: x".toList

/-- A text with a prose line that begins with `Returns:`. -/
def returnsProseDoc : Str :=
  "Counts items.\nReturns: the number of items\nSafe for concurrent use.".toList

/-- A text with a prose line that begins with `Parameters:`. -/
def parametersProseDoc : Str :=
  "Parses the input.\nParameters: none are needed.\nSafe for reuse.".toList

/-- The documentation text of the section-parsing boundary scenario. -/
def boundaryDoc : Str :=
  "Does X.\n\nParameters:\n- name: the thing\nReturns:\n- int: the count".toList


/-! ## Reference notions for the discoverer -/

/-- No type spec of a general declaration of the file has the name. -/
def NoTypeSpecIn (name : Str) (decls : List Decl) : Prop :=
  ∀ g, Decl.GenDecl g ∈ decls → ∀ ts, Spec.TypeSpec ts ∈ g.Specs → ts.Name ≠ name

/-- No function declaration of the tree has the name. -/
def NoFuncDeclIn (name : Str) (astPkg : AstPackage) : Prop :=
  ∀ entry ∈ astPkg.Files, ∀ f, Decl.FuncDecl f ∈ entry.2.Decls → f.Name ≠ name

/-- No type spec of the tree has the name. -/
def NoTypeSpecInTree (name : Str) (astPkg : AstPackage) : Prop :=
  ∀ entry ∈ astPkg.Files, NoTypeSpecIn name entry.2.Decls

mutual
/-- The errors that reading the nodes of a tree can report. -/
def FsNode.errors : FsNode → List Str
  | .file _ lstatErr => lstatErr.toList
  | .dir _ lstatErr readErr children => lstatErr.toList ++ readErr.toList ++ childrenErrors children
/-- The errors that reading the nodes of a list of trees can report. -/
def childrenErrors : List FsNode → List Str
  | [] => []
  | child :: rest => child.errors ++ childrenErrors rest
end

/-- The directory walk itself fails: `filepath.Walk` returns an error. -/
def WalkFails (d : Discoverer) (w : World) : Prop :=
  ∃ err allPackages, filepathWalk d w = some (some err, allPackages)

/-- Some manually configured package fails to parse. -/
def SomeManualParseFails (d : Discoverer) (w : World) : Prop :=
  ∃ m ∈ d.config.ManualPackages, ∃ err, parsePackage d w m.Path = Outcome.error err

/-! ## Sample inputs for the discoverer -/

/-- A documentation package without any content. -/
def emptyDocPackage : DocPackage := { Doc := [], Consts := [], Types := [], Vars := [], Funcs := [] }

/-- A package summary with a name and a path and nothing else. -/
def barePackage (name path : String) : PackageInfo :=
  { Name := name.toList, Path := path.toList, ImportPath := [], Description := [],
    Doc := emptyDocPackage, Functions := [], Types := [], Variables := [], Constants := [],
    Examples := [], Files := [] }

/-- A package named `lib` without files. -/
def libPkg : AstPackage := { Name := "lib".toList, Files := [] }

/-- A world whose project holds `test/e2e.go`, `vendor/lib.go` and `vendor/pkg/dep.go`;
every directory parses to the package `lib`. -/
def vendorWorld : World :=
  { root := .dir "demo".toList none none
      [.dir "test".toList none none [.file "e2e.go".toList none],
       .dir "vendor".toList none none
         [.file "lib.go".toList none,
          .dir "pkg".toList none none [.file "dep.go".toList none]]]
    parseDir := fun _ _ => .ok [libPkg]
    docNew := fun pkg => (emptyDocPackage, pkg.Files)
    examples := fun _ => []
    readFile := fun _ => none }

/-- A documentation package with a doc comment of two sentences, a variable declaration
`Exported, hidden` and a variable declaration `secret, Visible`. -/
def twoSentenceDoc : DocPackage :=
  { Doc := "Package demo does X. It also does Y.\n".toList, Consts := [], Types := [],
    Vars := [{ Doc := [], Names := ["Exported".toList, "hidden".toList] },
             { Doc := [], Names := ["secret".toList, "Visible".toList] }],
    Funcs := [] }

/-- A world in which `doc.New` gives `twoSentenceDoc` for every package. -/
def docWorld : World :=
  { root := .dir "demo".toList none none []
    parseDir := fun _ _ => .ok [libPkg]
    docNew := fun pkg => (twoSentenceDoc, pkg.Files)
    examples := fun _ => []
    readFile := fun _ => none }

/-- A documented function that the package `addPkg` does not declare. -/
def missingFunc : DocFunc := { Name := "Missing".toList, Doc := [] }

/-- A documented type that the package `addPkg` does not declare. -/
def missingType : DocType := { Name := "Missing".toList, Doc := [], Methods := [addFunc], Funcs := [] }

/-- A discoverer without auto-discovery and with two manual entries: the first overrides
the name, the second the description. -/
def manualDiscoverer : Discoverer :=
  { config := { ImportPath := "example.com/demo".toList, AutoDiscover := false,
                ExcludePatterns := defaultExcludePatterns,
                ManualPackages :=
                  [{ Name := "renamed".toList, Path := "sub".toList, Description := [] },
                   { Name := [], Path := "other".toList, Description := "Described.".toList }],
                IncludeTests := false, IncludeExamples := true },
    projectPath := "/src/demo".toList }

/-- The packages that `DiscoverPackages` returns for `manualDiscoverer` in `docWorld`. -/
def manualResult : List PackageInfo :=
  match DiscoverPackages manualDiscoverer docWorld with
  | some (pkgs, _) => pkgs
  | none => []

/-- A world in which no directory parses. -/
def brokenWorld : World :=
  { root := .dir "demo".toList none none []
    parseDir := fun _ _ => .error "syntax error".toList
    docNew := fun pkg => (emptyDocPackage, pkg.Files)
    examples := fun _ => []
    readFile := fun _ => none }

/-! ## Reference notions for the type formatter -/

/-- A character that may stand inside a Go identifier: a letter, a digit, the underscore
or a character outside ASCII. -/
def isIdentChar (c : Char) : Bool :=
  c.isAlpha || c.isDigit || c == '_' || decide (128 ≤ c.toNat)

/-- A character that may start a Go identifier. -/
def isIdentStart (c : Char) : Bool :=
  c.isAlpha || c == '_' || decide (128 ≤ c.toNat)

/-- The keywords of Go. -/
def goKeywords : List Str :=
  ["break", "case", "chan", "const", "continue", "default", "defer", "else",
    "fallthrough", "for", "func", "go", "goto", "if", "import", "interface", "map",
    "package", "range", "return", "select", "struct", "switch", "type",
    "var"].map String.toList

/-- A Go identifier: identifier characters, not starting with a digit, not a keyword. -/
def isIdentifier (name : Str) : Bool :=
  match name with
  | [] => false
  | c :: rest => isIdentStart c && rest.all isIdentChar && !goKeywords.contains name

/-- The expression is the nil interface value. -/
def Expr.isNil : Expr → Bool
  | .Nil => true
  | _ => false

/-- The expression is an identifier node that holds a Go identifier. -/
def Expr.isPackageName : Expr → Bool
  | .Ident name => isIdentifier name
  | _ => false

/-- A field without names, doc comment, tag and line comment. -/
def Field.isBare : Field → Bool
  | .mk none [] _ none none => true
  | _ => false

/-- A field with at least one name, all of them identifiers, and without doc comment, tag
and line comment. -/
def Field.isNamed : Field → Bool
  | .mk none (name :: names) _ none none => (name :: names).all isIdentifier
  | _ => false

/-- The field list is present and empty. -/
def isEmptyFieldList : Option (List Field) → Bool
  | some [] => true
  | _ => false

mutual
/-- The type expressions on which the formatter is shown to be injective: identifiers,
pointers, slices, maps, channels, function types with named or unnamed parameters and
unnamed results, the empty interface, package-qualified names and variadic elements. -/
def isPlainType : Expr → Bool
  | .Ident name => isIdentifier name
  | .StarExpr x => isPlainType x
  | .ArrayType len elt => len.isNil && isPlainType elt
  | .MapType key value => isPlainType key && isPlainType value
  | .ChanType _ value => isPlainType value
  | .FuncType params results => isPlainParams params && isPlainResults results
  | .InterfaceType methods => isEmptyFieldList methods
  | .SelectorExpr x sel => x.isPackageName && isIdentifier sel
  | .Ellipsis elt => isPlainType elt
  | _ => false
/-- A parameter list of the parser: present, its fields all named or all unnamed. -/
def isPlainParams : Option (List Field) → Bool
  | none => false
  | some list => (list.all Field.isNamed || list.all Field.isBare) && isPlainFields list
/-- A result list: absent, or one or more unnamed fields. -/
def isPlainResults : Option (List Field) → Bool
  | none => true
  | some list => !list.isEmpty && list.all Field.isBare && isPlainFields list
/-- The types of all fields are plain. -/
def isPlainFields : List Field → Bool
  | [] => true
  | .mk _ _ type _ _ :: rest => isPlainType type && isPlainFields rest
end

/-- A text that may follow a type inside a formatted type: nothing, or a text starting
with a closing bracket, a comma or a closing parenthesis. -/
def isFollow (s : Str) : Bool :=
  match s with
  | [] => true
  | c :: _ => c == ']' || c == ',' || c == ')'

/-- The identifier characters at the start of a text and the character after them. -/
def lead (s : Str) : Str × Option Char :=
  (s.takeWhile isIdentChar, (s.dropWhile isIdentChar).head?)

/-- The value of `lead` on the formatted text of a plain type followed by `s`. -/
def leadOf (e : Expr) (s : Str) : Str × Option Char :=
  match e with
  | .Ident name => (name, s.head?)
  | .StarExpr _ => ([], some '*')
  | .ArrayType _ _ => ([], some '[')
  | .MapType _ _ => ("map".toList, some '[')
  | .ChanType dir _ =>
    (if dir = ChanDir.RECV then [] else "chan".toList,
      some (if dir = ChanDir.BOTH then ' ' else '<'))
  | .FuncType _ _ => ("func".toList, some '(')
  | .InterfaceType _ => ("interface".toList, some '\x7b')
  | .SelectorExpr x _ => (formatType x, some '.')
  | .Ellipsis _ => ([], some '.')
  | _ => ([], none)

/-- The formatter is injective at `e1`, also in front of a following text. -/
def InjectiveAt (e1 : Expr) : Prop :=
  ∀ (e2 : Expr) (s1 s2 : Str), isPlainType e1 = true → isPlainType e2 = true →
    isFollow s1 = true → isFollow s2 = true →
    formatType e1 ++ s1 = formatType e2 ++ s2 → e1 = e2 ∧ s1 = s2

/-- The node kind of a plain type. -/
def kind : Expr → Nat
  | .Ident _ => 1
  | .StarExpr _ => 2
  | .ArrayType _ _ => 3
  | .MapType _ _ => 4
  | .ChanType _ _ => 5
  | .FuncType _ _ => 6
  | .InterfaceType _ => 7
  | .SelectorExpr _ _ => 8
  | .Ellipsis _ => 9
  | _ => 0

/-- The node kind that a value of `lead` stands for. -/
def kindOfLead (l : Str × Option Char) : Nat :=
  if l.2 = some '*' then 2
  else if l.2 = some '[' then (if l.1 = [] then 3 else 4)
  else if l.2 = some ' ' ∨ l.2 = some '<' then 5
  else if l.2 = some '(' then 6
  else if l.2 = some '\x7b' then 7
  else if l.2 = some '.' then (if l.1 = [] then 9 else 8)
  else 1

/-- The channel direction that a value of `lead` stands for. -/
def dirOfLead (l : Str × Option Char) : ChanDir :=
  if l.2 = some ' ' then .BOTH else if l.1 = [] then .RECV else .SEND

/-- The parameter loop is injective on lists of unnamed fields, from index 1 on. -/
def BareInjective (l1 : List Field) : Prop :=
  ∀ (l2 : List Field) (t1 t2 : Str), l1.all Field.isBare = true → l2.all Field.isBare = true →
    isPlainFields l1 = true → isPlainFields l2 = true →
    formatParamList l1 1 ++ ')' :: t1 = formatParamList l2 1 ++ ')' :: t2 → l1 = l2 ∧ t1 = t2

/-- The parameter loop is injective on lists of named fields, from index 1 on. -/
def NamedInjective (l1 : List Field) : Prop :=
  ∀ (l2 : List Field) (t1 t2 : Str), l1.all Field.isNamed = true →
    l2.all Field.isNamed = true → isPlainFields l1 = true → isPlainFields l2 = true →
    formatParamList l1 1 ++ ')' :: t1 = formatParamList l2 1 ++ ')' :: t2 → l1 = l2 ∧ t1 = t2

/-- The type `func(a, b int) string`. -/
def groupedFuncType : Expr :=
  .FuncType (some [.mk none ["a".toList, "b".toList] (.Ident "int".toList) none none])
    (some [.mk none [] (.Ident "string".toList) none none])

/-- The type `func(a int, b int) string`. -/
def ungroupedFuncType : Expr :=
  .FuncType
    (some [.mk none ["a".toList] (.Ident "int".toList) none none,
      .mk none ["b".toList] (.Ident "int".toList) none none])
    (some [.mk none [] (.Ident "string".toList) none none])

/-- The type `interface{ Close() error }`. -/
def closerType : Expr :=
  .InterfaceType (some [.mk none ["Close".toList]
    (.FuncType (some []) (some [.mk none [] (.Ident "error".toList) none none])) none none])

/-- The type `interface{}`. -/
def emptyInterfaceType : Expr := .InterfaceType (some [])

/-! ## Package categories -/

/-- The statement `categories[category] = append(categories[category], pkg)` on the Go
map from category to packages.  The map is kept as the list of its entries, in the order
in which their keys were first used; that order carries no meaning. -/
def appendToCategory (category : Str) (pkg : PackageInfo) :
    List (Str × List PackageInfo) → List (Str × List PackageInfo)
  | [] => [(category, [pkg])]
  | (key, list) :: rest =>
    if key = category then (key, list ++ [pkg]) :: rest
    else (key, list) :: appendToCategory category pkg rest

/-- The loop of `GetPackagesByCategory`. -/
def categoriesLoop :
    List PackageInfo → List (Str × List PackageInfo) → List (Str × List PackageInfo)
  | [], categories => categories
  | pkg :: rest, categories =>
    categoriesLoop rest (appendToCategory (determinePackageCategory pkg) pkg categories)

/-- The function `GetPackagesByCategory`: the entries of the map it returns. -/
def GetPackagesByCategory (packages : List PackageInfo) : List (Str × List PackageInfo) :=
  categoriesLoop packages []

/-- The invariant of the loop of `GetPackagesByCategory`: `m` is the map after the
packages `done`.  The keys of the map are distinct; the list under a key holds, in their
order, the packages of that category and is not empty; the category of every package is
a key; the lengths of the lists add up to the number of packages. -/
def CategoriesOf (m : List (Str × List PackageInfo)) (done : List PackageInfo) : Prop :=
  (m.map Prod.fst).Nodup ∧
  (∀ entry ∈ m,
    entry.2 = done.filter (fun p => decide (determinePackageCategory p = entry.1)) ∧
      entry.2 ≠ []) ∧
  (∀ p ∈ done, determinePackageCategory p ∈ m.map Prod.fst) ∧
  (m.map fun entry => entry.2.length).sum = done.length

/-! ## Reference notions for the type enhancer -/

/-- The value of a function that returns a pointer and an error, when there is one. -/
def Outcome.value {α : Type} : Outcome α → Option α
  | .ok val => some val
  | _ => none

/-- The kind tag of an underlying type node. -/
def typeKindTag : Expr → Str
  | .StructType _ => "struct".toList
  | .InterfaceType _ => "interface".toList
  | _ => "type".toList

/-- The cleaned texts of the comments of a group: each comment without a leading `//`
and without surrounding white space, the empty ones left out. -/
def cleanedComments (comments : List Str) : List Str :=
  (comments.map fun comment => trimSpace (trimPrefix comment "//".toList)).filter
    fun text => decide (text ≠ [])

/-- The cleaned texts of an optional comment group. -/
def groupTexts (group : Option (List Str)) : List Str :=
  match group with
  | some list => cleanedComments list
  | none => []

/-- The cleaned text of a comment group: its cleaned comments joined by single spaces. -/
def cleanedText (comments : List Str) : Str :=
  trimSpace (join (cleanedComments comments) " ".toList)

/-- The documentation of a struct field: the cleaned text of its leading comment when
one is attached, otherwise of its trailing comment, otherwise nothing. -/
def fieldDocumentation (field : Field) : Str :=
  match field.Doc, field.Comment with
  | some leading, _ => cleanedText leading
  | none, some trailing => cleanedText trailing
  | none, none => []

/-- The entries that the fields of a struct type declare: one per name of a field, one
with the empty name for an embedded field. -/
def declaredFields (list : List Field) : List FieldInfo :=
  list.flatMap fun field =>
    if field.Names = [] then
      [{ Name := [], Type_ := formatType field.Type_, Tag := field.Tag.getD [],
         Doc := fieldDocumentation field }]
    else
      field.Names.map fun name =>
        { Name := name, Type_ := formatType field.Type_, Tag := field.Tag.getD [],
          Doc := fieldDocumentation field }

/-- The fields that a type node declares: those of a struct type, none otherwise. -/
def declaredFieldsOf : Expr → List FieldInfo
  | .StructType (some list) => declaredFields list
  | _ => []

/-- The documentation sources of a type spec inside a declaration, in the order in which
`extractTypeDocumentation` reads them: the doc comment of the declaration, the doc
comment of the spec, the trailing comment of the spec. -/
def documentationSources (genDecl : GenDecl) (typeSpec : TypeSpec) : List Str :=
  groupTexts genDecl.Doc ++ groupTexts typeSpec.Doc ++ groupTexts typeSpec.Comment

/-- The names for which `generateExampleValue` has a value of its own. -/
def exampleValueNames : List Str :=
  ["string", "int", "int8", "int16", "int32", "int64", "uint", "uint8", "uint16",
    "uint32", "uint64", "float32", "float64", "bool"].map String.toList

/-- The expression is an identifier, a pointer, an array or slice type, or a map type:
the kinds for which `generateExampleValue` has a case. -/
def hasExampleCase : Expr → Bool
  | .Ident _ => true
  | .StarExpr _ => true
  | .ArrayType _ _ => true
  | .MapType _ _ => true
  | _ => false

/-! ## Sample inputs for the symbol enhancer -/

/-- The type spec of `type ID int`. -/
def idSpec : TypeSpec :=
  { Doc := none, Name := "ID".toList, Type_ := intType, Comment := none, Line := 3 }

/-- A package whose one file declares `type ID int`. -/
def idPkg : AstPackage :=
  { Name := "demo".toList,
    Files := [("id.go".toList, ⟨[.GenDecl { Doc := none, Tok := .TYPE, Specs := [.TypeSpec idSpec] }]⟩)] }

/-- The documented type `ID`. -/
def idType : DocType := { Name := "ID".toList, Doc := [], Methods := [], Funcs := [] }

/-- The fields `X, Y int` with a tag and a leading comment, an embedded `sync.Mutex`
with a trailing comment, and `name string` without comment. -/
def pointFields : List Field :=
  [.mk (some ["// X and Y are the coordinates.".toList]) ["X".toList, "Y".toList] intType
      (some "`json:\"xy\"`".toList) (some ["// ignored".toList]),
   .mk none [] (.SelectorExpr (.Ident "sync".toList) "Mutex".toList) none
      (some ["// guards the point".toList]),
   .mk none ["name".toList] (.Ident "string".toList) none none]

/-- The type spec of the struct type `Point` with the fields `pointFields`. -/
def pointSpec : TypeSpec :=
  { Doc := none, Name := "Point".toList, Type_ := .StructType (some pointFields),
    Comment := none, Line := 3 }

/-- A package whose one file declares the struct type `Point`. -/
def pointPkg : AstPackage :=
  { Name := "demo".toList,
    Files := [("point.go".toList,
      ⟨[.GenDecl { Doc := none, Tok := .TYPE, Specs := [.TypeSpec pointSpec] }]⟩)] }

/-- The documented type `Point`. -/
def pointType : DocType := { Name := "Point".toList, Doc := [], Methods := [], Funcs := [] }

/-- The type spec `A int // the A kind` with the doc comment `// A is one kind.`. -/
def kindSpec : TypeSpec :=
  { Doc := some ["// A is one kind.".toList], Name := "A".toList, Type_ := intType,
    Comment := some ["// the A kind".toList], Line := 4 }

/-- The declaration `type ( A int )` with the doc comment `// Kinds of things.`. -/
def kindsDecl : GenDecl :=
  { Doc := some ["// Kinds of things.".toList], Tok := .TYPE, Specs := [.TypeSpec kindSpec] }

/-- A package whose one file holds the declaration `kindsDecl`. -/
def kindsPkg : AstPackage :=
  { Name := "demo".toList, Files := [("kinds.go".toList, ⟨[.GenDecl kindsDecl]⟩)] }

/-- The package `kindsPkg` with the doc comment of the type spec taken away. -/
def groupedKindsPkg : AstPackage :=
  { Name := "demo".toList,
    Files := [("kinds.go".toList,
      ⟨[.GenDecl { kindsDecl with Specs := [.TypeSpec { kindSpec with Doc := none }] }]⟩)] }

/-- The qualified type `time.Time`. -/
def timeType : Expr := .SelectorExpr (.Ident "time".toList) "Time".toList

/-- The documented interface `Reader`, whose doc names the method in mid-sentence. -/
def readerType : DocType :=
  { Name := "Reader".toList, Doc := "The Read method reads data.\n".toList,
    Methods := [], Funcs := [] }

/-- The declaration `func Pair(a, b int) (x, y int)`. -/
def pairDecl : FuncDecl :=
  { Doc := none, Recv := none, Name := "Pair".toList,
    Type_ := ⟨some [plainField ["a", "b"] intType], some [plainField ["x", "y"] intType]⟩ }

/-- A package whose one file declares `Pair`. -/
def pairPkg : AstPackage :=
  { Name := "demo".toList, Files := [("pair.go".toList, ⟨[.FuncDecl pairDecl]⟩)] }

/-- The documented function `Pair`, with a `Returns:` section of two entries. -/
def pairFunc : DocFunc :=
  { Name := "Pair".toList, Doc := "Pair splits.\nReturns:\n- x: the first\n- y: the second\n".toList }

/-- A package of the two files `a.go` and `b.go`, visited in this order. -/
def twoFilesPkg : AstPackage :=
  { Name := "demo".toList, Files := [("a.go".toList, ⟨[]⟩), ("b.go".toList, ⟨[]⟩)] }

/-- The package `twoFilesPkg` with its files visited in the other order. -/
def twoFilesSwappedPkg : AstPackage :=
  { Name := "demo".toList, Files := [("b.go".toList, ⟨[]⟩), ("a.go".toList, ⟨[]⟩)] }

/-- A world in which every directory parses to the given packages, visited in the given
order. -/
def orderWorld (pkgs : List AstPackage) : World :=
  { root := .dir "demo".toList none none []
    parseDir := fun _ _ => .ok pkgs
    docNew := fun pkg => (emptyDocPackage, pkg.Files)
    examples := fun _ => []
    readFile := fun _ => none }

/-- A package named `alpha` without files. -/
def alphaPkg : AstPackage := { Name := "alpha".toList, Files := [] }

/-- A package named `beta` without files. -/
def betaPkg : AstPackage := { Name := "beta".toList, Files := [] }

/-! ## Lemmas on the string functions -/

theorem dropWhile_eq_self_of_head (p : Char → Bool) (s : Str)
    (h : ∀ c, s.head? = some c → p c = false) : s.dropWhile p = s := by
  cases s with
  | nil => rfl
  | cons a t =>
    have := h a rfl
    simp [List.dropWhile_cons, this]

theorem rdropWhile_eq_self_of_last (p : Char → Bool) (s : Str)
    (h : ∀ c, s.getLast? = some c → p c = false) : s.rdropWhile p = s := by
  rw [List.rdropWhile_eq_self_iff]
  intro hl
  have := h (s.getLast hl) (List.getLast?_eq_getLast _ hl)
  simp [this]

theorem head_dropWhile_false (p : Char → Bool) (s : Str) :
    ∀ c, (s.dropWhile p).head? = some c → p c = false := by
  intro c hc
  have := List.head?_dropWhile_not p s
  rw [hc] at this
  exact this

theorem last_rdropWhile_false (p : Char → Bool) (s : Str) :
    ∀ c, (s.rdropWhile p).getLast? = some c → p c = false := by
  intro c hc
  by_cases hl : s.rdropWhile p = []
  · rw [hl] at hc; simp at hc
  · have h1 := List.rdropWhile_last_not p s hl
    rw [List.getLast?_eq_getLast _ hl] at hc
    simp only [Option.some.injEq] at hc
    rw [hc] at h1
    simpa using h1

theorem prefix_head {a b : Str} (h : a <+: b) : ∀ c, a.head? = some c → b.head? = some c := by
  intro c hc
  obtain ⟨t, rfl⟩ := h
  cases a with
  | nil => simp at hc
  | cons x xs => simpa using hc

theorem noSpaceEnds_trimSpace (s : Str) : NoSpaceEnds (trimSpace s) := by
  refine ⟨fun c hc => ?_, fun c hc => last_rdropWhile_false isSpace _ c hc⟩
  exact head_dropWhile_false isSpace s c
    (prefix_head ( List.rdropWhile_prefix isSpace _) c hc)

theorem trimSpace_eq_self {s : Str} (h : NoSpaceEnds s) : trimSpace s = s := by
  unfold trimSpace
  rw [dropWhile_eq_self_of_head isSpace s h.1, rdropWhile_eq_self_of_last isSpace s h.2]

theorem trimSpace_idem (s : Str) : trimSpace (trimSpace s) = trimSpace s :=
  trimSpace_eq_self (noSpaceEnds_trimSpace s)

theorem intercalate_cons_cons (sep a b : Str) (ls : List Str) :
    sep.intercalate (a :: b :: ls) = a ++ sep ++ sep.intercalate (b :: ls) := by
  simp [List.intercalate, List.intersperse]

theorem intercalate_ne_nil (sep a : Str) (ls : List Str) (ha : a ≠ []) :
    sep.intercalate (a :: ls) ≠ [] := by
  cases ls with
  | nil => simpa [List.intercalate] using ha
  | cons b t => rw [intercalate_cons_cons]; simp [ha]

theorem noSpaceEnds_intercalate (ls : List Str)
    (h : ∀ l ∈ ls, NoSpaceEnds l ∧ l ≠ []) : NoSpaceEnds (" ".toList.intercalate ls) := by
  induction ls with
  | nil => exact ⟨fun c hc => by simp [List.intercalate] at hc, fun c hc => by simp [List.intercalate] at hc⟩
  | cons a t ih =>
    cases t with
    | nil =>
      have := (h a (by simp)).1
      simpa [List.intercalate] using this
    | cons b t =>
      have ha := h a (by simp)
      have ht := ih (fun l hl => h l (List.mem_cons_of_mem _ hl))
      have hne := intercalate_ne_nil " ".toList b t (h b (by simp)).2
      rw [intercalate_cons_cons]
      constructor
      · intro c hc
        apply ha.1.1 c
        obtain ⟨x, xs, hx⟩ := List.exists_cons_of_ne_nil ha.2
        rw [hx] at hc ⊢
        simpa using hc
      · intro c hc
        apply ht.2 c
        rw [List.getLast?_append_of_ne_nil _ hne] at hc
        exact hc

theorem startsSection_nil : startsSection [] = false := by decide

theorem mainDescriptionLoop_eq (lines mainLines : List Str) :
    mainDescriptionLoop lines mainLines =
      mainLines ++ (((lines.map trimSpace).takeWhile (fun l => !startsSection l)).filter
        (fun l => decide (l ≠ []))) := by
  induction lines generalizing mainLines with
  | nil => simp [mainDescriptionLoop]
  | cons line rest ih =>
    simp only [mainDescriptionLoop, List.map_cons, List.takeWhile_cons]
    by_cases hh : startsSection (trimSpace line) = true
    · have hh2 := hh
      simp only [startsSection, startsParameters, startsReturns] at hh2
      rw [if_pos hh2]
      simp [hh]
    · have hh2 := hh
      simp only [startsSection, startsParameters, startsReturns] at hh2
      simp only [Bool.not_eq_true] at hh
      rw [if_neg hh2]
      by_cases he : trimSpace line = []
      · rw [if_neg (by simp [he]), ih]
        simp [he, startsSection_nil]
      · rw [if_pos he, ih]
        simp [hh, he]

theorem split_nil (sep : Char) : split sep [] = [[]] := rfl

theorem extractMainDescription_eq (doc : Str) :
    extractMainDescription doc = mainDescriptionWith startsSection doc := by
  unfold extractMainDescription mainDescriptionWith trimmedLines
  by_cases hd : doc = []
  · subst hd
    rfl
  · rw [if_neg hd, mainDescriptionLoop_eq, List.nil_append]
    unfold join
    apply trimSpace_eq_self
    apply noSpaceEnds_intercalate
    intro l hl
    rw [List.mem_filter] at hl
    have hm := ( List.takeWhile_prefix _).subset hl.1
    obtain ⟨x, _, rfl⟩ := List.mem_map.mp hm
    exact ⟨noSpaceEnds_trimSpace x, by simpa using hl.2⟩

theorem contains_colon (s : Str) : contains s ":".toList = true ↔ ':' ∈ s := by
  induction s with
  | nil => simp [contains]
  | cons c cs ih =>
    simp only [contains, Bool.or_eq_true, ih, List.mem_cons]
    constructor
    · rintro (h | h)
      · left
        simp [String.toList, List.isPrefixOf] at h
        exact h
      · right; exact h
    · rintro (h | h)
      · left
        subst h
        simp [String.toList, List.isPrefixOf]
      · right; exact h

theorem splitN2_of_mem (s : Str) (h : ':' ∈ s) :
    splitN2 ':' s = [s.takeWhile (fun c => c != ':'), (s.dropWhile (fun c => c != ':')).drop 1] := by
  induction s with
  | nil => simp at h
  | cons c cs ih =>
    by_cases hc : c = ':'
    · subst hc
      simp [splitN2]
    · have hm : ':' ∈ cs := by
        rcases List.mem_cons.mp h with h | h
        · exact absurd h.symm hc
        · exact h
      simp [splitN2, hc, ih hm]

theorem splitN2_of_not_mem (s : Str) (h : ':' ∉ s) : splitN2 ':' s = [s] := by
  induction s with
  | nil => rfl
  | cons c cs ih =>
    have hc : c ≠ ':' := fun e => h (by simp [e])
    have hm : ':' ∉ cs := fun e => h (List.mem_cons_of_mem _ e)
    simp [splitN2, hc, ih hm]

theorem startsReturns_not_dash (l : Str) (h : startsReturns l = true) :
    hasPrefix l "- ".toList = false := by
  cases l with
  | nil => rfl
  | cons c cs =>
    by_cases hc : c = '-'
    · subst hc
      simp [startsReturns, hasPrefix, toLower, String.toList, List.isPrefixOf] at h
      exact absurd h.1 (by decide)
    · simp [hasPrefix, String.toList, List.isPrefixOf]
      intro e
      exact absurd e.symm hc

theorem startsParameters_not_dash (l : Str) (h : startsParameters l = true) :
    hasPrefix l "- ".toList = false := by
  cases l with
  | nil => rfl
  | cons c cs =>
    by_cases hc : c = '-'
    · subst hc
      simp [startsParameters, hasPrefix, toLower, String.toList, List.isPrefixOf] at h
      exact absurd h.1 (by decide)
    · simp [hasPrefix, String.toList, List.isPrefixOf]
      intro e
      exact absurd e.symm hc

theorem startsReturns_not_entry (l : Str) (h : startsReturns l = true) :
    isReturnEntry l = false := by
  simp only [isReturnEntry, startsReturns_not_dash l h, Bool.false_and]

theorem returnEntry_text (l : Str) (h : isReturnEntry l = true) :
    trimSpace ((splitN2 ':' l).getD 1 []) = textAfterColon l ∧ 1 < (splitN2 ':' l).length := by
  simp only [isReturnEntry, Bool.and_eq_true] at h
  rw [splitN2_of_mem l ((contains_colon l).mp h.2)]
  simp [textAfterColon]

theorem returnDocLoop_true (idx : Int) (lines : List Str) (cnt : Int) :
    returnDocLoop idx lines true cnt =
      if cnt ≤ idx then
        match ((lines.map trimSpace).filter isReturnEntry)[(idx - cnt).toNat]? with
        | some l => textAfterColon l
        | none => []
      else [] := by
  induction lines generalizing cnt with
  | nil =>
    simp only [returnDocLoop, List.map_nil, List.filter_nil, List.getElem?_nil]
    split <;> rfl
  | cons line rest ih =>
    simp only [returnDocLoop, List.map_cons]
    by_cases hh : startsReturns (trimSpace line) = true
    · have hh2 := hh
      simp only [startsReturns] at hh2
      rw [if_pos hh2, ih, List.filter_cons_of_neg (by simp [startsReturns_not_entry _ hh])]
    · have hh2 := hh
      simp only [startsReturns] at hh2
      rw [if_neg hh2]
      by_cases he : isReturnEntry (trimSpace line) = true
      · have he2 := he
        simp only [isReturnEntry] at he2
        have he3 : (true && hasPrefix (trimSpace line) "- ".toList
            && contains (trimSpace line) ":".toList) = true := by simpa using he2
        rw [if_pos he3, List.filter_cons_of_pos he]
        obtain ⟨ht, hl⟩ := returnEntry_text _ he
        by_cases hc : cnt = idx
        · subst hc
          rw [if_pos ⟨rfl, hl⟩, ht]
          simp
        · rw [if_neg (fun h => hc h.1), ih]
          by_cases hle : cnt ≤ idx
          · have h1 : cnt + 1 ≤ idx := by omega
            have h2 : (idx - cnt).toNat = (idx - (cnt + 1)).toNat + 1 := by omega
            rw [if_pos h1, if_pos hle, h2, List.getElem?_cons_succ]
          · have h1 : ¬ cnt + 1 ≤ idx := by omega
            rw [if_neg h1, if_neg hle]
      · have he2 := he
        simp only [isReturnEntry] at he2
        have he3 : ¬ (true && hasPrefix (trimSpace line) "- ".toList
            && contains (trimSpace line) ":".toList) = true := by simpa using he2
        rw [if_neg he3, ih, List.filter_cons_of_neg he]

theorem returnDocLoop_false (idx : Int) (lines : List Str) (cnt : Int) :
    returnDocLoop idx lines false cnt =
      returnDocLoop idx ((lines.dropWhile (fun l => !startsReturns (trimSpace l))).drop 1)
        true cnt := by
  induction lines generalizing cnt with
  | nil => simp [returnDocLoop]
  | cons line rest ih =>
    by_cases hh : startsReturns (trimSpace line) = true
    · have hh2 := hh
      simp only [startsReturns] at hh2
      rw [List.dropWhile_cons_of_neg (by simp [hh])]
      simp only [List.drop_succ_cons, List.drop_zero]
      conv_lhs => unfold returnDocLoop
      simp only [hh2, if_true]
    · have hh2 := hh
      simp only [startsReturns] at hh2
      rw [List.dropWhile_cons_of_pos (by simp [hh]), ← ih]
      conv_lhs => unfold returnDocLoop
      simp only [hh2, if_false, Bool.false_and]
      rfl

theorem sectionLines_open (opens : Str → Bool) (lines : List Str) :
    sectionLines opens (fun _ => false) lines = (lines.dropWhile (fun l => !opens l)).drop 1 := by
  simp [sectionLines]

theorem extractReturnDoc_eq (doc : Str) (index : Int) :
    extractReturnDoc doc index = returnDocWith startsReturns (fun _ => false) doc index := by
  have key : returnDocLoop index (split '\n' doc) false 0
      = returnDocWith startsReturns (fun _ => false) doc index := by
    rw [returnDocLoop_false, returnDocLoop_true]
    unfold returnDocWith
    rw [sectionLines_open, trimmedLines, List.dropWhile_map, List.map_drop]
    cases index with
    | ofNat n => simp [Function.comp_def]
    | negSucc n =>
      have : ¬ (0 : Int) ≤ Int.negSucc n := by
        have := Int.negSucc_lt_zero n
        omega
      rw [if_neg this]
  unfold extractReturnDoc
  by_cases hd : doc = []
  · subst hd
    rw [if_pos rfl]
    cases index <;> rfl
  · rw [if_neg hd, key]

theorem contains_subset (s sub : Str) (h : contains s sub = true) : ∀ c ∈ sub, c ∈ s := by
  induction s with
  | nil =>
    simp only [contains, List.isEmpty_iff] at h
    subst h
    simp
  | cons a t ih =>
    simp only [contains, Bool.or_eq_true] at h
    rcases h with h | h
    · exact fun c hc => ( List.isPrefixOf_iff_prefix.mp h).subset hc
    · exact fun c hc => List.mem_cons_of_mem _ (ih h c hc)

theorem mentionsParam_text (n l : Str) (h : mentionsParam n l = true) :
    trimSpace ((splitN2 ':' l).getD 1 []) = textAfterColon l ∧ 1 < (splitN2 ':' l).length := by
  simp only [mentionsParam, Bool.and_eq_true] at h
  have hm : ':' ∈ l := contains_subset l _ h.2 ':' (by simp [String.toList])
  rw [splitN2_of_mem l hm]
  simp [textAfterColon]

theorem startsParameters_not_mentions (n l : Str) (h : startsParameters l = true) :
    mentionsParam n l = false := by
  simp only [mentionsParam, startsParameters_not_dash l h, Bool.false_and]

theorem paramDocLoop_step (n line : Str) (rest : List Str) (flag : Bool)
    (hh : startsParameters (trimSpace line) = false) :
    paramDocLoop n (line :: rest) flag =
      if (flag && mentionsParam n (trimSpace line) || isParamEntry n (trimSpace line)) = true then
        paramText n (trimSpace line) flag
      else paramDocLoop n rest flag := by
  have hh2 : ¬ hasPrefix (toLower (trimSpace line)) "parameters:".toList = true := by
    simpa [startsParameters] using hh
  have e1 : (n ++ ":".toList).length = n.length + 1 := by simp [String.toList]
  have e2 : ("- ".toList ++ n ++ ":".toList).length = n.length + 3 := by
    simp [String.toList]
  simp only [paramDocLoop]
  rw [if_neg hh2]
  by_cases hm : (flag && mentionsParam n (trimSpace line)) = true
  · have hm1 : mentionsParam n (trimSpace line) = true := by
      simp only [Bool.and_eq_true] at hm; exact hm.2
    obtain ⟨ht, hl⟩ := mentionsParam_text n _ hm1
    have c1 : (flag && hasPrefix (trimSpace line) "- ".toList
        && contains (trimSpace line) (n ++ ":".toList)
        && decide (1 < (splitN2 ':' (trimSpace line)).length)) = true := by
      simp only [mentionsParam] at hm
      simp only [Bool.and_eq_true, decide_eq_true_eq] at hm ⊢
      exact ⟨⟨⟨hm.1, hm.2.1⟩, hm.2.2⟩, hl⟩
    rw [if_pos c1, hm, Bool.true_or, if_pos rfl, ht, paramText, hm, if_pos rfl]
  · have c1 : ¬ (flag && hasPrefix (trimSpace line) "- ".toList
        && contains (trimSpace line) (n ++ ":".toList)
        && decide (1 < (splitN2 ':' (trimSpace line)).length)) = true := by
      intro h
      apply hm
      simp only [mentionsParam]
      simp only [Bool.and_eq_true, decide_eq_true_eq] at h ⊢
      exact ⟨h.1.1.1, h.1.1.2, h.1.2⟩
    have hm' : (flag && mentionsParam n (trimSpace line)) = false := by simpa using hm
    rw [if_neg c1, hm', Bool.false_or, paramText, hm', if_neg Bool.false_ne_true, isParamEntry]
    by_cases h1 : hasPrefix (trimSpace line) (n ++ ":".toList) = true
    · rw [if_pos h1, h1, Bool.true_or, if_pos rfl, if_pos rfl, trimPrefix, if_pos h1, e1]
    · have h1' : hasPrefix (trimSpace line) (n ++ ":".toList) = false := by simpa using h1
      rw [if_neg h1, h1', Bool.false_or]
      by_cases h2 : hasPrefix (trimSpace line) ("- ".toList ++ n ++ ":".toList) = true
      · rw [if_pos h2, if_pos h2, if_neg Bool.false_ne_true, trimPrefix, if_pos h2, e2]
      · rw [if_neg h2, if_neg h2]

theorem paramDocLoop_true (n : Str) (lines : List Str) :
    paramDocLoop n lines true =
      match ((lines.map trimSpace).filter (fun l => !startsParameters l)).find?
          (fun l => mentionsParam n l || isParamEntry n l) with
      | some l => paramText n l true
      | none => [] := by
  induction lines with
  | nil => simp [paramDocLoop]
  | cons line rest ih =>
    by_cases hh : startsParameters (trimSpace line) = true
    · have hh2 := hh
      simp only [startsParameters] at hh2
      rw [List.map_cons, List.filter_cons_of_neg (by simp [hh]), ← ih]
      conv_lhs => unfold paramDocLoop
      simp only [hh2, if_true]
    · have hh' : startsParameters (trimSpace line) = false := by simpa using hh
      rw [paramDocLoop_step n line rest true hh', List.map_cons,
        List.filter_cons_of_pos (by simp [hh']), List.find?_cons]
      by_cases hm : (mentionsParam n (trimSpace line) || isParamEntry n (trimSpace line)) = true
      · simp [hm]
      · have hm' : (mentionsParam n (trimSpace line) || isParamEntry n (trimSpace line)) = false := by
          simpa using hm
        simp only [Bool.true_and, hm', if_false, ih]
        rfl

theorem filter_dropWhile_not (p : Str → Bool) (lines : List Str) :
    (lines.dropWhile (fun l => !p l)).filter (fun l => !p l)
      = ((lines.dropWhile (fun l => !p l)).drop 1).filter (fun l => !p l) := by
  induction lines with
  | nil => rfl
  | cons a t ih =>
    by_cases h : p a = true
    · rw [List.dropWhile_cons_of_neg (by simp [h]), List.filter_cons_of_neg (by simp [h])]
      simp
    · rw [List.dropWhile_cons_of_pos (by simp [h]), ih]

theorem paramDocLoop_false (n : Str) (lines : List Str) :
    paramDocLoop n lines false =
      match ((lines.map trimSpace).takeWhile (fun l => !startsParameters l)).find?
          (isParamEntry n) with
      | some l => paramText n l false
      | none =>
        paramDocLoop n ((lines.dropWhile (fun l => !startsParameters (trimSpace l))).drop 1)
          true := by
  induction lines with
  | nil => simp [paramDocLoop]
  | cons line rest ih =>
    by_cases hh : startsParameters (trimSpace line) = true
    · have hh2 := hh
      simp only [startsParameters] at hh2
      rw [List.map_cons, List.takeWhile_cons_of_neg (by simp [hh]),
        List.dropWhile_cons_of_neg (by simp [hh])]
      simp only [List.find?_nil, List.drop_succ_cons, List.drop_zero]
      conv_lhs => unfold paramDocLoop
      simp only [hh2, if_true]
    · have hh' : startsParameters (trimSpace line) = false := by simpa using hh
      rw [paramDocLoop_step n line rest false hh', List.map_cons,
        List.takeWhile_cons_of_pos (by simp [hh']), List.find?_cons,
        List.dropWhile_cons_of_pos (by simp [hh'])]
      by_cases hm : isParamEntry n (trimSpace line) = true
      · simp [hm]
      · have hm' : isParamEntry n (trimSpace line) = false := by simpa using hm
        simp only [Bool.false_and, Bool.false_or, hm', if_false, ih]
        rfl

theorem extractParamDoc_eq (doc paramName : Str) :
    extractParamDoc doc paramName = paramDocWith startsParameters doc paramName := by
  have key : paramDocLoop paramName (split '\n' doc) false
      = paramDocWith startsParameters doc paramName := by
    rw [paramDocLoop_false, paramDocLoop_true]
    unfold paramDocWith
    simp only [trimmedLines]
    rw [filter_dropWhile_not, List.dropWhile_map, List.map_drop]
    rfl
  unfold extractParamDoc
  by_cases hd : doc = []
  · subst hd
    have h0 : paramDocLoop paramName (split '\n' []) false = [] := by
      cases paramName <;>
        simp [split, paramDocLoop, trimSpace, hasPrefix, toLower, contains, List.rdropWhile,
          String.toList, List.isPrefixOf, trimPrefix]
    rw [if_pos rfl, ← key, h0]
  · rw [if_neg hd, key]

/-! ## Lemmas on the function enhancer -/

theorem formatType_funcType (params results : Option (List Field)) :
    formatType (.FuncType params results) = "func".toList ++ formatFuncSignature params results := by
  simp [formatType, formatFuncSignature]

theorem appendNamedParams_eq (fullDoc paramType : Str) (names : List Str)
    (params : List Parameter) :
    appendNamedParams fullDoc paramType names params =
      params ++ names.map (fun n =>
        { Name := n, Type_ := paramType, Doc := extractParamDoc fullDoc n }) := by
  induction names generalizing params with
  | nil => simp [appendNamedParams]
  | cons n rest ih => simp [appendNamedParams, ih]

theorem appendParams_pairs (fullDoc : Str) (list : List Field) (params : List Parameter) :
    (appendParams fullDoc list params).map (fun p => (p.Name, p.Type_)) =
      params.map (fun p => (p.Name, p.Type_)) ++ declaredParams list := by
  induction list generalizing params with
  | nil => simp [appendParams, declaredParams]
  | cons g rest ih =>
    have hd : declaredParams (g :: rest) = declaredParams [g] ++ declaredParams rest := by
      simp [declaredParams]
    simp only [appendParams]
    by_cases hn : g.Names = []
    · have h0 : ¬ 0 < g.Names.length := by simp [hn]
      rw [if_neg h0, ih, hd]
      simp [declaredParams, hn]
    · have h0 : 0 < g.Names.length := List.length_pos.mpr hn
      rw [if_pos h0, ih, hd, appendNamedParams_eq]
      simp [declaredParams, hn, Function.comp_def]

theorem declaredParams_length (list : List Field) :
    (declaredParams list).length = declaredParamCount list := by
  induction list with
  | nil => rfl
  | cons g rest ih =>
    have hd : declaredParams (g :: rest) = declaredParams [g] ++ declaredParams rest := by
      simp [declaredParams]
    rw [hd, List.length_append, ih]
    simp only [declaredParamCount, List.map_cons, List.sum_cons]
    congr 1
    by_cases hn : g.Names = []
    · simp [declaredParams, hn]
    · have h0 : 0 < g.Names.length := List.length_pos.mpr hn
      simp [declaredParams, hn]
      omega

theorem generateFunctionDeclaration_isSome (fn : DocFunc) (funcDecl : FuncDecl)
    (h : funcDecl.Recv ≠ some []) : ∃ d, generateFunctionDeclaration fn funcDecl = some d := by
  unfold generateFunctionDeclaration
  rcases hr : funcDecl.Recv with _ | (_ | ⟨r, rs⟩)
  · exact ⟨_, rfl⟩
  · exact absurd hr h
  · exact ⟨_, rfl⟩

theorem enhanceFunction_found (fn : DocFunc) (astPkg : AstPackage) (funcDecl : FuncDecl)
    (hfound : findFuncDecl fn.Name astPkg.Files = some funcDecl) (e : EnhancedFunc)
    (he : enhanceFunction fn astPkg = some e) :
    e.Params = appendParams fn.Doc (funcDecl.Type_.Params.getD []) [] := by
  unfold enhanceFunction at he
  simp only [hfound] at he
  rcases hg : generateFunctionDeclaration fn funcDecl with _ | d
  · simp [hg] at he
  · simp only [hg, Option.some.injEq] at he
    subst he
    rcases hp : funcDecl.Type_.Params with _ | list
    · simp [appendParams]
    · simp

/-! ## Lemmas on the export filter -/

theorem utf8LeadByte_ge (c : Char) (h : ¬ c.toNat < 0x80) : ¬ utf8LeadByte c < 0x80 := by
  unfold utf8LeadByte
  rw [if_neg h]
  split
  · omega
  · split <;> omega

theorem passesExportTest_iff (name : Str) :
    passesExportTest name = true ↔
      ∃ c rest, name = c :: rest ∧ c.toNat < 0x80 ∧ ¬ ('a'.toNat ≤ c.toNat ∧ c.toNat ≤ 'z'.toNat) := by
  cases name with
  | nil => simp [passesExportTest]
  | cons c rest =>
    have hlen : decide (0 < (c :: rest).length) = true := by simp
    constructor
    · intro h
      simp only [passesExportTest, hlen, Bool.true_and, decide_eq_true_eq, firstByte] at h
      refine ⟨c, rest, rfl, ?_⟩
      by_cases hc : c.toNat < 0x80
      · have hb : utf8LeadByte c = c.toNat := by simp [utf8LeadByte, hc]
        rw [hb] at h
        simp only [toUpperByte, hc, if_true] at h
        refine ⟨hc, ?_⟩
        intro hl
        rw [if_pos hl] at h
        have h2 := (List.cons.inj h).1
        have : 'a'.toNat = 97 := by decide
        omega
      · have hb := utf8LeadByte_ge c hc
        simp only [toUpperByte, hb, if_false] at h
        simp at h
    · rintro ⟨c', rest', heq, hc, hl⟩
      obtain ⟨h1, h2⟩ := List.cons.inj heq
      subst h1 h2
      simp only [passesExportTest, hlen, Bool.true_and, decide_eq_true_eq, firstByte]
      have hb : utf8LeadByte c = c.toNat := by simp [utf8LeadByte, hc]
      rw [hb]
      simp only [toUpperByte, hc, if_true]
      rw [if_neg hl]

theorem enhanceFunction_func (fn : DocFunc) (astPkg : AstPackage) (e : EnhancedFunc)
    (h : enhanceFunction fn astPkg = some e) : e.Func = fn := by
  unfold enhanceFunction at h
  rcases hf : findFuncDecl fn.Name astPkg.Files with _ | fd
  · simp only [hf, Option.some.injEq] at h
    subst h
    rfl
  · simp only [hf] at h
    rcases hg : generateFunctionDeclaration fn fd with _ | d
    · simp [hg] at h
    · simp only [hg, Option.some.injEq] at h
      subst h
      rfl

theorem enhancedFuncsLoop_funcs (astPkg : AstPackage) (fns : List DocFunc)
    (acc result : List EnhancedFunc) (h : enhancedFuncsLoop astPkg fns acc = some result) :
    result.map (fun e => e.Func) =
      acc.map (fun e => e.Func) ++ fns.filter (fun fn => passesExportTest fn.Name) := by
  induction fns generalizing acc with
  | nil =>
    simp only [enhancedFuncsLoop, Option.some.injEq] at h
    subst h
    simp
  | cons fn rest ih =>
    simp only [enhancedFuncsLoop] at h
    by_cases hp : passesExportTest fn.Name = true
    · rw [if_pos hp] at h
      rcases he : enhanceFunction fn astPkg with _ | e
      · simp [he] at h
      · simp only [he] at h
        rw [ih _ h]
        simp [List.filter_cons, hp, enhanceFunction_func fn astPkg e he]
    · rw [if_neg hp] at h
      rw [ih _ h]
      simp [List.filter_cons, hp]

/-! ## The claims -/

/-- Claim C1, evaluated on a package that declares `func _helper()`: the name begins with
an underscore, which is not an upper-case letter, and yet the function passes the export
test of `parseASTPackage` and is kept in `PackageInfo.Functions`; a type `_state` is
kept in the same way. -/
theorem underscore_function_is_kept :
    passesExportTest "_helper".toList = true ∧
    (enhancedFuncsLoop helperPkg [helperFunc] []).map (fun fs => fs.map (fun e => e.Func.Name))
      = some ["_helper".toList] ∧
    exportedTypesLoop [stateType] [] = [stateType] := by
  decide

/-- Claim C2, evaluated on the default exclude patterns `./vendor/...` and `./test/...`
and the relative path `vendor/pkg/sub`: neither the glob match nor the substring test
(which strips `*` only) fires, and `shouldExcludePackage` answers false; likewise for
`./test/...` and the path `test/e2e`. -/
theorem vendor_path_not_excluded :
    filepathMatch "./vendor/...".toList "vendor/pkg/sub".toList = false ∧
    trimChar "./vendor/...".toList '*' = "./vendor/...".toList ∧
    shouldExcludePackage defaultDiscoverer "vendor/pkg/sub".toList = false ∧
    shouldExcludePackage defaultDiscoverer "test/e2e".toList = false := by
  decide

/-- Claim C3 as stated fails: the text has no line that is `Parameters:` or `Returns:`,
so the non-empty trimmed lines before the first section header line are all its lines,
yet the function stops at the prose line `Parameters: none are needed.` and returns the
first line only. -/
theorem parameters_prose_line_ends_description :
    extractMainDescription parametersProseDoc = "Parses the input.".toList ∧
    mainDescriptionWith isSectionLine parametersProseDoc
      = "Parses the input. Parameters: none are needed. Safe for reuse.".toList ∧
    extractMainDescription parametersProseDoc
      ≠ mainDescriptionWith isSectionLine parametersProseDoc := by
  decide

/-- Claim C3, amended: for every documentation text, `extractMainDescription` returns the
non-empty trimmed lines that come before the first line whose trimmed text begins,
ignoring case, with `parameters:` or `returns:` (whatever follows on that line), in their
order, joined by one space each, and nothing of what follows; on the boundary text the
result is `Does X.`. -/
theorem extractMainDescription_spec (doc : Str) :
    extractMainDescription doc = mainDescriptionWith startsSection doc ∧
    extractMainDescription boundaryDoc = "Does X.".toList :=
  ⟨extractMainDescription_eq doc, by decide⟩

/-- Claim C4, evaluated on a text whose `Parameters:` section documents `username` on the
line before `name`: the lookup of `name` returns the text of the `username` line. -/
theorem paramDoc_of_other_name :
    extractParamDoc usernameDoc "name".toList = "the user".toList := by
  decide

/-- Claim C5 as stated fails: in a text where a `Parameters:` header follows the
`Returns:` section, the entry under `Parameters:` is counted as return entry 1, while
the `Returns:` section that ends at the next header has one entry only. -/
theorem returns_section_runs_past_next_header :
    extractReturnDoc returnsFirstDoc 1 = "x".toList ∧
    returnDocWith startsReturns startsSection returnsFirstDoc 1 = [] ∧
    extractReturnDoc returnsFirstDoc 1 ≠ returnDocWith startsReturns startsSection returnsFirstDoc 1 := by
  decide

/-- Claim C5, amended: for every documentation text and index, `extractReturnDoc` counts
from 0 the lines of the shape `- ...: text` that come after the first `Returns:` header
line, up to the end of the text (a later header does not close the section), and returns
the trimmed text after the first colon of the line whose count is the index; the result
is empty for a negative index, without a header, and when the entries run out.  On the
boundary text index 0 gives `the count` and index 1 the empty string. -/
theorem extractReturnDoc_spec (doc : Str) (index : Int) :
    extractReturnDoc doc index = returnDocWith startsReturns (fun _ => false) doc index ∧
    extractReturnDoc boundaryDoc 0 = "the count".toList ∧
    extractReturnDoc boundaryDoc 1 = [] :=
  ⟨extractReturnDoc_eq doc index, by decide, by decide⟩

/-- Claim C6 as stated fails: the line `Returns: the number of items` ends the main
description, whereas with whole-line headers it would be prose and the description
would run on. -/
theorem returns_prose_line_is_header :
    extractMainDescription returnsProseDoc = "Counts items.".toList ∧
    mainDescriptionWith isSectionLine returnsProseDoc
      = "Counts items. Returns: the number of items Safe for concurrent use.".toList := by
  decide

/-- Claim C6, amended: a line is a section header if and only if its trimmed text begins,
ignoring case, with the keyword, whatever follows on the line: with `parameters:` or
`returns:` in `extractMainDescription`, with `parameters:` in `extractParamDoc`, with
`returns:` in `extractReturnDoc`. -/
theorem section_headers_start_lines (doc paramName : Str) (index : Int) :
    extractMainDescription doc = mainDescriptionWith startsSection doc ∧
    extractParamDoc doc paramName = paramDocWith startsParameters doc paramName ∧
    extractReturnDoc doc index = returnDocWith startsReturns (fun _ => false) doc index :=
  ⟨extractMainDescription_eq doc, extractParamDoc_eq doc paramName, extractReturnDoc_eq doc index⟩

/-- Claim C7: when `enhanceFunction` locates a declaration of the function, its
`Params` are the declared parameters in declaration order, one entry per name of a
group (name and formatted type of the group) and one entry with the empty name for a
group without names, so their number is the number of declared parameters.  A result is
produced whenever the located declaration has no empty receiver clause. -/
theorem enhanceFunction_params (fn : DocFunc) (astPkg : AstPackage) (funcDecl : FuncDecl)
    (hfound : findFuncDecl fn.Name astPkg.Files = some funcDecl) :
    (funcDecl.Recv ≠ some [] → ∃ e, enhanceFunction fn astPkg = some e) ∧
    ∀ e, enhanceFunction fn astPkg = some e →
      e.Params.map (fun p => (p.Name, p.Type_)) = declaredParams (funcDecl.Type_.Params.getD []) ∧
      e.Params.length = declaredParamCount (funcDecl.Type_.Params.getD []) := by
  constructor
  · intro hr
    obtain ⟨d, hd⟩ := generateFunctionDeclaration_isSome fn funcDecl hr
    unfold enhanceFunction
    simp only [hfound, hd]
    exact ⟨_, rfl⟩
  · intro e he
    have hp := enhanceFunction_found fn astPkg funcDecl hfound e he
    have hpairs : e.Params.map (fun p => (p.Name, p.Type_))
        = declaredParams (funcDecl.Type_.Params.getD []) := by
      rw [hp, appendParams_pairs]
      simp
    refine ⟨hpairs, ?_⟩
    rw [← declaredParams_length, ← hpairs, List.length_map]

/-- Claim C7 on `func Add(a, b int, string) int`: three entries `a int`, `b int` and an
unnamed `string`. -/
theorem enhanceFunction_params_witness :
    findFuncDecl addFunc.Name addPkg.Files = some addDecl ∧
    (∃ e, enhanceFunction addFunc addPkg = some e) ∧
    ∀ e, enhanceFunction addFunc addPkg = some e →
      e.Params.map (fun p => (p.Name, p.Type_))
        = [("a".toList, "int".toList), ("b".toList, "int".toList), ([], "string".toList)] ∧
      e.Params.length = 3 :=
  ⟨rfl, (enhanceFunction_params addFunc addPkg addDecl rfl).1 (by simp [addDecl]),
    (enhanceFunction_params addFunc addPkg addDecl rfl).2⟩

/-- Claim C8: the equations of `formatType`: an identifier gives its name, a pointer `*`
and the pointee, a slice `[]` and the element, a map `map[K]V`, a channel `chan T`,
`chan<- T` or `<-chan T` by direction, a selector `X.Name`, a variadic marker `...T`, an
interface type the literal text, and every other kind of node the non-empty name of its
kind. -/
theorem formatType_equations (name sel : Str) (t k v x : Expr)
    (methods : Option (List Field)) (e : Expr) :
    formatType (.Ident name) = name ∧
    formatType (.StarExpr t) = "*".toList ++ formatType t ∧
    formatType (.ArrayType .Nil t) = "[]".toList ++ formatType t ∧
    formatType (.MapType k v) = "map[".toList ++ formatType k ++ "]".toList ++ formatType v ∧
    formatType (.ChanType .BOTH t) = "chan ".toList ++ formatType t ∧
    formatType (.ChanType .SEND t) = "chan<- ".toList ++ formatType t ∧
    formatType (.ChanType .RECV t) = "<-chan ".toList ++ formatType t ∧
    formatType (.SelectorExpr x sel) = formatType x ++ ".".toList ++ sel ∧
    formatType (.Ellipsis t) = "...".toList ++ formatType t ∧
    formatType (.InterfaceType methods) = "interface\x7b\x7d".toList ∧
    (hasOwnCase e = false → formatType e = typeName e ∧ formatType e ≠ []) := by
  refine ⟨by simp [formatType], by simp [formatType], by simp [formatType],
    by simp [formatType], by simp [formatType], by simp [formatType], by simp [formatType],
    by simp [formatType], by simp [formatType], by simp [formatType], ?_⟩
  intro h
  cases e <;> simp_all [hasOwnCase, formatType, typeName]

/-- Claim C8 on a node without a case of its own, the literal `5`. -/
theorem formatType_equations_witness :
    hasOwnCase (.BasicLit .INT "5".toList) = false ∧
    formatType (.BasicLit .INT "5".toList) = "*ast.BasicLit".toList ∧
    formatType (.BasicLit .INT "5".toList) ≠ [] :=
  ⟨rfl, (formatType_equations [] [] .Nil .Nil .Nil .Nil none
    (.BasicLit .INT "5".toList)).2.2.2.2.2.2.2.2.2.2 rfl⟩

/-- Claim C9, evaluated on `[5]int`: the length is a literal node, which `formatType` has
no case for, so the text between the brackets is the name of the node kind and not `5`. -/
theorem array_length_literal_not_printed :
    formatType arrayOfFiveInt = "[*ast.BasicLit]int".toList ∧
    formatType arrayOfFiveInt ≠ "[5]int".toList := by
  decide

/-- Claim C10, evaluated on `func() (x, y int)`: the result names are each followed by a
space, so the result group reads `x , y int`, whereas the parameter group of
`func(a, b int)` reads `a, b int`. -/
theorem result_group_has_space_before_comma :
    formatType funcWithNamedResults = "func() x , y int".toList ∧
    formatType funcWithNamedParams = "func(a, b int)".toList := by
  decide

/-! ## Lemmas on symbols that the tree does not declare -/

theorem inspectFuncDecl_of_no_match (name : Str) (decls : List Decl) (cur : Option FuncDecl)
    (h : ∀ f, Decl.FuncDecl f ∈ decls → f.Name ≠ name) :
    inspectFuncDecl name decls cur = cur := by
  induction decls generalizing cur with
  | nil => rfl
  | cons dcl rest ih =>
    have hrest : ∀ f, Decl.FuncDecl f ∈ rest → f.Name ≠ name :=
      fun f hf => h f (List.mem_cons_of_mem _ hf)
    cases dcl with
    | FuncDecl f =>
      have hf : f.Name ≠ name := h f (List.mem_cons_self _ _)
      simp only [inspectFuncDecl, if_neg hf]
      exact ih cur hrest
    | GenDecl g => simp only [inspectFuncDecl]; exact ih cur hrest
    | BadDecl => simp only [inspectFuncDecl]; exact ih cur hrest

theorem findFuncDecl_of_no_match (name : Str) (files : List (Str × File))
    (h : ∀ entry ∈ files, ∀ f, Decl.FuncDecl f ∈ entry.2.Decls → f.Name ≠ name) :
    findFuncDecl name files = none := by
  induction files with
  | nil => rfl
  | cons entry rest ih =>
    obtain ⟨filename, file⟩ := entry
    simp only [findFuncDecl]
    rw [inspectFuncDecl_of_no_match name file.Decls none (h (filename, file) (List.mem_cons_self _ _))]
    exact ih (fun e he => h e (List.mem_cons_of_mem _ he))

theorem inspectTypeSpecs_of_no_match (name : Str) (specs : List Spec) (cur : Option TypeSpec)
    (h : ∀ ts, Spec.TypeSpec ts ∈ specs → ts.Name ≠ name) :
    inspectTypeSpecs name specs cur = cur := by
  induction specs generalizing cur with
  | nil => rfl
  | cons sp rest ih =>
    have hrest : ∀ ts, Spec.TypeSpec ts ∈ rest → ts.Name ≠ name :=
      fun ts hts => h ts (List.mem_cons_of_mem _ hts)
    cases sp with
    | TypeSpec ts =>
      have hts : ts.Name ≠ name := h ts (List.mem_cons_self _ _)
      simp only [inspectTypeSpecs, if_neg hts]
      exact ih cur hrest
    | ValueSpec names => simp only [inspectTypeSpecs]; exact ih cur hrest
    | ImportSpec => simp only [inspectTypeSpecs]; exact ih cur hrest

theorem inspectTypeSpec_of_no_match (name : Str) (decls : List Decl) (cur : Option TypeSpec)
    (h : NoTypeSpecIn name decls) : inspectTypeSpec name decls cur = cur := by
  induction decls generalizing cur with
  | nil => rfl
  | cons dcl rest ih =>
    have hrest : NoTypeSpecIn name rest := fun g hg => h g (List.mem_cons_of_mem _ hg)
    cases dcl with
    | FuncDecl f => simp only [inspectTypeSpec]; exact ih cur hrest
    | GenDecl g =>
      simp only [inspectTypeSpec]
      rw [inspectTypeSpecs_of_no_match name g.Specs cur (h g (List.mem_cons_self _ _))]
      exact ih cur hrest
    | BadDecl => simp only [inspectTypeSpec]; exact ih cur hrest

theorem findTypeSpec_of_no_match (name : Str) (files : List (Str × File))
    (h : ∀ entry ∈ files, NoTypeSpecIn name entry.2.Decls) : findTypeSpec name files = none := by
  induction files with
  | nil => rfl
  | cons entry rest ih =>
    obtain ⟨filename, file⟩ := entry
    simp only [findTypeSpec]
    rw [inspectTypeSpec_of_no_match name file.Decls none (h (filename, file) (List.mem_cons_self _ _))]
    exact ih (fun e he => h e (List.mem_cons_of_mem _ he))

theorem typeDocumentationSpecs_of_no_match (w : World) (filename name : Str)
    (genDoc : Option (List Str)) (specs : List Spec) (state : List Str × Bool)
    (h : ∀ ts, Spec.TypeSpec ts ∈ specs → ts.Name ≠ name) :
    typeDocumentationSpecs w filename name genDoc specs state = some state := by
  induction specs with
  | nil => rfl
  | cons sp rest ih =>
    have hrest : ∀ ts, Spec.TypeSpec ts ∈ rest → ts.Name ≠ name :=
      fun ts hts => h ts (List.mem_cons_of_mem _ hts)
    cases sp with
    | TypeSpec ts =>
      have hts : ts.Name ≠ name := h ts (List.mem_cons_self _ _)
      simp only [typeDocumentationSpecs, if_neg hts]
      exact ih hrest
    | ValueSpec names => simp only [typeDocumentationSpecs]; exact ih hrest
    | ImportSpec => simp only [typeDocumentationSpecs]; exact ih hrest

theorem typeDocumentationDecls_of_no_match (w : World) (filename name : Str)
    (decls : List Decl) (state : List Str × Bool) (h : NoTypeSpecIn name decls) :
    typeDocumentationDecls w filename name decls state = some state := by
  induction decls with
  | nil => rfl
  | cons dcl rest ih =>
    have hrest : NoTypeSpecIn name rest := fun g hg => h g (List.mem_cons_of_mem _ hg)
    cases dcl with
    | FuncDecl f => simp only [typeDocumentationDecls]; exact ih hrest
    | GenDecl g =>
      simp only [typeDocumentationDecls]
      rw [typeDocumentationSpecs_of_no_match w filename name g.Doc g.Specs state
        (h g (List.mem_cons_self _ _))]
      simp only [ih hrest, ite_self]
    | BadDecl => simp only [typeDocumentationDecls]; exact ih hrest

theorem typeDocumentationFiles_of_no_match (w : World) (name : Str) (files : List (Str × File))
    (h : ∀ entry ∈ files, NoTypeSpecIn name entry.2.Decls) :
    typeDocumentationFiles w name files ([], false) = some ([], false) := by
  induction files with
  | nil => rfl
  | cons entry rest ih =>
    obtain ⟨filename, file⟩ := entry
    simp only [typeDocumentationFiles]
    rw [typeDocumentationDecls_of_no_match w filename name file.Decls ([], false)
      (h (filename, file) (List.mem_cons_self _ _))]
    simp only [List.length_nil, Nat.lt_irrefl, if_false]
    exact ih (fun e he => h e (List.mem_cons_of_mem _ he))

theorem enhanceFunction_of_no_match (fn : DocFunc) (astPkg : AstPackage)
    (h : ∀ entry ∈ astPkg.Files, ∀ f, Decl.FuncDecl f ∈ entry.2.Decls → f.Name ≠ fn.Name) :
    enhanceFunction fn astPkg =
      some { Func := fn, Params := [], Results := [], ExampleCode := generateExampleCode fn,
             Declaration := [], Doc := extractMainDescription fn.Doc } := by
  unfold enhanceFunction
  rw [findFuncDecl_of_no_match fn.Name astPkg.Files h]

theorem enhanceType_of_no_match (w : World) (typ : DocType) (astPkg : AstPackage)
    (h : ∀ entry ∈ astPkg.Files, NoTypeSpecIn typ.Name entry.2.Decls) :
    enhanceType w typ astPkg =
      some { Type_ := typ, Fields := [], Methods := [], Funcs := [],
             TypeKind := "unknown".toList, Declaration := [], Doc := [], ExampleCode := [] } := by
  unfold enhanceType extractTypeDocumentation
  rw [typeDocumentationFiles_of_no_match w typ.Name astPkg.Files h,
    findTypeSpec_of_no_match typ.Name astPkg.Files h]
  rfl

/-! ## Lemmas on the package discoverer -/

theorem firstNonTestPackage_eq_none (pkgs : List AstPackage) :
    firstNonTestPackage pkgs = none ↔ ∀ g ∈ pkgs, hasSuffix g.Name "_test".toList = true := by
  induction pkgs with
  | nil => simp [firstNonTestPackage]
  | cons g rest ih =>
    simp only [firstNonTestPackage, List.mem_cons, forall_eq_or_imp]
    by_cases hg : hasSuffix g.Name "_test".toList = true
    · simp only [hg, Bool.not_true, Bool.false_eq_true, if_false, true_and]
      exact ih
    · simp only [Bool.not_eq_true] at hg
      simp only [hg, Bool.not_false, if_true, Bool.false_eq_true, false_and]
      simp

theorem firstNonTestPackage_eq_some (pkgs : List AstPackage) (g : AstPackage)
    (h : firstNonTestPackage pkgs = some g) :
    g ∈ pkgs ∧ hasSuffix g.Name "_test".toList = false := by
  induction pkgs with
  | nil => simp [firstNonTestPackage] at h
  | cons a rest ih =>
    simp only [firstNonTestPackage] at h
    by_cases ha : hasSuffix a.Name "_test".toList = true
    · simp only [ha, Bool.not_true, Bool.false_eq_true, if_false] at h
      exact ⟨List.mem_cons_of_mem _ (ih h).1, (ih h).2⟩
    · simp only [Bool.not_eq_true] at ha
      simp only [ha, Bool.not_false, if_true, Option.some.injEq] at h
      subst h
      exact ⟨List.mem_cons_self _ _, ha⟩

theorem parseASTPackage_name (d : Discoverer) (w : World) (astPkg : AstPackage) (pkgPath : Str)
    (p : PackageInfo) (h : parseASTPackage d w astPkg pkgPath = some p) :
    p.Name = astPkg.Name ∧ p.Path = pkgPath := by
  unfold parseASTPackage at h
  simp only at h
  split at h
  · simp only [Option.some.injEq] at h
    subst h
    exact ⟨rfl, rfl⟩
  · simp at h

theorem walkFn_without_error (d : Discoverer) (w : World) (path : Str)
    (info : Option (Str × Bool)) (allPackages : List PackageInfo) (signal : WalkSignal)
    (result : List PackageInfo)
    (h : walkFn d w path info none allPackages = some (signal, result)) :
    (∀ err, signal ≠ WalkSignal.fail err) ∧
    (result = allPackages ∨
      ∃ relPath p, parsePackage d w relPath = Outcome.ok p ∧ result = allPackages ++ [p]) := by
  unfold walkFn at h
  rcases info with _ | ⟨name, isDir⟩
  · simp at h
  · simp only at h
    repeat' split at h
    all_goals first
      | (simp only [Option.some.injEq, Prod.mk.injEq] at h
         obtain ⟨h1, h2⟩ := h
         subst h1 h2
         refine ⟨fun err => by simp, ?_⟩
         first
           | exact Or.inl rfl
           | exact Or.inr ⟨_, _, by assumption, rfl⟩)
      | simp at h

theorem walkFn_with_error (d : Discoverer) (w : World) (path : Str)
    (info : Option (Str × Bool)) (allPackages : List PackageInfo) (err : Str) :
    walkFn d w path info (some err) allPackages = some (WalkSignal.fail err, allPackages) := by
  unfold walkFn
  rfl

mutual
theorem walk_fail_mem (d : Discoverer) (w : World) (err : Str) :
    ∀ (node : FsNode) (path : Str) (allPackages result : List PackageInfo),
      walk d w path node allPackages = some (WalkSignal.fail err, result) → err ∈ node.errors
  | .file name lstatErr, path, allPackages, result, h => by
    simp only [walk] at h
    exact absurd rfl ((walkFn_without_error d w path _ allPackages _ result h).1 err)
  | .dir name lstatErr readErr children, path, allPackages, result, h => by
    simp only [walk] at h
    rcases hfn : walkFn d w path (some (name, true)) readErr allPackages with _ | ⟨signal, all1⟩
    · simp [hfn] at h
    · simp only [hfn] at h
      rcases readErr with _ | e
      · have hno := (walkFn_without_error d w path _ allPackages signal all1 hfn).1
        by_cases hs : signal = WalkSignal.next
        · subst hs
          simp only [Option.isSome_none, Bool.false_eq_true, ne_eq, not_true_eq_false, or_self,
            if_false] at h
          simp only [FsNode.errors, List.mem_append]
          exact Or.inr (walkChildren_fail_mem d w err children path all1 result h)
        · simp only [Option.isSome_none, Bool.false_eq_true, ne_eq, hs, not_false_eq_true,
            or_true, if_true, Option.some.injEq, Prod.mk.injEq] at h
          exact absurd h.1 (hno err)
      · rw [walkFn_with_error] at hfn
        simp only [Option.some.injEq, Prod.mk.injEq] at hfn
        obtain ⟨hs, _⟩ := hfn
        subst hs
        simp only [Option.isSome_some, true_or, if_true, Option.some.injEq, Prod.mk.injEq,
          WalkSignal.fail.injEq] at h
        simp only [FsNode.errors, List.mem_append, Option.mem_toList, Option.mem_def]
        exact Or.inl (Or.inr (by rw [h.1]))
theorem walkChildren_fail_mem (d : Discoverer) (w : World) (err : Str) :
    ∀ (children : List FsNode) (path : Str) (allPackages result : List PackageInfo),
      walkChildren d w path children allPackages = some (WalkSignal.fail err, result) →
        err ∈ childrenErrors children
  | [], path, allPackages, result, h => by
    simp [walkChildren] at h
  | child :: rest, path, allPackages, result, h => by
    simp only [walkChildren] at h
    simp only [childrenErrors, List.mem_append]
    rcases hl : child.lstatErr with _ | e
    · simp only [hl] at h
      rcases hw : walk d w (filepathJoin path child.name) child allPackages with _ | ⟨signal, all1⟩
      · simp [hw] at h
      · simp only [hw] at h
        cases signal with
        | next =>
          simp only at h
          exact Or.inr (walkChildren_fail_mem d w err rest path all1 result h)
        | skipDir =>
          simp only at h
          by_cases hd : child.isDir = true
          · simp only [hd, if_true] at h
            exact Or.inr (walkChildren_fail_mem d w err rest path all1 result h)
          · simp [hd] at h
        | fail e =>
          simp only [Option.some.injEq, Prod.mk.injEq, WalkSignal.fail.injEq] at h
          obtain ⟨he, hr⟩ := h
          subst he
          exact Or.inl (walk_fail_mem d w e child _ allPackages all1 hw)
    · simp only [hl] at h
      rw [walkFn_with_error] at h
      simp only [Option.some.injEq, Prod.mk.injEq, WalkSignal.fail.injEq] at h
      left
      rw [← h.1]
      cases child <;> simp_all [FsNode.errors, FsNode.lstatErr]
end

theorem filepathWalk_error_mem (d : Discoverer) (w : World) (err : Str)
    (allPackages : List PackageInfo) (h : filepathWalk d w = some (some err, allPackages)) :
    err ∈ w.root.errors := by
  unfold filepathWalk at h
  rcases hl : w.root.lstatErr with _ | e
  · simp only [hl] at h
    rcases hw : walk d w d.projectPath w.root [] with _ | ⟨signal, all1⟩
    · simp [hw] at h
    · simp only [hw, Option.map_some', Option.some.injEq] at h
      cases signal with
      | next => simp at h
      | skipDir => simp at h
      | fail e =>
        simp only [Prod.mk.injEq, Option.some.injEq] at h
        rw [← h.1]
        exact walk_fail_mem d w e w.root _ [] all1 hw
  · simp only [hl, walkFn_with_error, Option.map_some', Option.some.injEq, Prod.mk.injEq] at h
    rw [← h.1]
    cases hr : w.root <;> simp_all [FsNode.errors, FsNode.lstatErr]

theorem applyManualOverrides_fields (m : ManualPackage) (p : PackageInfo) :
    (applyManualOverrides m p).Name = (if m.Name ≠ [] then m.Name else p.Name) ∧
    (applyManualOverrides m p).Description
      = (if m.Description ≠ [] then m.Description else p.Description) ∧
    (applyManualOverrides m p).Path = p.Path ∧
    (applyManualOverrides m p).ImportPath = p.ImportPath ∧
    (applyManualOverrides m p).Doc = p.Doc ∧
    (applyManualOverrides m p).Functions = p.Functions ∧
    (applyManualOverrides m p).Types = p.Types ∧
    (applyManualOverrides m p).Variables = p.Variables ∧
    (applyManualOverrides m p).Constants = p.Constants ∧
    (applyManualOverrides m p).Examples = p.Examples ∧
    (applyManualOverrides m p).Files = p.Files := by
  unfold applyManualOverrides
  by_cases hn : m.Name = [] <;> by_cases hd : m.Description = [] <;> simp [hn, hd]

theorem manualPackagesLoop_ok (d : Discoverer) (w : World) (ms : List ManualPackage)
    (acc pkgs : List PackageInfo) (h : manualPackagesLoop d w ms acc = some (pkgs, none)) :
    ∃ parsed, List.Forall₂ (fun m p => parsePackage d w m.Path = Outcome.ok p) ms parsed ∧
      pkgs = acc ++ List.zipWith applyManualOverrides ms parsed := by
  induction ms generalizing acc with
  | nil =>
    simp only [manualPackagesLoop, Option.some.injEq, Prod.mk.injEq, and_true] at h
    exact ⟨[], List.Forall₂.nil, by simp [h]⟩
  | cons m rest ih =>
    simp only [manualPackagesLoop] at h
    rcases hp : parsePackage d w m.Path with p | e | _
    · simp only [hp] at h
      obtain ⟨parsed, hf, hpk⟩ := ih _ h
      exact ⟨p :: parsed, List.Forall₂.cons hp hf, by simp [hpk]⟩
    · simp [hp] at h
    · simp [hp] at h

theorem manualPackagesLoop_error (d : Discoverer) (w : World) (ms : List ManualPackage)
    (acc pkgs : List PackageInfo) (e : Str)
    (h : manualPackagesLoop d w ms acc = some (pkgs, some e)) :
    pkgs = [] ∧ ∃ m ∈ ms, ∃ err, parsePackage d w m.Path = Outcome.error err := by
  induction ms generalizing acc with
  | nil => simp [manualPackagesLoop] at h
  | cons m rest ih =>
    simp only [manualPackagesLoop] at h
    rcases hp : parsePackage d w m.Path with p | err | _
    · simp only [hp] at h
      obtain ⟨h1, m', hm', h2⟩ := ih _ h
      exact ⟨h1, m', List.mem_cons_of_mem _ hm', h2⟩
    · simp only [hp, Option.some.injEq, Prod.mk.injEq] at h
      exact ⟨h.1.symm, m, List.mem_cons_self _ _, err, hp⟩
    · simp [hp] at h

theorem manualPackagesLoop_of_failure (d : Discoverer) (w : World) (ms : List ManualPackage)
    (acc : List PackageInfo)
    (hfail : ∃ m ∈ ms, ∃ err, parsePackage d w m.Path = Outcome.error err)
    (hrun : manualPackagesLoop d w ms acc ≠ none) :
    ∃ e, manualPackagesLoop d w ms acc = some ([], some e) := by
  induction ms generalizing acc with
  | nil =>
    obtain ⟨m, hm, _⟩ := hfail
    simp at hm
  | cons m rest ih =>
    simp only [manualPackagesLoop] at hrun ⊢
    rcases hp : parsePackage d w m.Path with p | err | _
    · simp only [hp] at hrun ⊢
      obtain ⟨m', hm', err', he'⟩ := hfail
      rcases List.mem_cons.mp hm' with heq | hin
      · subst heq
        rw [hp] at he'
        cases he'
      · exact ih _ ⟨m', hin, err', he'⟩ hrun
    · exact ⟨_, rfl⟩
    · simp [hp] at hrun

/-! ## The claims on missing symbols and on the package discoverer -/

/-- Claim C12: for a function name that no function declaration of the tree has,
`enhanceFunction` returns, without failing, an enhanced function with empty
`Declaration`, `Params` and `Results`; for a type name that no type spec of the tree has,
`enhanceType` returns, without failing, an enhanced type with empty `Declaration` and no
`Fields`, `Methods` and `Funcs`. -/
theorem enhance_missing_symbol (w : World) (fn : DocFunc) (typ : DocType) (astPkg : AstPackage) :
    (NoFuncDeclIn fn.Name astPkg →
      ∃ e, enhanceFunction fn astPkg = some e ∧ e.Declaration = [] ∧ e.Params = [] ∧
        e.Results = []) ∧
    (NoTypeSpecInTree typ.Name astPkg →
      ∃ e, enhanceType w typ astPkg = some e ∧ e.Declaration = [] ∧ e.Fields = [] ∧
        e.Methods = [] ∧ e.Funcs = []) :=
  ⟨fun h => ⟨_, enhanceFunction_of_no_match fn astPkg h, rfl, rfl, rfl⟩,
   fun h => ⟨_, enhanceType_of_no_match w typ astPkg h, rfl, rfl, rfl, rfl⟩⟩

/-- Claim C12 on the package `addPkg`, which declares neither a function nor a type
named `Missing`. -/
theorem enhance_missing_symbol_witness :
    NoFuncDeclIn missingFunc.Name addPkg ∧ NoTypeSpecInTree missingType.Name addPkg ∧
    (∃ e, enhanceFunction missingFunc addPkg = some e ∧ e.Declaration = [] ∧ e.Params = [] ∧
      e.Results = []) ∧
    (∃ e, enhanceType docWorld missingType addPkg = some e ∧ e.Declaration = [] ∧
      e.Fields = [] ∧ e.Methods = [] ∧ e.Funcs = []) := by
  have hf : NoFuncDeclIn missingFunc.Name addPkg := by
    intro entry he f hf
    simp only [addPkg, List.mem_singleton] at he
    subst he
    simp only [List.mem_singleton, Decl.FuncDecl.injEq] at hf
    subst hf
    decide
  have ht : NoTypeSpecInTree missingType.Name addPkg := by
    intro entry he g hg
    simp only [addPkg, List.mem_singleton] at he
    subst he
    simp at hg
  exact ⟨hf, ht, (enhance_missing_symbol docWorld missingFunc missingType addPkg).1 hf,
    (enhance_missing_symbol docWorld missingFunc missingType addPkg).2 ht⟩

/-- Claim C13, evaluated on the function name `Missing`, which the package `addPkg`
does not declare: the call of `enhanceFunction` writes no message at all, while the
warning sits in `extractFunctionDocumentation`, which is never called, and the call of
`enhanceType` on a missing type does write its warning. -/
theorem missing_function_writes_no_warning :
    (findFuncDecl missingFunc.Name addPkg.Files).isNone = true ∧
    enhanceFunctionOutput missingFunc addPkg = [] ∧
    extractFunctionDocumentationOutput missingFunc.Name addPkg
      = ["WARNING: Function Missing not found in AST\n".toList] ∧
    enhanceTypeOutput docWorld missingType addPkg
      = ["WARNING: Type Missing not found in AST\n".toList] := by
  decide

/-- Claim C14: when `DiscoverPackages` succeeds, its result is the result of the
auto-discovery (nothing when auto-discovery is off) followed, in configuration order, by
one package per manual entry: the package parsed at the path of the entry, with the name
and the description of the entry where these are not empty and every other field as
parsed. -/
theorem DiscoverPackages_result (d : Discoverer) (w : World) (pkgs : List PackageInfo)
    (h : DiscoverPackages d w = some (pkgs, none)) :
    ∃ auto parsed,
      (if d.config.AutoDiscover = true then autoDiscoverPackages d w = some (auto, none)
        else auto = []) ∧
      List.Forall₂ (fun m p => parsePackage d w m.Path = Outcome.ok p)
        d.config.ManualPackages parsed ∧
      pkgs = auto ++ List.zipWith applyManualOverrides d.config.ManualPackages parsed ∧
      ∀ (m : ManualPackage) (p : PackageInfo),
        (applyManualOverrides m p).Name = (if m.Name ≠ [] then m.Name else p.Name) ∧
        (applyManualOverrides m p).Description
          = (if m.Description ≠ [] then m.Description else p.Description) ∧
        (applyManualOverrides m p).Path = p.Path ∧
        (applyManualOverrides m p).ImportPath = p.ImportPath ∧
        (applyManualOverrides m p).Doc = p.Doc ∧
        (applyManualOverrides m p).Functions = p.Functions ∧
        (applyManualOverrides m p).Types = p.Types ∧
        (applyManualOverrides m p).Variables = p.Variables ∧
        (applyManualOverrides m p).Constants = p.Constants ∧
        (applyManualOverrides m p).Examples = p.Examples ∧
        (applyManualOverrides m p).Files = p.Files := by
  unfold DiscoverPackages at h
  by_cases ha : d.config.AutoDiscover = true
  · rw [if_pos ha] at h
    rcases hauto : autoDiscoverPackages d w with _ | ⟨discovered, _ | err⟩
    · simp [hauto] at h
    · simp only [hauto] at h
      obtain ⟨parsed, hf, hp⟩ := manualPackagesLoop_ok d w _ _ _ h
      exact ⟨discovered, parsed, by rw [if_pos ha], hf, hp, applyManualOverrides_fields⟩
    · simp [hauto] at h
  · rw [if_neg ha] at h
    obtain ⟨parsed, hf, hp⟩ := manualPackagesLoop_ok d w _ _ _ h
    exact ⟨[], parsed, by rw [if_neg ha], hf, hp, applyManualOverrides_fields⟩

/-- Claim C14 on two manual entries, without auto-discovery: two packages, the first
renamed, the second with the description of its entry. -/
theorem DiscoverPackages_result_witness :
    DiscoverPackages manualDiscoverer docWorld = some (manualResult, none) ∧
    manualResult.map (fun pkg => (pkg.Name, pkg.Path, pkg.Description))
      = [("renamed".toList, "/src/demo/sub".toList, "Package demo does X. It also does Y.\n".toList),
         ("lib".toList, "/src/demo/other".toList, "Described.".toList)] ∧
    ∃ auto parsed,
      (if manualDiscoverer.config.AutoDiscover = true
        then autoDiscoverPackages manualDiscoverer docWorld = some (auto, none) else auto = []) ∧
      List.Forall₂ (fun m p => parsePackage manualDiscoverer docWorld m.Path = Outcome.ok p)
        manualDiscoverer.config.ManualPackages parsed ∧
      manualResult
        = auto ++ List.zipWith applyManualOverrides manualDiscoverer.config.ManualPackages parsed :=
  ⟨by decide, by decide,
    (DiscoverPackages_result manualDiscoverer docWorld manualResult (by decide)).imp
      fun _ hx => hx.imp fun _ hy => ⟨hy.1, hy.2.1, hy.2.2.1⟩⟩

/-- Claim C15: `DiscoverPackages` returns an error only when the directory walk fails
(with auto-discovery on) or a manual package fails to parse, and then it returns no
package; in a run that does not crash it returns an error whenever one of the two
happens.  The walk fails only with a read error of a node of the tree: a call of the
callback without such an error never returns an error, and it leaves the packages as
they are unless the directory parses. -/
theorem DiscoverPackages_error (d : Discoverer) (w : World) :
    (∀ pkgs e, DiscoverPackages d w = some (pkgs, some e) →
      pkgs = [] ∧ ((d.config.AutoDiscover = true ∧ WalkFails d w) ∨ SomeManualParseFails d w)) ∧
    (DiscoverPackages d w ≠ none →
      ((d.config.AutoDiscover = true ∧ WalkFails d w) ∨ SomeManualParseFails d w) →
      ∃ e, DiscoverPackages d w = some ([], some e)) ∧
    (∀ err allPackages, filepathWalk d w = some (some err, allPackages) → err ∈ w.root.errors) ∧
    (∀ path info allPackages signal result,
      walkFn d w path info none allPackages = some (signal, result) →
        (∀ err, signal ≠ WalkSignal.fail err) ∧
        (result = allPackages ∨
          ∃ relPath p, parsePackage d w relPath = Outcome.ok p ∧ result = allPackages ++ [p])) := by
  refine ⟨?_, ?_, fun err allPackages h => filepathWalk_error_mem d w err allPackages h,
    fun path info allPackages signal result h =>
      walkFn_without_error d w path info allPackages signal result h⟩
  · intro pkgs e h
    unfold DiscoverPackages at h
    by_cases ha : d.config.AutoDiscover = true
    · rw [if_pos ha] at h
      unfold autoDiscoverPackages at h
      rcases hwalk : filepathWalk d w with _ | ⟨_ | err, collected⟩
      · simp [hwalk] at h
      · simp only [hwalk, Option.map_some'] at h
        obtain ⟨h1, h2⟩ := manualPackagesLoop_error d w _ _ _ _ h
        exact ⟨h1, Or.inr h2⟩
      · simp only [hwalk, Option.map_some', Option.some.injEq, Prod.mk.injEq] at h
        exact ⟨h.1.symm, Or.inl ⟨ha, err, collected, hwalk⟩⟩
    · rw [if_neg ha] at h
      obtain ⟨h1, h2⟩ := manualPackagesLoop_error d w _ _ _ _ h
      exact ⟨h1, Or.inr h2⟩
  · intro hrun hcause
    unfold DiscoverPackages at hrun ⊢
    by_cases ha : d.config.AutoDiscover = true
    · rw [if_pos ha] at hrun ⊢
      unfold autoDiscoverPackages at hrun ⊢
      rcases hwalk : filepathWalk d w with _ | ⟨_ | err, collected⟩
      · simp [hwalk] at hrun
      · simp only [hwalk, Option.map_some'] at hrun ⊢
        rcases hcause with ⟨_, err, all, hw⟩ | hm
        · rw [hwalk] at hw
          simp at hw
        · exact manualPackagesLoop_of_failure d w _ _ hm hrun
      · simp only [hwalk, Option.map_some']
        exact ⟨_, rfl⟩
    · rw [if_neg ha] at hrun ⊢
      rcases hcause with ⟨hauto, _⟩ | hm
      · exact absurd hauto ha
      · exact manualPackagesLoop_of_failure d w _ _ hm hrun

/-- Claim C15 in a world in which no directory parses: the manual entry fails and
`DiscoverPackages` returns an error and no package, while the auto-discovery of the same
world returns no error. -/
theorem DiscoverPackages_error_witness :
    DiscoverPackages manualDiscoverer brokenWorld ≠ none ∧
    SomeManualParseFails manualDiscoverer brokenWorld ∧
    (∃ e, DiscoverPackages manualDiscoverer brokenWorld = some ([], some e)) ∧
    autoDiscoverPackages defaultDiscoverer brokenWorld = some ([], none) := by
  have hrun : DiscoverPackages manualDiscoverer brokenWorld ≠ none := by decide
  have hfail : SomeManualParseFails manualDiscoverer brokenWorld :=
    ⟨{ Name := "renamed".toList, Path := "sub".toList, Description := [] },
      by simp [manualDiscoverer], _, rfl⟩
  exact ⟨hrun, hfail,
    (DiscoverPackages_error manualDiscoverer brokenWorld).2.1 hrun (Or.inr hfail), by decide⟩

/-- Claim C16: when the directory parses, `parsePackage` fails, with the error
`no non-test package found`, if and only if the name of every package of the directory
ends in `_test` (so also when there is none); it has no other error; and when it
succeeds it summarises one of the packages of the directory, whose name does not end in
`_test` and is the name of the summary. -/
theorem parsePackage_main_package (d : Discoverer) (w : World) (pkgPath : Str)
    (pkgs : List AstPackage)
    (hparse : w.parseDir (resolvePath d pkgPath) (parseFilter d) = Except.ok pkgs) :
    (parsePackage d w pkgPath
        = Outcome.error ("no non-test package found in ".toList ++ resolvePath d pkgPath)
      ↔ ∀ g ∈ pkgs, hasSuffix g.Name "_test".toList = true) ∧
    (∀ e, parsePackage d w pkgPath = Outcome.error e →
      e = "no non-test package found in ".toList ++ resolvePath d pkgPath) ∧
    (∀ p, parsePackage d w pkgPath = Outcome.ok p →
      ∃ g ∈ pkgs, hasSuffix g.Name "_test".toList = false ∧
        parseASTPackage d w g (resolvePath d pkgPath) = some p ∧ p.Name = g.Name) := by
  unfold parsePackage
  simp only [hparse]
  rcases hfirst : firstNonTestPackage pkgs with _ | g
  · have hall := (firstNonTestPackage_eq_none pkgs).mp hfirst
    refine ⟨⟨fun _ => hall, fun _ => rfl⟩, ?_, ?_⟩
    · intro e he
      simp only [Outcome.error.injEq] at he
      exact he.symm
    · intro p hp
      simp at hp
  · obtain ⟨hmem, hsuf⟩ := firstNonTestPackage_eq_some pkgs g hfirst
    rcases hast : parseASTPackage d w g (resolvePath d pkgPath) with _ | p
    · simp only [hast]
      refine ⟨⟨fun h => by simp at h, fun hall => ?_⟩, fun e he => by simp at he,
        fun p hp => by simp at hp⟩
      rw [hall g hmem] at hsuf
      cases hsuf
    · simp only [hast]
      refine ⟨⟨fun h => by simp at h, fun hall => ?_⟩, fun e he => by simp at he, ?_⟩
      · rw [hall g hmem] at hsuf
        cases hsuf
      · intro q hq
        simp only [Outcome.ok.injEq] at hq
        subst hq
        exact ⟨g, hmem, hsuf, hast, (parseASTPackage_name d w g _ p hast).1⟩

/-- Claim C16 on a directory that holds the one package `lib`. -/
theorem parsePackage_main_package_witness :
    docWorld.parseDir (resolvePath defaultDiscoverer "sub".toList) (parseFilter defaultDiscoverer)
      = Except.ok [libPkg] ∧
    ¬ (∀ g ∈ [libPkg], hasSuffix g.Name "_test".toList = true) ∧
    parsePackage defaultDiscoverer docWorld "sub".toList
      ≠ Outcome.error ("no non-test package found in ".toList
          ++ resolvePath defaultDiscoverer "sub".toList) :=
  ⟨rfl, by decide,
    fun h => absurd ((parsePackage_main_package defaultDiscoverer docWorld "sub".toList
      [libPkg] rfl).1.mp h) (by decide)⟩

/-- Claim C17, evaluated on a project that holds `test/e2e.go`, `vendor/lib.go` and
`vendor/pkg/dep.go`, with test inclusion off: the directories `test` and `vendor`
themselves are not skipped (their paths do not contain `/test/` or `/vendor/`), so each
contributes a package; only `vendor/pkg` is skipped. -/
theorem vendor_directory_is_walked :
    (walkFn defaultDiscoverer vendorWorld "/src/demo/vendor".toList
        (some ("vendor".toList, true)) none []).map (fun r => r.1) = some WalkSignal.next ∧
    (walkFn defaultDiscoverer vendorWorld "/src/demo/vendor/pkg".toList
        (some ("pkg".toList, true)) none []).map (fun r => r.1) = some WalkSignal.skipDir ∧
    (autoDiscoverPackages defaultDiscoverer vendorWorld).map
        (fun r => (r.1.map (fun pkg => pkg.Path), r.2))
      = some (["/src/demo/test".toList, "/src/demo/vendor".toList], none) := by
  decide

/-- Claim C18, evaluated on a package whose directory is `/src/demo/internal` and on one
whose directory is `/src/demo/cmd`: the paths do not contain `/internal/` or `/cmd/`, so
the categories are `api` and `main`; a package below `internal` is `internal`. -/
theorem internal_directory_is_api :
    determinePackageCategory (barePackage "config" "/src/demo/internal") = "api".toList ∧
    determinePackageCategory (barePackage "main" "/src/demo/cmd") = "main".toList ∧
    determinePackageCategory (barePackage "config" "/src/demo/internal/config")
      = "internal".toList := by
  decide

/-- Claim C19, evaluated on a package doc of two sentences: the description is the whole
doc comment; for every package the description is the package doc as it is, because the
branch that would cut it runs only for an empty description of a non-empty doc. -/
theorem description_is_whole_doc :
    (∀ docPkg : DocPackage, packageDescription docPkg = docPkg.Doc) ∧
    (parseASTPackage defaultDiscoverer docWorld libPkg "/src/demo".toList).map
        (fun pkg => pkg.Description)
      = some "Package demo does X. It also does Y.\n".toList := by
  constructor
  · intro docPkg
    unfold packageDescription
    by_cases h : docPkg.Doc = []
    · simp [h]
    · simp [h]
  · decide

/-- Claim C20, evaluated on the variable declarations `Exported, hidden` and
`secret, Visible`: the first is kept with its unexported name `hidden`, the second is
dropped with its exported name `Visible`, because only the first name is tested. -/
theorem mixed_declaration_is_kept_whole :
    publicValuesLoop twoSentenceDoc.Vars [] =
      [{ Doc := [], Names := ["Exported".toList, "hidden".toList] }] ∧
    (parseASTPackage defaultDiscoverer docWorld libPkg "/src/demo".toList).map
        (fun pkg => pkg.Variables.map (fun v => v.Names))
      = some [["Exported".toList, "hidden".toList]] := by
  decide

/-! ## Lemmas on the injectivity of the type formatter -/

theorem isIdentChar_of_start (c : Char) (h : isIdentStart c = true) : isIdentChar c = true := by
  simp only [isIdentStart, Bool.or_eq_true] at h
  simp only [isIdentChar, Bool.or_eq_true]
  tauto

theorem isIdentifier_ne_nil (n : Str) (h : isIdentifier n = true) : n ≠ [] := by
  cases n with
  | nil => simp [isIdentifier] at h
  | cons c r => simp

theorem isIdentifier_chars (n : Str) (h : isIdentifier n = true) :
    ∀ c ∈ n, isIdentChar c = true := by
  cases n with
  | nil => simp
  | cons c r =>
    simp only [isIdentifier, Bool.and_eq_true, List.all_eq_true] at h
    intro x hx
    rcases List.mem_cons.1 hx with rfl | hx
    · exact isIdentChar_of_start _ h.1.1
    · exact h.1.2 x hx

theorem isIdentifier_not_keyword (n : Str) (h : isIdentifier n = true) :
    goKeywords.contains n = false := by
  cases n with
  | nil => simp [isIdentifier] at h
  | cons c r =>
    simp only [isIdentifier, Bool.and_eq_true, Bool.not_eq_true'] at h
    exact h.2

theorem lead_nil : lead [] = ([], none) := rfl

theorem lead_cons_stop (c : Char) (s : Str) (h : isIdentChar c = false) :
    lead (c :: s) = ([], some c) := by
  simp [lead, List.takeWhile, List.dropWhile, h]

theorem lead_cons_go (c : Char) (s : Str) (h : isIdentChar c = true) :
    lead (c :: s) = (c :: (lead s).1, (lead s).2) := by
  simp [lead, List.takeWhile, List.dropWhile, h]

theorem isFollow_head (s : Str) (h : isFollow s = true) :
    s = [] ∨ ∃ c r, s = c :: r ∧ (c = ']' ∨ c = ',' ∨ c = ')') := by
  cases s with
  | nil => exact Or.inl rfl
  | cons c r =>
    right
    refine ⟨c, r, rfl, ?_⟩
    simp only [isFollow, Bool.or_eq_true, beq_iff_eq] at h
    tauto

theorem lead_of_stop (s : Str) (h : ∀ c ∈ s.head?, isIdentChar c = false) :
    lead s = ([], s.head?) := by
  cases s with
  | nil => rfl
  | cons c r => exact lead_cons_stop c r (h c (by simp))

theorem lead_append (n s : Str) (hn : ∀ c ∈ n, isIdentChar c = true)
    (hs : ∀ c ∈ s.head?, isIdentChar c = false) : lead (n ++ s) = (n, s.head?) := by
  induction n with
  | nil => exact lead_of_stop s hs
  | cons c r ih =>
    have h1 : isIdentChar c = true := hn c (by simp)
    have h2 := ih (fun x hx => hn x (List.mem_cons_of_mem _ hx))
    rw [List.cons_append, lead_cons_go _ _ h1, h2]

theorem isFollow_stop (s : Str) (h : isFollow s = true) :
    ∀ c ∈ s.head?, isIdentChar c = false := by
  rcases isFollow_head s h with rfl | ⟨c, r, rfl, hc⟩
  · simp
  · intro x hx
    simp only [List.head?_cons, Option.mem_def, Option.some.injEq] at hx
    subst hx
    rcases hc with rfl | rfl | rfl <;> decide

theorem isPackageName_eq (x : Expr) (h : x.isPackageName = true) :
    ∃ p, x = .Ident p ∧ isIdentifier p = true := by
  cases x <;> simp [Expr.isPackageName] at h
  exact ⟨_, rfl, h⟩

theorem isNil_eq (x : Expr) (h : x.isNil = true) : x = .Nil := by
  cases x <;> simp [Expr.isNil] at h
  rfl

theorem lead_formatType (e : Expr) (s : Str) (he : isPlainType e = true)
    (hs : isFollow s = true) : lead (formatType e ++ s) = leadOf e s := by
  cases e with
  | Ident n =>
    simp only [isPlainType] at he
    simp only [formatType, leadOf]
    exact lead_append n s (isIdentifier_chars n he) (isFollow_stop s hs)
  | StarExpr x =>
    simp only [formatType, leadOf]
    exact lead_cons_stop _ _ (by decide)
  | ArrayType len elt =>
    simp only [isPlainType, Bool.and_eq_true] at he
    obtain rfl := isNil_eq len he.1
    simp only [formatType, leadOf]
    exact lead_cons_stop _ _ (by decide)
  | MapType k v =>
    simp only [formatType, leadOf]
    exact lead_append "map".toList _ (by decide) (by simp; decide)
  | ChanType d v =>
    cases d
    · simp only [formatType, leadOf]
      exact lead_append "chan".toList _ (by decide) (by simp; decide)
    · simp only [formatType, leadOf]
      exact lead_cons_stop _ _ (by decide)
    · simp only [formatType, leadOf]
      exact lead_append "chan".toList _ (by decide) (by simp; decide)
  | FuncType ps rs =>
    simp only [formatType, leadOf]
    exact lead_append "func".toList _ (by decide) (by simp; decide)
  | InterfaceType ms =>
    simp only [formatType, leadOf]
    exact lead_append "interface".toList _ (by decide) (by simp; decide)
  | SelectorExpr x sel =>
    simp only [isPlainType, Bool.and_eq_true] at he
    obtain ⟨p, rfl, hp⟩ := isPackageName_eq x he.1
    simp only [formatType, leadOf, List.append_assoc]
    exact lead_append p _ (isIdentifier_chars p hp) (by simp; decide)
  | Ellipsis elt =>
    simp only [formatType, leadOf]
    exact lead_cons_stop _ _ (by decide)
  | _ => simp [isPlainType] at he

theorem kindOfLead_leadOf (e : Expr) (s : Str) (he : isPlainType e = true)
    (hs : isFollow s = true) : kindOfLead (leadOf e s) = kind e := by
  cases e with
  | Ident n =>
    rcases isFollow_head s hs with rfl | ⟨c, r, rfl, rfl | rfl | rfl⟩ <;>
      simp [leadOf, kindOfLead, kind]
  | ChanType d v => cases d <;> simp [leadOf, kindOfLead, kind]
  | SelectorExpr x sel =>
    simp only [isPlainType, Bool.and_eq_true] at he
    obtain ⟨p, rfl, hp⟩ := isPackageName_eq x he.1
    have := isIdentifier_ne_nil p hp
    simp [leadOf, kindOfLead, kind, formatType, this]
  | _ => first | (simp [isPlainType] at he; done) | simp [leadOf, kindOfLead, kind]

theorem dirOfLead_leadOf (d : ChanDir) (v : Expr) (s : Str) :
    dirOfLead (leadOf (.ChanType d v) s) = d := by
  cases d <;> simp [leadOf, dirOfLead]

theorem kind_eq_of_format_eq (e1 e2 : Expr) (s1 s2 : Str) (h1 : isPlainType e1 = true)
    (h2 : isPlainType e2 = true) (f1 : isFollow s1 = true) (f2 : isFollow s2 = true)
    (h : formatType e1 ++ s1 = formatType e2 ++ s2) :
    leadOf e1 s1 = leadOf e2 s2 ∧ kind e1 = kind e2 := by
  have hl : leadOf e1 s1 = leadOf e2 s2 := by
    rw [← lead_formatType e1 s1 h1 f1, ← lead_formatType e2 s2 h2 f2, h]
  refine ⟨hl, ?_⟩
  rw [← kindOfLead_leadOf e1 s1 h1 f1, ← kindOfLead_leadOf e2 s2 h2 f2, hl]

theorem isFollow_head_cases (s : Str) (c : Char) (h : isFollow s = true)
    (hc : s.head? = some c) : c = ']' ∨ c = ',' ∨ c = ')' := by
  rcases isFollow_head s h with rfl | ⟨c1, r, rfl, h1⟩
  · simp at hc
  · simp only [List.head?_cons, Option.some.injEq] at hc
    subst hc
    exact h1

theorem leadOf_fst_nil (e : Expr) (s : Str) (he : isPlainType e = true)
    (h : (leadOf e s).1 = []) :
    (leadOf e s).2 = some '*' ∨ (leadOf e s).2 = some '[' ∨ (leadOf e s).2 = some '<'
      ∨ (leadOf e s).2 = some '.' := by
  cases e with
  | Ident n =>
    simp only [isPlainType] at he
    exact absurd h (isIdentifier_ne_nil n he)
  | ChanType d v => cases d <;> simp [leadOf] at h ⊢
  | SelectorExpr x sel =>
    simp only [isPlainType, Bool.and_eq_true] at he
    obtain ⟨p, rfl, hp⟩ := isPackageName_eq x he.1
    exact absurd h (isIdentifier_ne_nil p hp)
  | _ => first | (simp [isPlainType] at he; done) | simp [leadOf] at h ⊢

theorem leadOf_snd_follow (e : Expr) (s : Str) (c : Char)
    (hc : c = ']' ∨ c = ',' ∨ c = ')') (h : (leadOf e s).2 = some c) :
    ∃ n, e = .Ident n ∧ s.head? = some c := by
  cases e with
  | Ident n => exact ⟨n, rfl, h⟩
  | ChanType d v =>
    cases d <;> simp only [leadOf] at h <;> rcases hc with rfl | rfl | rfl <;> simp at h
  | _ => simp only [leadOf] at h; rcases hc with rfl | rfl | rfl <;> simp at h

theorem leadOf_space (e : Expr) (s : Str) (n : Str) (he : isPlainType e = true)
    (hs : isFollow s = true) (hn : isIdentifier n = true) :
    leadOf e s ≠ (n, some ' ') := by
  intro h
  cases e with
  | Ident m =>
    simp only [leadOf, Prod.mk.injEq] at h
    have := isFollow_head_cases s ' ' hs h.2
    simp at this
  | ChanType d v =>
    have hk := isIdentifier_not_keyword n hn
    cases d <;> simp [leadOf] at h
    subst h
    revert hk
    decide
  | _ => first | (simp [isPlainType] at he; done) | simp [leadOf] at h

theorem isFollow_cons (c : Char) (s : Str) (h : c = ']' ∨ c = ',' ∨ c = ')') :
    isFollow (c :: s) = true := by
  rcases h with rfl | rfl | rfl <;> rfl

theorem injectiveAt_ident (n : Str) : InjectiveAt (.Ident n) := by
  intro e2 s1 s2 h1 h2 f1 f2 h
  obtain ⟨hl, hk⟩ := kind_eq_of_format_eq _ _ _ _ h1 h2 f1 f2 h
  cases e2 <;> simp [kind] at hk
  rename_i m
  simp only [leadOf, Prod.mk.injEq] at hl
  obtain rfl := hl.1
  simp only [formatType] at h
  exact ⟨rfl, List.append_cancel_left h⟩

theorem injectiveAt_star (x : Expr) (ih : InjectiveAt x) : InjectiveAt (.StarExpr x) := by
  intro e2 s1 s2 h1 h2 f1 f2 h
  obtain ⟨-, hk⟩ := kind_eq_of_format_eq _ _ _ _ h1 h2 f1 f2 h
  cases e2 <;> simp [kind] at hk
  rename_i y
  simp only [isPlainType] at h1 h2
  simp only [formatType, String.toList, List.cons_append, List.nil_append,
    List.cons.injEq, true_and] at h
  obtain ⟨rfl, rfl⟩ := ih y s1 s2 h1 h2 f1 f2 h
  exact ⟨rfl, rfl⟩

theorem injectiveAt_ellipsis (x : Expr) (ih : InjectiveAt x) :
    InjectiveAt (.Ellipsis x) := by
  intro e2 s1 s2 h1 h2 f1 f2 h
  obtain ⟨-, hk⟩ := kind_eq_of_format_eq _ _ _ _ h1 h2 f1 f2 h
  cases e2 <;> simp [kind] at hk
  rename_i y
  simp only [isPlainType] at h1 h2
  simp only [formatType, String.toList, List.cons_append, List.nil_append,
    List.cons.injEq, true_and] at h
  obtain ⟨rfl, rfl⟩ := ih y s1 s2 h1 h2 f1 f2 h
  exact ⟨rfl, rfl⟩

theorem injectiveAt_array (len x : Expr) (ih : InjectiveAt x) :
    InjectiveAt (.ArrayType len x) := by
  intro e2 s1 s2 h1 h2 f1 f2 h
  obtain ⟨-, hk⟩ := kind_eq_of_format_eq _ _ _ _ h1 h2 f1 f2 h
  cases e2 <;> simp [kind] at hk
  rename_i len2 y
  simp only [isPlainType, Bool.and_eq_true] at h1 h2
  obtain rfl := isNil_eq len h1.1
  obtain rfl := isNil_eq len2 h2.1
  simp only [formatType, String.toList, List.cons_append, List.nil_append,
    List.cons.injEq, true_and] at h
  obtain ⟨rfl, rfl⟩ := ih y s1 s2 h1.2 h2.2 f1 f2 h
  exact ⟨rfl, rfl⟩

theorem injectiveAt_map (k v : Expr) (ihk : InjectiveAt k) (ihv : InjectiveAt v) :
    InjectiveAt (.MapType k v) := by
  intro e2 s1 s2 h1 h2 f1 f2 h
  obtain ⟨-, hk⟩ := kind_eq_of_format_eq _ _ _ _ h1 h2 f1 f2 h
  cases e2 <;> simp [kind] at hk
  rename_i k2 v2
  simp only [isPlainType, Bool.and_eq_true] at h1 h2
  simp only [formatType, String.toList, List.cons_append, List.nil_append,
    List.cons.injEq, true_and, List.append_assoc] at h
  obtain ⟨rfl, h3⟩ := ihk k2 _ _ h1.1 h2.1 (isFollow_cons _ _ (Or.inl rfl))
    (isFollow_cons _ _ (Or.inl rfl)) h
  simp only [List.cons.injEq, true_and] at h3
  obtain ⟨rfl, rfl⟩ := ihv v2 s1 s2 h1.2 h2.2 f1 f2 h3
  exact ⟨rfl, rfl⟩

theorem injectiveAt_chan (d : ChanDir) (v : Expr) (ih : InjectiveAt v) :
    InjectiveAt (.ChanType d v) := by
  intro e2 s1 s2 h1 h2 f1 f2 h
  obtain ⟨hl, hk⟩ := kind_eq_of_format_eq _ _ _ _ h1 h2 f1 f2 h
  cases e2 <;> simp [kind] at hk
  rename_i d2 v2
  have hd : d = d2 := by
    rw [← dirOfLead_leadOf d v s1, ← dirOfLead_leadOf d2 v2 s2, hl]
  subst hd
  simp only [isPlainType] at h1 h2
  simp only [formatType, List.append_assoc] at h
  have h := List.append_cancel_left h
  simp only [String.toList, List.cons_append, List.nil_append,
    List.cons.injEq, true_and] at h
  obtain ⟨rfl, rfl⟩ := ih v2 s1 s2 h1 h2 f1 f2 h
  exact ⟨rfl, rfl⟩

theorem injectiveAt_interface (ms : Option (List Field)) : InjectiveAt (.InterfaceType ms) := by
  intro e2 s1 s2 h1 h2 f1 f2 h
  obtain ⟨-, hk⟩ := kind_eq_of_format_eq _ _ _ _ h1 h2 f1 f2 h
  cases e2 <;> simp [kind] at hk
  rename_i ms2
  simp only [isPlainType] at h1 h2
  have e1 : ms = some [] := by
    rcases ms with _ | _ | _ <;> simp [isEmptyFieldList] at h1 ⊢
  have e2 : ms2 = some [] := by
    rcases ms2 with _ | _ | _ <;> simp [isEmptyFieldList] at h2 ⊢
  subst e1 e2
  simp only [formatType] at h
  exact ⟨rfl, List.append_cancel_left h⟩

theorem injectiveAt_selector (x : Expr) (sel : Str) : InjectiveAt (.SelectorExpr x sel) := by
  intro e2 s1 s2 h1 h2 f1 f2 h
  obtain ⟨hl, hk⟩ := kind_eq_of_format_eq _ _ _ _ h1 h2 f1 f2 h
  cases e2 <;> simp [kind] at hk
  rename_i x2 sel2
  simp only [isPlainType, Bool.and_eq_true] at h1 h2
  obtain ⟨p, rfl, hp⟩ := isPackageName_eq x h1.1
  obtain ⟨p2, rfl, hp2⟩ := isPackageName_eq x2 h2.1
  simp only [leadOf, formatType, Prod.mk.injEq, and_true] at hl
  subst hl
  simp only [formatType, List.append_assoc] at h
  have h := List.append_cancel_left h
  simp only [String.toList, List.cons_append, List.nil_append,
    List.cons.injEq, true_and] at h
  have hl2 : lead (sel ++ s1) = lead (sel2 ++ s2) := by rw [h]
  rw [lead_append sel s1 (isIdentifier_chars sel h1.2) (isFollow_stop s1 f1),
    lead_append sel2 s2 (isIdentifier_chars sel2 h2.2) (isFollow_stop s2 f2)] at hl2
  simp only [Prod.mk.injEq] at hl2
  obtain rfl := hl2.1
  exact ⟨rfl, List.append_cancel_left h⟩

theorem injectiveAt_of_not_plain (e : Expr) (h : isPlainType e = false) : InjectiveAt e := by
  intro e2 s1 s2 h1
  rw [h] at h1
  cases h1

theorem formatParamList_succ (l : List Field) :
    ∀ i, formatParamList l (i + 1) = formatParamList l 1 := by
  induction l with
  | nil => intro i; simp [formatParamList]
  | cons f r ih =>
    intro i
    obtain ⟨d, ns, T, tag, c⟩ := f
    simp only [formatParamList, Nat.zero_lt_succ, if_true, Nat.lt_add_one]
    rw [ih (i + 1), ih 1]

theorem writeParamNames_succ (l : List Str) :
    ∀ j, writeParamNames l (j + 1) = writeParamNames l 1 := by
  induction l with
  | nil => intro j; simp [writeParamNames]
  | cons n r ih =>
    intro j
    simp only [writeParamNames, Nat.zero_lt_succ, if_true, Nat.lt_add_one]
    rw [ih (j + 1), ih 1]

theorem isBare_eq (f : Field) (h : f.isBare = true) :
    ∃ T, f = .mk none [] T none none := by
  obtain ⟨d, ns, T, tag, c⟩ := f
  cases d <;> cases ns <;> cases tag <;> cases c <;> simp [Field.isBare] at h
  exact ⟨T, rfl⟩

theorem isNamed_eq (f : Field) (h : f.isNamed = true) :
    ∃ n ns T, f = .mk none (n :: ns) T none none ∧ isIdentifier n = true
      ∧ ∀ m ∈ ns, isIdentifier m = true := by
  obtain ⟨d, ns, T, tag, c⟩ := f
  cases d <;> cases ns <;> cases tag <;> cases c <;> simp [Field.isNamed] at h
  exact ⟨_, _, T, rfl, h.1, h.2⟩

theorem formatParamList_bare (T : Expr) (r : List Field) :
    formatParamList (.mk none [] T none none :: r) 1
      = ',' :: ' ' :: (formatType T ++ formatParamList r 1)
    ∧ formatParamList (.mk none [] T none none :: r) 0
      = formatType T ++ formatParamList r 1 := by
  constructor
  · simp only [formatParamList, formatParamList_succ r 1]
    simp
  · simp [formatParamList]

theorem formatParamList_named (n : Str) (ns : List Str) (T : Expr) (r : List Field) :
    formatParamList (.mk none (n :: ns) T none none :: r) 1
      = ',' :: ' ' :: (n ++ (writeParamNames ns 1
          ++ ' ' :: (formatType T ++ formatParamList r 1)))
    ∧ formatParamList (.mk none (n :: ns) T none none :: r) 0
      = n ++ (writeParamNames ns 1 ++ ' ' :: (formatType T ++ formatParamList r 1)) := by
  constructor
  · simp only [formatParamList, formatParamList_succ r 1, writeParamNames]
    simp
  · simp [formatParamList, writeParamNames]

theorem formatParamList_one_cons (f : Field) (r : List Field) :
    formatParamList (f :: r) 1 = ',' :: ' ' :: formatParamList (f :: r) 0 := by
  obtain ⟨d, ns, T, tag, c⟩ := f
  simp only [formatParamList, formatParamList_succ r 1]
  simp

theorem isFollow_paramList (r : List Field) (t : Str) :
    isFollow (formatParamList r 1 ++ ')' :: t) = true := by
  cases r with
  | nil => rfl
  | cons f r => rw [formatParamList_one_cons]; rfl

theorem isPlainFields_cons (f : Field) (r : List Field) :
    isPlainFields (f :: r) = (isPlainType f.Type_ && isPlainFields r) := by
  obtain ⟨d, ns, T, tag, c⟩ := f
  simp [isPlainFields, Field.Type_]

theorem bareInjective (l1 : List Field) (hT : ∀ f ∈ l1, InjectiveAt f.Type_) :
    BareInjective l1 := by
  induction l1 with
  | nil =>
    intro l2 t1 t2 _ _ _ _ h
    cases l2 with
    | nil => simpa [formatParamList] using h
    | cons f r => rw [formatParamList_one_cons] at h; simp [formatParamList] at h
  | cons f1 r1 ih =>
    intro l2 t1 t2 b1 b2 p1 p2 h
    cases l2 with
    | nil => rw [formatParamList_one_cons] at h; simp [formatParamList] at h
    | cons f2 r2 =>
      simp only [List.all_cons, Bool.and_eq_true] at b1 b2
      obtain ⟨T1, rfl⟩ := isBare_eq f1 b1.1
      obtain ⟨T2, rfl⟩ := isBare_eq f2 b2.1
      rw [isPlainFields_cons, Bool.and_eq_true] at p1 p2
      rw [(formatParamList_bare T1 r1).1, (formatParamList_bare T2 r2).1] at h
      simp only [List.cons_append, List.cons.injEq, true_and, List.append_assoc] at h
      obtain ⟨rfl, h3⟩ := hT _ (List.mem_cons_self _ _) T2 _ _ p1.1 p2.1
        (isFollow_paramList r1 t1) (isFollow_paramList r2 t2) h
      obtain ⟨rfl, rfl⟩ := ih (fun f hf => hT f (List.mem_cons_of_mem _ hf)) r2 t1 t2
        b1.2 b2.2 p1.2 p2.2 h3
      exact ⟨rfl, rfl⟩

theorem writeParamNames_one_cons (n : Str) (r : List Str) :
    writeParamNames (n :: r) 1 = ',' :: ' ' :: (n ++ writeParamNames r 1) := by
  simp only [writeParamNames, writeParamNames_succ r 1]
  simp

theorem names_stop (r : List Str) (u : Str) :
    ∀ c ∈ (writeParamNames r 1 ++ ' ' :: u).head?, isIdentChar c = false := by
  cases r with
  | nil => simp [writeParamNames]; decide
  | cons n r => rw [writeParamNames_one_cons]; simp; decide

theorem names_head (r : List Str) (u : Str) :
    (r = [] ∧ (writeParamNames r 1 ++ ' ' :: u).head? = some ' ')
      ∨ (r ≠ [] ∧ (writeParamNames r 1 ++ ' ' :: u).head? = some ',') := by
  cases r with
  | nil => left; simp [writeParamNames]
  | cons n r => right; rw [writeParamNames_one_cons]; simp

theorem names_injective (ns1 : List Str) :
    ∀ (ns2 : List Str) (u1 u2 : Str), (∀ m ∈ ns1, isIdentifier m = true) →
      (∀ m ∈ ns2, isIdentifier m = true) →
      writeParamNames ns1 1 ++ ' ' :: u1 = writeParamNames ns2 1 ++ ' ' :: u2 →
      ns1 = ns2 ∧ u1 = u2 := by
  induction ns1 with
  | nil =>
    intro ns2 u1 u2 _ _ h
    cases ns2 with
    | nil => simpa [writeParamNames] using h
    | cons n r => rw [writeParamNames_one_cons] at h; simp [writeParamNames] at h
  | cons n1 r1 ih =>
    intro ns2 u1 u2 i1 i2 h
    cases ns2 with
    | nil => rw [writeParamNames_one_cons] at h; simp [writeParamNames] at h
    | cons n2 r2 =>
      rw [writeParamNames_one_cons, writeParamNames_one_cons] at h
      simp only [List.cons_append, List.cons.injEq, true_and, List.append_assoc] at h
      have hl : lead (n1 ++ (writeParamNames r1 1 ++ ' ' :: u1))
          = lead (n2 ++ (writeParamNames r2 1 ++ ' ' :: u2)) := by rw [h]
      rw [lead_append n1 _ (isIdentifier_chars n1 (i1 n1 (List.mem_cons_self _ _)))
          (names_stop r1 u1),
        lead_append n2 _ (isIdentifier_chars n2 (i2 n2 (List.mem_cons_self _ _)))
          (names_stop r2 u2)] at hl
      simp only [Prod.mk.injEq] at hl
      obtain rfl := hl.1
      have h3 := List.append_cancel_left h
      obtain ⟨rfl, rfl⟩ := ih r2 u1 u2 (fun m hm => i1 m (List.mem_cons_of_mem _ hm))
        (fun m hm => i2 m (List.mem_cons_of_mem _ hm)) h3
      exact ⟨rfl, rfl⟩

theorem namedInjective (l1 : List Field) (hT : ∀ f ∈ l1, InjectiveAt f.Type_) :
    NamedInjective l1 := by
  induction l1 with
  | nil =>
    intro l2 t1 t2 _ _ _ _ h
    cases l2 with
    | nil => simpa [formatParamList] using h
    | cons f r => rw [formatParamList_one_cons] at h; simp [formatParamList] at h
  | cons f1 r1 ih =>
    intro l2 t1 t2 b1 b2 p1 p2 h
    cases l2 with
    | nil => rw [formatParamList_one_cons] at h; simp [formatParamList] at h
    | cons f2 r2 =>
      simp only [List.all_cons, Bool.and_eq_true] at b1 b2
      obtain ⟨n1, ns1, T1, rfl, hn1, hns1⟩ := isNamed_eq f1 b1.1
      obtain ⟨n2, ns2, T2, rfl, hn2, hns2⟩ := isNamed_eq f2 b2.1
      rw [isPlainFields_cons, Bool.and_eq_true] at p1 p2
      rw [(formatParamList_named n1 ns1 T1 r1).1,
        (formatParamList_named n2 ns2 T2 r2).1] at h
      simp only [List.cons_append, List.cons.injEq, true_and, List.append_assoc] at h
      have hl : lead (n1 ++ (writeParamNames ns1 1 ++ ' ' ::
            (formatType T1 ++ (formatParamList r1 1 ++ ')' :: t1))))
          = lead (n2 ++ (writeParamNames ns2 1 ++ ' ' ::
            (formatType T2 ++ (formatParamList r2 1 ++ ')' :: t2)))) := by rw [h]
      rw [lead_append n1 _ (isIdentifier_chars n1 hn1) (names_stop ns1 _),
        lead_append n2 _ (isIdentifier_chars n2 hn2) (names_stop ns2 _)] at hl
      simp only [Prod.mk.injEq] at hl
      obtain rfl := hl.1
      have h3 := List.append_cancel_left h
      obtain ⟨rfl, h4⟩ := names_injective ns1 ns2 _ _ hns1 hns2 h3
      obtain ⟨rfl, h5⟩ := hT _ (List.mem_cons_self _ _) T2 _ _ p1.1 p2.1
        (isFollow_paramList r1 t1) (isFollow_paramList r2 t2) h4
      obtain ⟨rfl, rfl⟩ := ih (fun f hf => hT f (List.mem_cons_of_mem _ hf)) r2 t1 t2
        b1.2 b2.2 p1.2 p2.2 h5
      exact ⟨rfl, rfl⟩

theorem names_clash (ns : List Str) :
    ∀ (n u : Str) (l2 : List Field) (t2 : Str), isIdentifier n = true →
      (∀ m ∈ ns, isIdentifier m = true) → l2 ≠ [] → l2.all Field.isBare = true →
      isPlainFields l2 = true →
      n ++ (writeParamNames ns 1 ++ ' ' :: u) ≠ formatParamList l2 0 ++ ')' :: t2 := by
  induction ns with
  | nil =>
    intro n u l2 t2 hn _ hl2 b2 p2 h
    cases l2 with
    | nil => exact hl2 rfl
    | cons f2 r2 =>
      simp only [List.all_cons, Bool.and_eq_true] at b2
      obtain ⟨T2, rfl⟩ := isBare_eq f2 b2.1
      rw [isPlainFields_cons, Bool.and_eq_true] at p2
      rw [(formatParamList_bare T2 r2).2, List.append_assoc] at h
      have hl : lead (n ++ (writeParamNames [] 1 ++ ' ' :: u))
          = lead (formatType T2 ++ (formatParamList r2 1 ++ ')' :: t2)) := by rw [h]
      rw [lead_append n _ (isIdentifier_chars n hn) (names_stop [] u),
        lead_formatType T2 _ p2.1 (isFollow_paramList r2 t2)] at hl
      exact leadOf_space T2 _ n p2.1 (isFollow_paramList r2 t2) hn
        (by rw [← hl]; simp [writeParamNames])
  | cons m ms ih =>
    intro n u l2 t2 hn hms hl2 b2 p2 h
    cases l2 with
    | nil => exact hl2 rfl
    | cons f2 r2 =>
      simp only [List.all_cons, Bool.and_eq_true] at b2
      obtain ⟨T2, rfl⟩ := isBare_eq f2 b2.1
      rw [isPlainFields_cons, Bool.and_eq_true] at p2
      rw [(formatParamList_bare T2 r2).2, List.append_assoc] at h
      have hl : lead (n ++ (writeParamNames (m :: ms) 1 ++ ' ' :: u))
          = lead (formatType T2 ++ (formatParamList r2 1 ++ ')' :: t2)) := by rw [h]
      rw [lead_append n _ (isIdentifier_chars n hn) (names_stop (m :: ms) u),
        lead_formatType T2 _ p2.1 (isFollow_paramList r2 t2)] at hl
      have h2 : (leadOf T2 (formatParamList r2 1 ++ ')' :: t2)).2 = some ',' := by
        rw [← hl, writeParamNames_one_cons]; simp
      obtain ⟨n2, rfl, hh⟩ := leadOf_snd_follow T2 _ ',' (Or.inr (Or.inl rfl)) h2
      simp only [leadOf, Prod.mk.injEq] at hl
      obtain rfl := hl.1
      cases r2 with
      | nil => simp [formatParamList] at hh
      | cons f3 r3 =>
        simp only [formatType] at h
        have h3 := List.append_cancel_left h
        rw [writeParamNames_one_cons, formatParamList_one_cons] at h3
        simp only [List.cons_append, List.cons.injEq, true_and, List.append_assoc] at h3
        exact ih m u (f3 :: r3) t2 (hms m (List.mem_cons_self _ _))
          (fun x hx => hms x (List.mem_cons_of_mem _ hx)) (by simp) b2.2 p2.2 h3

theorem lead_paramList_ne (l : List Field) (t : Str) (c : Char) (hl : l ≠ [])
    (a : l.all Field.isNamed = true ∨ l.all Field.isBare = true)
    (p : isPlainFields l = true) (hc : c = '(' ∨ c = ')') :
    lead (formatParamList l 0 ++ ')' :: t) ≠ ([], some c) := by
  cases l with
  | nil => exact absurd rfl hl
  | cons f r =>
    rw [isPlainFields_cons, Bool.and_eq_true] at p
    rcases a with a | a
    · simp only [List.all_cons, Bool.and_eq_true] at a
      obtain ⟨n, ns, T, rfl, hn, -⟩ := isNamed_eq f a.1
      rw [(formatParamList_named n ns T r).2]
      simp only [List.append_assoc, List.cons_append]
      rw [lead_append n _ (isIdentifier_chars n hn) (names_stop ns _)]
      intro h
      simp only [Prod.mk.injEq] at h
      exact isIdentifier_ne_nil n hn h.1
    · simp only [List.all_cons, Bool.and_eq_true] at a
      obtain ⟨T, rfl⟩ := isBare_eq f a.1
      rw [(formatParamList_bare T r).2, List.append_assoc,
        lead_formatType T _ p.1 (isFollow_paramList r t)]
      intro h
      have h1 := leadOf_fst_nil T (formatParamList r 1 ++ ')' :: t) p.1 (by rw [h])
      rw [h] at h1
      rcases hc with rfl | rfl <;> simp at h1

theorem params_injective (l1 l2 : List Field) (t1 t2 : Str)
    (hT : ∀ f ∈ l1, InjectiveAt f.Type_)
    (a1 : l1.all Field.isNamed = true ∨ l1.all Field.isBare = true)
    (a2 : l2.all Field.isNamed = true ∨ l2.all Field.isBare = true)
    (p1 : isPlainFields l1 = true) (p2 : isPlainFields l2 = true)
    (h : formatParamList l1 0 ++ ')' :: t1 = formatParamList l2 0 ++ ')' :: t2) :
    l1 = l2 ∧ t1 = t2 := by
  cases l1 with
  | nil =>
    cases l2 with
    | nil => simpa [formatParamList] using h
    | cons f2 r2 =>
      exfalso
      refine lead_paramList_ne (f2 :: r2) t2 ')' (by simp) a2 p2 (Or.inr rfl) ?_
      rw [← h]
      simp only [formatParamList, List.nil_append]
      exact lead_cons_stop _ _ (by decide)
  | cons f1 r1 =>
    cases l2 with
    | nil =>
      exfalso
      refine lead_paramList_ne (f1 :: r1) t1 ')' (by simp) a1 p1 (Or.inr rfl) ?_
      rw [h]
      simp only [formatParamList, List.nil_append]
      exact lead_cons_stop _ _ (by decide)
    | cons f2 r2 =>
      have h1 : formatParamList (f1 :: r1) 1 ++ ')' :: t1
          = formatParamList (f2 :: r2) 1 ++ ')' :: t2 := by
        rw [formatParamList_one_cons, formatParamList_one_cons]
        simp only [List.cons_append, h]
      rcases a1 with a1 | a1 <;> rcases a2 with a2 | a2
      · exact namedInjective _ hT _ t1 t2 a1 a2 p1 p2 h1
      · exfalso
        simp only [List.all_cons, Bool.and_eq_true] at a1
        obtain ⟨n, ns, T, rfl, hn, hns⟩ := isNamed_eq f1 a1.1
        rw [(formatParamList_named n ns T r1).2] at h
        simp only [List.append_assoc, List.cons_append] at h
        exact names_clash ns n _ (f2 :: r2) t2 hn hns (by simp) a2 p2 h
      · exfalso
        simp only [List.all_cons, Bool.and_eq_true] at a2
        obtain ⟨n, ns, T, rfl, hn, hns⟩ := isNamed_eq f2 a2.1
        rw [(formatParamList_named n ns T r2).2] at h
        simp only [List.append_assoc, List.cons_append] at h
        exact names_clash ns n _ (f1 :: r1) t1 hn hns (by simp) a1 p1 h.symm
      · exact bareInjective _ hT _ t1 t2 a1 a2 p1 p2 h1

theorem formatResultList_bare (l : List Field) (hb : l.all Field.isBare = true) :
    ∀ i, formatResultList l i = formatParamList l i := by
  induction l with
  | nil => intro i; simp [formatResultList, formatParamList]
  | cons f r ih =>
    intro i
    simp only [List.all_cons, Bool.and_eq_true] at hb
    obtain ⟨T, rfl⟩ := isBare_eq f hb.1
    simp [formatResultList, formatParamList, ih hb.2]

theorem formatResults_single (T : Expr) :
    formatResults (some [.mk none [] T none none]) = ' ' :: formatType T := by
  simp [formatResults, formatResultList]

theorem formatResults_many (f g : Field) (r : List Field)
    (hb : (f :: g :: r).all Field.isBare = true) :
    formatResults (some (f :: g :: r))
      = ' ' :: '(' :: (formatParamList (f :: g :: r) 0 ++ [')']) := by
  simp [formatResults, formatResultList_bare _ hb]

theorem results_injective (rs1 rs2 : Option (List Field)) (s1 s2 : Str)
    (hT : ∀ l, rs1 = some l → ∀ f ∈ l, InjectiveAt f.Type_)
    (h1 : isPlainResults rs1 = true) (h2 : isPlainResults rs2 = true)
    (f1 : isFollow s1 = true) (f2 : isFollow s2 = true)
    (h : formatResults rs1 ++ s1 = formatResults rs2 ++ s2) : rs1 = rs2 ∧ s1 = s2 := by
  have key : ∀ (l : List Field) (s t : Str), isPlainResults (some l) = true →
      isFollow t = true → t ≠ formatResults (some l) ++ s := by
    intro l s t hl ft ht
    simp only [isPlainResults, Bool.and_eq_true, Bool.not_eq_true', List.isEmpty_eq_false]
      at hl
    rcases l with _ | ⟨f, _ | ⟨g, r⟩⟩
    · simp at hl
    · obtain ⟨T, rfl⟩ := isBare_eq f (by simpa using hl.1.2)
      rw [formatResults_single] at ht
      subst ht
      simp [isFollow] at ft
    · rw [formatResults_many f g r hl.1.2] at ht
      subst ht
      simp [isFollow] at ft
  rcases rs1 with _ | l1 <;> rcases rs2 with _ | l2
  · simpa [formatResults] using h
  · exact absurd (by simpa [formatResults] using h) (key l2 s2 s1 h2 f1)
  · exact absurd (by simpa [formatResults] using h.symm) (key l1 s1 s2 h1 f2)
  · have hT1 := hT l1 rfl
    simp only [isPlainResults, Bool.and_eq_true, Bool.not_eq_true', List.isEmpty_eq_false]
      at h1 h2
    rcases l1 with _ | ⟨a1, _ | ⟨b1, r1⟩⟩
    · simp at h1
    · obtain ⟨T1, rfl⟩ := isBare_eq a1 (by simpa using h1.1.2)
      have q1 : isPlainType T1 = true := by
        have := h1.2; rw [isPlainFields_cons, Bool.and_eq_true] at this; exact this.1
      rw [formatResults_single] at h
      rcases l2 with _ | ⟨a2, _ | ⟨b2, r2⟩⟩
      · simp at h2
      · obtain ⟨T2, rfl⟩ := isBare_eq a2 (by simpa using h2.1.2)
        have q2 : isPlainType T2 = true := by
          have := h2.2; rw [isPlainFields_cons, Bool.and_eq_true] at this; exact this.1
        rw [formatResults_single] at h
        simp only [List.cons_append, List.cons.injEq, true_and] at h
        obtain ⟨rfl, rfl⟩ := hT1 _ (List.mem_cons_self _ _) T2 s1 s2 q1 q2 f1 f2 h
        exact ⟨rfl, rfl⟩
      · exfalso
        rw [formatResults_many a2 b2 r2 h2.1.2] at h
        simp only [List.cons_append, List.cons.injEq, true_and] at h
        have hl := lead_formatType T1 s1 q1 f1
        rw [h, lead_cons_stop _ _ (by decide)] at hl
        have h3 := leadOf_fst_nil T1 s1 q1 (by rw [← hl])
        rw [← hl] at h3
        simp at h3
    · rw [formatResults_many a1 b1 r1 h1.1.2] at h
      rcases l2 with _ | ⟨a2, _ | ⟨b2, r2⟩⟩
      · simp at h2
      · exfalso
        obtain ⟨T2, rfl⟩ := isBare_eq a2 (by simpa using h2.1.2)
        have q2 : isPlainType T2 = true := by
          have := h2.2; rw [isPlainFields_cons, Bool.and_eq_true] at this; exact this.1
        rw [formatResults_single] at h
        simp only [List.cons_append, List.cons.injEq, true_and] at h
        have hl := lead_formatType T2 s2 q2 f2
        rw [← h, lead_cons_stop _ _ (by decide)] at hl
        have h3 := leadOf_fst_nil T2 s2 q2 (by rw [← hl])
        rw [← hl] at h3
        simp at h3
      · rw [formatResults_many a2 b2 r2 h2.1.2] at h
        simp only [List.cons_append, List.cons.injEq, true_and, List.append_assoc,
          List.nil_append] at h
        obtain ⟨e, rfl⟩ := params_injective _ _ s1 s2 hT1 (Or.inr h1.1.2) (Or.inr h2.1.2)
          h1.2 h2.2 (by simpa using h)
        exact ⟨by rw [e], rfl⟩

theorem injectiveAt_func (ps rs : Option (List Field))
    (hp : ∀ l, ps = some l → ∀ f ∈ l, InjectiveAt f.Type_)
    (hr : ∀ l, rs = some l → ∀ f ∈ l, InjectiveAt f.Type_) :
    InjectiveAt (.FuncType ps rs) := by
  intro e2 s1 s2 h1 h2 f1 f2 h
  obtain ⟨-, hk⟩ := kind_eq_of_format_eq _ _ _ _ h1 h2 f1 f2 h
  cases e2 <;> simp [kind] at hk
  rename_i ps2 rs2
  simp only [isPlainType, Bool.and_eq_true] at h1 h2
  rcases ps with _ | l1
  · simp [isPlainParams] at h1
  rcases ps2 with _ | l2
  · simp [isPlainParams] at h2
  simp only [isPlainParams, Bool.and_eq_true, Bool.or_eq_true] at h1 h2
  simp only [formatType, formatParams, String.toList, List.cons_append, List.nil_append,
    List.cons.injEq, true_and, List.append_assoc] at h
  obtain ⟨rfl, h3⟩ := params_injective l1 l2 _ _ (hp l1 rfl) h1.1.1 h2.1.1 h1.1.2 h2.1.2 h
  obtain ⟨rfl, rfl⟩ := results_injective rs rs2 s1 s2 hr h1.2 h2.2 f1 f2 h3
  exact ⟨rfl, rfl⟩

mutual
theorem injectiveAt_all : (e : Expr) → InjectiveAt e
  | .Ident n => injectiveAt_ident n
  | .StarExpr x => injectiveAt_star x (injectiveAt_all x)
  | .ArrayType len elt => injectiveAt_array len elt (injectiveAt_all elt)
  | .MapType k v => injectiveAt_map k v (injectiveAt_all k) (injectiveAt_all v)
  | .ChanType d v => injectiveAt_chan d v (injectiveAt_all v)
  | .FuncType ps rs =>
    injectiveAt_func ps rs (injectiveAt_fieldList ps) (injectiveAt_fieldList rs)
  | .InterfaceType ms => injectiveAt_interface ms
  | .SelectorExpr x sel => injectiveAt_selector x sel
  | .Ellipsis elt => injectiveAt_ellipsis elt (injectiveAt_all elt)
  | .Nil => injectiveAt_of_not_plain _ rfl
  | .BadExpr => injectiveAt_of_not_plain _ rfl
  | .BasicLit _ _ => injectiveAt_of_not_plain _ rfl
  | .FuncLit => injectiveAt_of_not_plain _ rfl
  | .CompositeLit => injectiveAt_of_not_plain _ rfl
  | .ParenExpr _ => injectiveAt_of_not_plain _ rfl
  | .IndexExpr _ _ => injectiveAt_of_not_plain _ rfl
  | .IndexListExpr => injectiveAt_of_not_plain _ rfl
  | .SliceExpr => injectiveAt_of_not_plain _ rfl
  | .TypeAssertExpr => injectiveAt_of_not_plain _ rfl
  | .CallExpr => injectiveAt_of_not_plain _ rfl
  | .UnaryExpr => injectiveAt_of_not_plain _ rfl
  | .BinaryExpr => injectiveAt_of_not_plain _ rfl
  | .KeyValueExpr => injectiveAt_of_not_plain _ rfl
  | .StructType _ => injectiveAt_of_not_plain _ rfl
theorem injectiveAt_fieldList :
    (o : Option (List Field)) → ∀ l, o = some l → ∀ f ∈ l, InjectiveAt f.Type_
  | none => fun _ h => nomatch h
  | some l => fun l2 h => by
    cases h
    exact injectiveAt_fields l
theorem injectiveAt_fields : (l : List Field) → ∀ f ∈ l, InjectiveAt f.Type_
  | [] => fun _ h => nomatch h
  | .mk _ _ T _ _ :: rest => fun f hf => by
    rcases List.mem_cons.1 hf with rfl | hf
    · exact injectiveAt_all T
    · exact injectiveAt_fields rest f hf
end

/-! ## The claim on the injectivity of the type formatter -/

/-- Claim C11, the counterexample: an interface type with a method and the empty
interface are different expressions that `formatType` prints alike. -/
theorem interface_with_methods_prints_as_empty :
    closerType ≠ emptyInterfaceType
      ∧ formatType closerType = "interface\x7b\x7d".toList
      ∧ formatType emptyInterfaceType = "interface\x7b\x7d".toList := by
  refine ⟨?_, rfl, rfl⟩
  simp [closerType, emptyInterfaceType]

/-- Claim C11, amended: on the type expressions built from identifiers, pointers,
slices, maps, channels of any direction, function types with named or unnamed
parameters and unnamed results, the empty interface, package-qualified names and
variadic elements, two different expressions never format to the same text. -/
theorem formatType_injective (e1 e2 : Expr) (h1 : isPlainType e1 = true)
    (h2 : isPlainType e2 = true) (hne : e1 ≠ e2) : formatType e1 ≠ formatType e2 := by
  intro h
  apply hne
  have h3 : formatType e1 ++ [] = formatType e2 ++ [] := by rw [h]
  exact (injectiveAt_all e1 e2 [] [] h1 h2 rfl rfl h3).1

/-- Claim C11, amended, on the types `func(a, b int) string` and
`func(a int, b int) string`: both are plain, they differ, and so do their texts. -/
theorem formatType_injective_witness :
    isPlainType groupedFuncType = true ∧ isPlainType ungroupedFuncType = true
      ∧ groupedFuncType ≠ ungroupedFuncType
      ∧ formatType groupedFuncType ≠ formatType ungroupedFuncType :=
  ⟨by decide, by decide, by simp [groupedFuncType, ungroupedFuncType],
    formatType_injective groupedFuncType ungroupedFuncType (by decide) (by decide)
      (by simp [groupedFuncType, ungroupedFuncType])⟩

/-! ## Lemmas on the type enhancer -/

theorem cleanedComments_cons (c : Str) (rest : List Str) :
    cleanedComments (c :: rest) =
      (if trimSpace (trimPrefix c "//".toList) ≠ [] then [trimSpace (trimPrefix c "//".toList)]
        else []) ++ cleanedComments rest := by
  unfold cleanedComments
  rw [List.map_cons]
  by_cases h : trimSpace (trimPrefix c "//".toList) = []
  · rw [List.filter_cons_of_neg (by simpa using h), if_neg (by simpa using h)]
    rfl
  · rw [List.filter_cons_of_pos (by simpa using h), if_pos h]
    rfl

theorem appendCommentTexts_eq (list docs : List Str) :
    appendCommentTexts list docs = docs ++ cleanedComments list := by
  induction list generalizing docs with
  | nil => simp [appendCommentTexts, cleanedComments]
  | cons c rest ih =>
    rw [cleanedComments_cons]
    simp only [appendCommentTexts]
    by_cases h : trimSpace (trimPrefix c "//".toList) = []
    · rw [if_neg (by simpa using h), if_neg (by simpa using h), ih]
      rfl
    · rw [if_pos h, if_pos h, ih, List.append_assoc]

theorem appendCommentGroup_eq (group : Option (List Str)) (docs : List Str) :
    appendCommentGroup group docs = docs ++ groupTexts group := by
  cases group with
  | none => simp [appendCommentGroup, groupTexts]
  | some list => simp [appendCommentGroup, groupTexts, appendCommentTexts_eq]

theorem extractFieldDoc_eq (field : Field) : extractFieldDoc field = fieldDocumentation field := by
  obtain ⟨d, ns, T, tag, c⟩ := field
  cases d <;> cases c <;>
    simp [extractFieldDoc, fieldDocumentation, Field.Doc, Field.Comment, cleanedText,
      appendCommentTexts_eq]

theorem appendNamedFields_eq (fieldType fieldTag fieldDoc : Str) (names : List Str)
    (fields : List FieldInfo) :
    appendNamedFields fieldType fieldTag fieldDoc names fields =
      fields ++ names.map (fun name =>
        { Name := name, Type_ := fieldType, Tag := fieldTag, Doc := fieldDoc }) := by
  induction names generalizing fields with
  | nil => simp [appendNamedFields]
  | cons n rest ih => simp [appendNamedFields, ih]

theorem appendFields_eq (list : List Field) (fields : List FieldInfo) :
    appendFields list fields = fields ++ declaredFields list := by
  induction list generalizing fields with
  | nil => simp [appendFields, declaredFields]
  | cons field rest ih =>
    have hcons : declaredFields (field :: rest) = declaredFields [field] ++ declaredFields rest := by
      simp [declaredFields]
    rw [hcons, ← List.append_assoc]
    simp only [appendFields]
    by_cases hn : field.Names = []
    · have h0 : ¬ 0 < field.Names.length := by simp [hn]
      rw [if_neg h0, ih]
      congr 1
      obtain ⟨d, ns, T, tag, c⟩ := field
      cases tag <;> simp [declaredFields, Field.Tag, extractFieldDoc_eq] at hn ⊢ <;>
        rw [if_pos hn]
    · have h0 : 0 < field.Names.length := List.length_pos.2 hn
      rw [if_pos h0, ih, appendNamedFields_eq]
      congr 1
      obtain ⟨d, ns, T, tag, c⟩ := field
      cases tag <;> simp [declaredFields, Field.Tag, extractFieldDoc_eq] at hn ⊢ <;>
        rw [if_neg hn]

theorem enhanceType_found (w : World) (typ : DocType) (astPkg : AstPackage) (ts : TypeSpec)
    (e : EnhancedType) (hfound : findTypeSpec typ.Name astPkg.Files = some ts)
    (he : enhanceType w typ astPkg = some e) :
    e.TypeKind = typeKindTag ts.Type_ ∧ e.Fields = declaredFieldsOf ts.Type_ := by
  unfold enhanceType at he
  rcases hdoc : extractTypeDocumentation w typ.Name astPkg with _ | doc
  · simp [hdoc] at he
  simp only [hdoc, hfound] at he
  split at he
  · rename_i declaration exampleCode fields methods funcs hdecl hex hfields hm hc
    simp only [Option.some.injEq] at he
    subst he
    constructor
    · cases hT : ts.Type_ <;> simp [typeKindTag]
    · cases hT : ts.Type_ with
      | StructType o =>
        simp only [hT] at hfields
        cases o with
        | none => simp at hfields
        | some list =>
          simp only [Option.some.injEq] at hfields
          subst hfields
          simp [declaredFieldsOf, appendFields_eq]
      | _ =>
        simp only [hT, Option.some.injEq] at hfields
        subst hfields
        simp [declaredFieldsOf]
  · simp at he

theorem enhanceType_isSome (w : World) (typ : DocType) (astPkg : AstPackage) (ts : TypeSpec)
    (hfound : findTypeSpec typ.Name astPkg.Files = some ts)
    (hdoc : (extractTypeDocumentation w typ.Name astPkg).isSome = true)
    (hm : (enhanceMethodsLoop typ astPkg (typeKindTag ts.Type_) typ.Methods []).isSome = true)
    (hc : (enhanceConstructorsLoop astPkg typ.Funcs []).isSome = true)
    (hs : ts.Type_ ≠ .StructType none) (hi : ts.Type_ ≠ .InterfaceType none) :
    ∃ e, enhanceType w typ astPkg = some e := by
  obtain ⟨doc, hdoc⟩ := Option.isSome_iff_exists.1 hdoc
  obtain ⟨methods, hm⟩ := Option.isSome_iff_exists.1 hm
  obtain ⟨funcs, hc⟩ := Option.isSome_iff_exists.1 hc
  unfold enhanceType
  simp only [hdoc, hfound]
  cases hT : ts.Type_ with
  | StructType o =>
    cases o with
    | none => exact absurd hT hs
    | some list =>
      simp only [hT, typeKindTag] at hm
      simp only [hm, hc, generateTypeExample, hT, generateStructDeclaration, Option.map]
      exact ⟨_, rfl⟩
  | InterfaceType o =>
    cases o with
    | none => exact absurd hT hi
    | some list =>
      simp only [hT, typeKindTag] at hm
      simp only [hm, hc, generateTypeExample, hT, generateInterfaceDeclaration, Option.map]
      exact ⟨_, rfl⟩
  | _ =>
    simp only [hT, typeKindTag] at hm
    simp only [hm, hc, generateTypeExample, hT]
    exact ⟨_, rfl⟩

/-! ## Lemmas on the documentation of a type -/

theorem typeDocumentationSpecs_at (w : World) (filename typeName : Str)
    (genDoc : Option (List Str)) (s1 s2 : List Spec) (ts : TypeSpec) (state : List Str × Bool)
    (hs1 : ∀ t, Spec.TypeSpec t ∈ s1 → t.Name ≠ typeName) (hname : ts.Name = typeName) :
    typeDocumentationSpecs w filename typeName genDoc (s1 ++ .TypeSpec ts :: s2) state =
      if (state.1 ++ groupTexts genDoc ++ groupTexts ts.Doc ++ groupTexts ts.Comment).length = 0
      then
        (extractManualComments w filename ts.Line).map fun manualDoc =>
          (if manualDoc ≠ [] then
              state.1 ++ groupTexts genDoc ++ groupTexts ts.Doc ++ groupTexts ts.Comment
                ++ [manualDoc]
            else state.1 ++ groupTexts genDoc ++ groupTexts ts.Doc ++ groupTexts ts.Comment,
            true)
      else
        some (state.1 ++ groupTexts genDoc ++ groupTexts ts.Doc ++ groupTexts ts.Comment, true) := by
  induction s1 with
  | nil =>
    simp only [List.nil_append, typeDocumentationSpecs, if_pos hname, appendCommentGroup_eq]
    by_cases hl :
        (state.1 ++ groupTexts genDoc ++ groupTexts ts.Doc ++ groupTexts ts.Comment).length = 0
    · simp only [if_pos hl]
      cases extractManualComments w filename ts.Line <;> rfl
    · simp only [if_neg hl]
  | cons s rest ih =>
    have ih := ih (fun t ht => hs1 t (List.mem_cons_of_mem _ ht))
    cases s with
    | TypeSpec t =>
      have hne : t.Name ≠ typeName := hs1 t (List.mem_cons_self _ _)
      simp only [List.cons_append, typeDocumentationSpecs, if_neg hne]
      exact ih
    | ValueSpec names =>
      simp only [List.cons_append, typeDocumentationSpecs]
      exact ih
    | ImportSpec =>
      simp only [List.cons_append, typeDocumentationSpecs]
      exact ih

theorem noTypeSpecIn_cons (name : Str) (d : Decl) (rest : List Decl)
    (h : NoTypeSpecIn name (d :: rest)) : NoTypeSpecIn name rest :=
  fun g hg => h g (List.mem_cons_of_mem _ hg)

theorem typeDocumentationDecls_at (w : World) (filename typeName : Str) (d1 d2 : List Decl)
    (g : GenDecl) (state : List Str × Bool) (hd1 : NoTypeSpecIn typeName d1)
    (hd2 : NoTypeSpecIn typeName d2) (htok : g.Tok = Token.TYPE) :
    typeDocumentationDecls w filename typeName (d1 ++ .GenDecl g :: d2) state =
      typeDocumentationSpecs w filename typeName g.Doc g.Specs state := by
  induction d1 with
  | nil =>
    simp only [List.nil_append, typeDocumentationDecls, if_pos htok]
    cases typeDocumentationSpecs w filename typeName g.Doc g.Specs state with
    | none => rfl
    | some state1 => exact typeDocumentationDecls_of_no_match w filename typeName d2 state1 hd2
  | cons d rest ih =>
    have ih := ih (noTypeSpecIn_cons typeName d rest hd1)
    cases d with
    | GenDecl g1 =>
      simp only [List.cons_append, typeDocumentationDecls]
      by_cases ht : g1.Tok = Token.TYPE
      · rw [if_pos ht, typeDocumentationSpecs_of_no_match w filename typeName g1.Doc g1.Specs
          state (hd1 g1 (List.mem_cons_self _ _))]
        exact ih
      · rw [if_neg ht]
        exact ih
    | FuncDecl f =>
      simp only [List.cons_append, typeDocumentationDecls]
      exact ih
    | BadDecl =>
      simp only [List.cons_append, typeDocumentationDecls]
      exact ih

theorem typeDocumentationFiles_no_match (w : World) (name : Str) (files : List (Str × File))
    (state : List Str × Bool) (h : ∀ entry ∈ files, NoTypeSpecIn name entry.2.Decls) :
    typeDocumentationFiles w name files state = some state := by
  induction files with
  | nil => rfl
  | cons entry rest ih =>
    obtain ⟨filename, file⟩ := entry
    simp only [typeDocumentationFiles]
    rw [typeDocumentationDecls_of_no_match w filename name file.Decls state
      (h _ (List.mem_cons_self _ _))]
    simp only
    split
    · rfl
    · exact ih (fun e he => h e (List.mem_cons_of_mem _ he))

theorem typeDocumentationFiles_skip (w : World) (name : Str) (before rest : List (Str × File))
    (found : Bool) (h : ∀ entry ∈ before, NoTypeSpecIn name entry.2.Decls) :
    typeDocumentationFiles w name (before ++ rest) ([], found)
      = typeDocumentationFiles w name rest ([], found) := by
  induction before with
  | nil => rfl
  | cons entry tail ih =>
    obtain ⟨filename, file⟩ := entry
    simp only [List.cons_append, typeDocumentationFiles]
    rw [typeDocumentationDecls_of_no_match w filename name file.Decls ([], found)
      (h _ (List.mem_cons_self _ _))]
    simp only [List.length_nil, Nat.lt_irrefl, if_false]
    exact ih (fun e he => h e (List.mem_cons_of_mem _ he))

theorem join_singleton (s sep : Str) : join [s] sep = s := by
  simp [join, List.intercalate]

theorem join_nil (sep : Str) : join [] sep = [] := by
  simp [join, List.intercalate]

theorem trimSpace_nil : trimSpace [] = [] := rfl

theorem extractTypeDocumentation_at (w : World) (typeName : Str) (astPkg : AstPackage)
    (before after : List (Str × File)) (filename : Str) (file : File) (d1 d2 : List Decl)
    (g : GenDecl) (s1 s2 : List Spec) (ts : TypeSpec)
    (hfiles : astPkg.Files = before ++ (filename, file) :: after)
    (hbefore : ∀ entry ∈ before, NoTypeSpecIn typeName entry.2.Decls)
    (hdecls : file.Decls = d1 ++ .GenDecl g :: d2)
    (hd1 : NoTypeSpecIn typeName d1) (hd2 : NoTypeSpecIn typeName d2)
    (htok : g.Tok = Token.TYPE) (hspecs : g.Specs = s1 ++ .TypeSpec ts :: s2)
    (hs1 : ∀ t, Spec.TypeSpec t ∈ s1 → t.Name ≠ typeName) (hname : ts.Name = typeName) :
    (documentationSources g ts ≠ [] →
      extractTypeDocumentation w typeName astPkg
        = some (trimSpace (join (documentationSources g ts) " ".toList))) ∧
    (documentationSources g ts = [] →
      (∀ entry ∈ after, NoTypeSpecIn typeName entry.2.Decls) →
      extractTypeDocumentation w typeName astPkg
        = (extractManualComments w filename ts.Line).map trimSpace) := by
  have hstep : typeDocumentationDecls w filename typeName file.Decls ([], false)
      = if (documentationSources g ts).length = 0 then
          (extractManualComments w filename ts.Line).map fun manualDoc =>
            (if manualDoc ≠ [] then documentationSources g ts ++ [manualDoc]
              else documentationSources g ts, true)
        else some (documentationSources g ts, true) := by
    rw [hdecls, typeDocumentationDecls_at w filename typeName d1 d2 g _ hd1 hd2 htok, hspecs,
      typeDocumentationSpecs_at w filename typeName g.Doc s1 s2 ts _ hs1 hname]
    simp only [List.nil_append, documentationSources]
  unfold extractTypeDocumentation
  rw [hfiles, typeDocumentationFiles_skip w typeName before _ false hbefore]
  simp only [typeDocumentationFiles, hstep]
  constructor
  · intro hne
    have hlen : ¬ (documentationSources g ts).length = 0 := by
      simpa [List.length_eq_zero] using hne
    have hpos : 0 < (documentationSources g ts).length := Nat.pos_of_ne_zero hlen
    simp only [if_neg hlen, if_pos hpos, Option.map_some']
  · intro he hafter
    simp only [he, List.length_nil, if_true, List.nil_append]
    cases extractManualComments w filename ts.Line with
    | none => rfl
    | some manualDoc =>
      simp only [Option.map_some']
      by_cases hm : manualDoc = []
      · subst hm
        simp only [ne_eq, not_true_eq_false, if_false, List.length_nil, Nat.lt_irrefl]
        rw [typeDocumentationFiles_no_match w typeName after _ hafter]
        simp [join_nil, trimSpace_nil]
      · simp only [ne_eq, hm, not_false_eq_true, if_true, List.length_singleton, Nat.lt_one_iff,
          Nat.zero_lt_one, Option.map_some', join_singleton]

/-! ## Lemmas on the declaration text and the example values -/

theorem declarationParams_eq (list : List Field) :
    ∀ i, declarationParams list i = formatParamList list i := by
  induction list with
  | nil => intro i; simp [declarationParams, formatParamList]
  | cons f rest ih =>
    intro i
    obtain ⟨d, ns, T, tag, c⟩ := f
    simp only [declarationParams, formatParamList, Field.Names, Field.Type_, ih]

theorem declarationResults_eq (list : List Field) :
    ∀ i, declarationResults list i = formatResultList list i := by
  induction list with
  | nil => intro i; simp [declarationResults, formatResultList]
  | cons f rest ih =>
    intro i
    obtain ⟨d, ns, T, tag, c⟩ := f
    simp only [declarationResults, formatResultList, Field.Names, Field.Type_, ih]

theorem generateFunctionDeclaration_eq (fn : DocFunc) (funcDecl : FuncDecl) :
    generateFunctionDeclaration fn funcDecl =
      match funcDecl.Recv with
      | none =>
        some ("func ".toList ++ fn.Name
          ++ formatFuncSignature funcDecl.Type_.Params funcDecl.Type_.Results)
      | some (recv :: _) =>
        some ("func (".toList ++ formatType recv.Type_ ++ ") ".toList ++ fn.Name
          ++ formatFuncSignature funcDecl.Type_.Params funcDecl.Type_.Results)
      | some [] => none := by
  obtain ⟨doc, recv, name, ⟨params, results⟩⟩ := funcDecl
  unfold generateFunctionDeclaration formatFuncSignature
  rcases recv with _ | _ | ⟨recv, rest⟩ <;> cases params <;> cases results <;>
    simp only [Option.map_some', Option.map_none', formatParams, formatResults,
      declarationParams_eq, declarationResults_eq, List.append_assoc]

theorem generateExampleValue_ident (name : Str) (h : name ∉ exampleValueNames) :
    generateExampleValue (.Ident name) = name ++ "\x7b\x7d".toList := by
  simp only [exampleValueNames, List.map_cons, List.map_nil, List.mem_cons, List.mem_nil_iff,
    or_false, not_or] at h
  obtain ⟨h1, h2, h3, h4, h5, h6, h7, h8, h9, h10, h11, h12, h13, h14⟩ := h
  simp only [generateExampleValue, List.mem_cons, List.mem_nil_iff, or_false]
  rw [if_neg h1, if_neg (by tauto), if_neg (by tauto), if_neg (by tauto), if_neg h14]

theorem generateExampleValue_other (e : Expr) (h : hasExampleCase e = false) :
    generateExampleValue e = "/* value */".toList := by
  cases e <;> first | rfl | simp [hasExampleCase] at h

/-! ## Lemmas on the package categories -/

theorem appendToCategory_keys (c : Str) (p : PackageInfo) (m : List (Str × List PackageInfo)) :
    (appendToCategory c p m).map Prod.fst
      = m.map Prod.fst ++ (if c ∈ m.map Prod.fst then [] else [c]) := by
  induction m with
  | nil => simp [appendToCategory]
  | cons entry rest ih =>
    obtain ⟨key, list⟩ := entry
    simp only [appendToCategory]
    by_cases hk : key = c
    · subst hk
      simp
    · rw [if_neg hk]
      have hc : ¬ c = key := fun h => hk h.symm
      simp only [List.map_cons, ih, List.mem_cons, hc, false_or, List.cons_append]

theorem appendToCategory_lengths (c : Str) (p : PackageInfo)
    (m : List (Str × List PackageInfo)) :
    ((appendToCategory c p m).map fun entry => entry.2.length).sum
      = (m.map fun entry => entry.2.length).sum + 1 := by
  induction m with
  | nil => simp [appendToCategory]
  | cons entry rest ih =>
    obtain ⟨key, list⟩ := entry
    simp only [appendToCategory]
    by_cases hk : key = c
    · rw [if_pos hk]
      simp only [List.map_cons, List.sum_cons, List.length_append, List.length_singleton]
      omega
    · rw [if_neg hk]
      simp only [List.map_cons, List.sum_cons, ih]
      omega

theorem appendToCategory_mem (c : Str) (p : PackageInfo) (m : List (Str × List PackageInfo))
    (hnd : (m.map Prod.fst).Nodup) (entry : Str × List PackageInfo)
    (h : entry ∈ appendToCategory c p m) :
    (entry ∈ m ∧ entry.1 ≠ c) ∨
    (entry.1 = c ∧ ∃ l, entry.2 = l ++ [p] ∧ ((c, l) ∈ m ∨ (l = [] ∧ c ∉ m.map Prod.fst))) := by
  induction m with
  | nil =>
    simp only [appendToCategory, List.mem_singleton] at h
    subst h
    exact Or.inr ⟨rfl, [], rfl, Or.inr ⟨rfl, by simp⟩⟩
  | cons head rest ih =>
    obtain ⟨key, list⟩ := head
    simp only [List.map_cons, List.nodup_cons] at hnd
    simp only [appendToCategory] at h
    by_cases hk : key = c
    · subst hk
      rw [if_pos rfl] at h
      rcases List.mem_cons.1 h with h | h
      · subst h
        exact Or.inr ⟨rfl, list, rfl, Or.inl (List.mem_cons_self _ _)⟩
      · left
        refine ⟨List.mem_cons_of_mem _ h, ?_⟩
        intro he
        exact hnd.1 (List.mem_map.2 ⟨entry, h, he⟩)
    · rw [if_neg hk] at h
      rcases List.mem_cons.1 h with h | h
      · subst h
        exact Or.inl ⟨List.mem_cons_self _ _, hk⟩
      · rcases ih hnd.2 h with ⟨hm, hne⟩ | ⟨he, l, hl, hin | ⟨hl0, hnot⟩⟩
        · exact Or.inl ⟨List.mem_cons_of_mem _ hm, hne⟩
        · exact Or.inr ⟨he, l, hl, Or.inl (List.mem_cons_of_mem _ hin)⟩
        · refine Or.inr ⟨he, l, hl, Or.inr ⟨hl0, ?_⟩⟩
          simp only [List.map_cons, List.mem_cons, not_or]
          exact ⟨fun h => hk h.symm, hnot⟩

theorem categoriesOf_step (m : List (Str × List PackageInfo)) (done : List PackageInfo)
    (p : PackageInfo) (h : CategoriesOf m done) :
    CategoriesOf (appendToCategory (determinePackageCategory p) p m) (done ++ [p]) := by
  obtain ⟨hnd, hent, hcov, hsum⟩ := h
  refine ⟨?_, ?_, ?_, ?_⟩
  · rw [appendToCategory_keys]
    by_cases hc : determinePackageCategory p ∈ m.map Prod.fst
    · simpa [hc] using hnd
    · rw [if_neg hc]
      exact List.Nodup.append hnd (List.nodup_singleton _) (by simpa using hc)
  · intro entry he
    rcases appendToCategory_mem _ p m hnd entry he with ⟨hm, hne⟩ | ⟨hk, l, hl, hin | ⟨hl0, hnot⟩⟩
    · obtain ⟨h1, h2⟩ := hent entry hm
      refine ⟨?_, h2⟩
      have : ¬ determinePackageCategory p = entry.1 := fun h => hne h.symm
      simp [List.filter_append, this, ← h1]
    · obtain ⟨h1, _⟩ := hent _ hin
      simp only at h1
      refine ⟨?_, by rw [hl]; simp⟩
      rw [hl, hk, h1]
      simp [List.filter_append]
    · refine ⟨?_, by rw [hl]; simp⟩
      have hnone : done.filter (fun q => decide (determinePackageCategory q = entry.1)) = [] := by
        rw [List.filter_eq_nil_iff]
        intro q hq
        have := hcov q hq
        simp only [decide_eq_true_eq]
        intro hqc
        rw [hqc, hk] at this
        exact hnot this
      rw [hl, hl0, List.filter_append, hnone, hk]
      simp
  · intro q hq
    rw [appendToCategory_keys]
    rcases List.mem_append.1 hq with hq | hq
    · exact List.mem_append_left _ (hcov q hq)
    · simp only [List.mem_singleton] at hq
      subst hq
      by_cases hc : determinePackageCategory q ∈ m.map Prod.fst
      · exact List.mem_append_left _ hc
      · rw [if_neg hc]
        simp
  · rw [appendToCategory_lengths, hsum]
    simp

theorem categoriesLoop_spec (packages : List PackageInfo) :
    ∀ (m : List (Str × List PackageInfo)) (done : List PackageInfo), CategoriesOf m done →
      CategoriesOf (categoriesLoop packages m) (done ++ packages) := by
  induction packages with
  | nil => intro m done h; simpa [categoriesLoop] using h
  | cons p rest ih =>
    intro m done h
    have := ih _ _ (categoriesOf_step m done p h)
    simpa [categoriesLoop] using this

theorem getPackagesByCategory_spec (packages : List PackageInfo) :
    CategoriesOf (GetPackagesByCategory packages) packages := by
  have h0 : CategoriesOf [] [] := ⟨by simp, by simp, by simp, by simp⟩
  simpa [GetPackagesByCategory] using categoriesLoop_spec packages [] [] h0

/-! ## Lemmas on the idempotence of the main description -/

theorem split_of_not_mem (sep : Char) (s : Str) (h : sep ∉ s) : split sep s = [s] := by
  induction s with
  | nil => rfl
  | cons c cs ih =>
    simp only [List.mem_cons, not_or] at h
    have hc : ¬ c = sep := fun e => h.1 e.symm
    simp only [split, if_neg hc, ih h.2]

theorem not_mem_of_mem_split (sep : Char) (s : Str) : ∀ l ∈ split sep s, sep ∉ l := by
  induction s with
  | nil => intro l hl; simp [split] at hl; subst hl; simp
  | cons c cs ih =>
    intro l hl
    simp only [split] at hl
    by_cases hc : c = sep
    · rw [if_pos hc] at hl
      rcases List.mem_cons.1 hl with rfl | hl
      · simp
      · exact ih l hl
    · rw [if_neg hc] at hl
      rcases hs : split sep cs with _ | ⟨a, t⟩
      · simp only [hs, List.mem_singleton] at hl
        subst hl
        simp only [List.mem_singleton]
        exact fun e => hc e.symm
      · simp only [hs] at hl
        rcases List.mem_cons.1 hl with rfl | hl
        · have := ih a (by rw [hs]; exact List.mem_cons_self _ _)
          simp only [List.mem_cons, not_or]
          exact ⟨fun e => hc e.symm, this⟩
        · exact ih l (by rw [hs]; exact List.mem_cons_of_mem _ hl)

theorem mem_of_mem_trimSpace (s : Str) (c : Char) (h : c ∈ trimSpace s) : c ∈ s := by
  unfold trimSpace at h
  have h1 : c ∈ s.dropWhile isSpace := (List.rdropWhile_prefix _ _).sublist.subset h
  exact (List.dropWhile_suffix _).sublist.subset h1

theorem not_mem_intercalate (c : Char) (sep : Str) (ls : List Str) (hsep : c ∉ sep)
    (h : ∀ l ∈ ls, c ∉ l) : c ∉ sep.intercalate ls := by
  induction ls with
  | nil => simp [List.intercalate]
  | cons a rest ih =>
    cases rest with
    | nil => simpa [List.intercalate] using h a (List.mem_cons_self _ _)
    | cons b t =>
      rw [intercalate_cons_cons]
      simp only [List.mem_append, not_or]
      exact ⟨⟨h a (List.mem_cons_self _ _), hsep⟩,
        ih (fun l hl => h l (List.mem_cons_of_mem _ hl))⟩

theorem prefix_of_prefix_append_cons (kw a b : Str) (c : Char) (hc : c ∉ kw)
    (h : kw <+: a ++ c :: b) : kw <+: a := by
  by_cases hlen : kw.length ≤ a.length
  · exact List.prefix_of_prefix_length_le h (List.prefix_append _ _) hlen
  · exfalso
    have h2 : a ++ [c] <+: a ++ c :: b := by
      have : a ++ c :: b = (a ++ [c]) ++ b := by simp
      rw [this]
      exact List.prefix_append _ _
    have h3 : a ++ [c] <+: kw :=
      List.prefix_of_prefix_length_le h2 h (by simp; omega)
    exact hc (h3.subset (by simp))

theorem toLowerRune_space : toLowerRune ' ' = ' ' := by decide

theorem hasPrefix_toLower_append (kw a b : Str) (hkw : ' ' ∉ kw)
    (h : hasPrefix (toLower (a ++ ' ' :: b)) kw = true) : hasPrefix (toLower a) kw = true := by
  simp only [hasPrefix, List.isPrefixOf_iff_prefix] at h ⊢
  have e : toLower (a ++ ' ' :: b) = toLower a ++ ' ' :: toLower b := by
    simp [toLower, toLowerRune_space]
  rw [e] at h
  exact prefix_of_prefix_append_cons kw _ _ ' ' hkw h

theorem startsSection_intercalate (a : Str) (rest : List Str)
    (h : startsSection a = false) : startsSection (" ".toList.intercalate (a :: rest)) = false := by
  cases rest with
  | nil => simpa [List.intercalate] using h
  | cons b t =>
    rw [intercalate_cons_cons]
    have e : a ++ " ".toList ++ " ".toList.intercalate (b :: t)
        = a ++ ' ' :: " ".toList.intercalate (b :: t) := by simp
    rw [e]
    simp only [startsSection, Bool.or_eq_false_iff] at h ⊢
    constructor
    · by_contra hc
      simp only [Bool.not_eq_false] at hc
      have := hasPrefix_toLower_append "parameters:".toList a _ (by decide) hc
      simp only [startsParameters] at h
      rw [h.1] at this
      cases this
    · by_contra hc
      simp only [Bool.not_eq_false] at hc
      have := hasPrefix_toLower_append "returns:".toList a _ (by decide) hc
      simp only [startsReturns] at h
      rw [h.2] at this
      cases this

theorem mainLines_facts (doc : Str) :
    ∀ l ∈ ((trimmedLines doc).takeWhile (fun l => !startsSection l)).filter
        (fun l => decide (l ≠ [])),
      NoSpaceEnds l ∧ l ≠ [] ∧ startsSection l = false ∧ '\n' ∉ l := by
  intro l hl
  obtain ⟨hl1, hl2⟩ := List.mem_filter.1 hl
  have hne : l ≠ [] := by simpa using hl2
  have hsec : startsSection l = false := by
    have := List.mem_takeWhile_imp hl1
    simpa using this
  have hmem : l ∈ trimmedLines doc := (List.takeWhile_sublist _).subset hl1
  obtain ⟨raw, hraw, rfl⟩ := List.mem_map.1 hmem
  refine ⟨noSpaceEnds_trimSpace raw, hne, hsec, ?_⟩
  intro hc
  exact not_mem_of_mem_split '\n' doc raw hraw (mem_of_mem_trimSpace raw '\n' hc)

theorem extractMainDescription_facts (doc : Str) :
    NoSpaceEnds (extractMainDescription doc) ∧ '\n' ∉ extractMainDescription doc ∧
      startsSection (extractMainDescription doc) = false := by
  rw [extractMainDescription_eq]
  unfold mainDescriptionWith
  have hf := mainLines_facts doc
  refine ⟨noSpaceEnds_intercalate _ (fun l hl => ⟨(hf l hl).1, (hf l hl).2.1⟩),
    not_mem_intercalate '\n' _ _ (by decide) (fun l hl => (hf l hl).2.2.2), ?_⟩
  rcases hL : ((trimmedLines doc).takeWhile (fun l => !startsSection l)).filter
      (fun l => decide (l ≠ [])) with _ | ⟨a, rest⟩
  · decide
  · exact startsSection_intercalate a rest (hf a (by rw [hL]; exact List.mem_cons_self _ _)).2.2.1

theorem extractMainDescription_idem (doc : Str) :
    extractMainDescription (extractMainDescription doc) = extractMainDescription doc := by
  obtain ⟨hends, hnl, hsec⟩ := extractMainDescription_facts doc
  generalize extractMainDescription doc = r at hends hnl hsec
  rw [extractMainDescription_eq]
  unfold mainDescriptionWith trimmedLines
  rw [split_of_not_mem '\n' r hnl]
  simp only [List.map_cons, List.map_nil, trimSpace_eq_self hends]
  by_cases hr : r = []
  · subst hr
    decide
  · simp [List.takeWhile, hsec, hr, List.intercalate]

/-! ## The claims on the type enhancer, the examples and the categories -/

/-- Claim C21, the counterexample: for `type ID int` the kind tag is `type`, not `alias`,
and for a type that the tree does not declare it is `unknown`. -/
theorem alias_type_kind_is_type :
    (enhanceType docWorld idType idPkg).map (fun e => e.TypeKind) = some "type".toList ∧
    (enhanceType docWorld missingType addPkg).map (fun e => e.TypeKind)
      = some "unknown".toList := by
  decide

/-- Claim C21, amended: the kind tag of the enhanced type that `enhanceType` returns is
one of the four tags `unknown`, `struct`, `interface` and `type`: `unknown` when the tree
holds no type spec of the name, otherwise `struct` for a struct type node, `interface`
for an interface type node and `type` for every other node. -/
theorem enhanceType_typeKind (w : World) (typ : DocType) (astPkg : AstPackage)
    (e : EnhancedType) (h : enhanceType w typ astPkg = some e) :
    e.TypeKind = (match findTypeSpec typ.Name astPkg.Files with
      | none => "unknown".toList
      | some typeSpec => typeKindTag typeSpec.Type_) ∧
    e.TypeKind ∈ ["unknown".toList, "struct".toList, "interface".toList, "type".toList] := by
  have key : e.TypeKind = (match findTypeSpec typ.Name astPkg.Files with
      | none => "unknown".toList
      | some typeSpec => typeKindTag typeSpec.Type_) := by
    rcases hf : findTypeSpec typ.Name astPkg.Files with _ | ts
    · unfold enhanceType at h
      rcases hdoc : extractTypeDocumentation w typ.Name astPkg with _ | doc
      · simp [hdoc] at h
      · simp only [hdoc, hf, Option.some.injEq] at h
        subst h
        rfl
    · exact (enhanceType_found w typ astPkg ts e hf h).1
  refine ⟨key, ?_⟩
  rw [key]
  rcases findTypeSpec typ.Name astPkg.Files with _ | ts
  · simp
  · have ht : typeKindTag ts.Type_ = "struct".toList ∨ typeKindTag ts.Type_ = "interface".toList
        ∨ typeKindTag ts.Type_ = "type".toList := by
      cases ts.Type_ <;> simp [typeKindTag]
    simp only [List.mem_cons, List.mem_nil_iff, or_false]
    tauto

/-- Claim C21, amended, on the package that declares `type ID int`: `enhanceType` returns
an enhanced type and its kind tag is `type`. -/
theorem enhanceType_typeKind_witness :
    ∃ e, enhanceType docWorld idType idPkg = some e ∧ e.TypeKind = "type".toList :=
  match h : enhanceType docWorld idType idPkg with
  | some e => ⟨e, rfl, (enhanceType_typeKind docWorld idType idPkg e h).1⟩
  | none => absurd h (by decide)

/-- Claim C22: for a type spec that `enhanceType` finds in the tree, the `Fields` of the
enhanced type are, in declaration order, one entry per name of every field of a struct
type and one entry with the empty name per embedded field, each with the formatted type
of the field, its tag literal (empty without a tag) and the cleaned text of its leading
comment or, without a leading comment, of its trailing comment; for a type node that is
not a struct type `Fields` is empty.  The enhanced type is returned whenever the
documentation lookup and the method and constructor loops return and the type node has
its field list or method list. -/
theorem enhanceType_fields (w : World) (typ : DocType) (astPkg : AstPackage) (ts : TypeSpec)
    (hfound : findTypeSpec typ.Name astPkg.Files = some ts) :
    (∀ e, enhanceType w typ astPkg = some e → e.Fields = declaredFieldsOf ts.Type_) ∧
    ((extractTypeDocumentation w typ.Name astPkg).isSome = true →
      (enhanceMethodsLoop typ astPkg (typeKindTag ts.Type_) typ.Methods []).isSome = true →
      (enhanceConstructorsLoop astPkg typ.Funcs []).isSome = true →
      ts.Type_ ≠ .StructType none → ts.Type_ ≠ .InterfaceType none →
      ∃ e, enhanceType w typ astPkg = some e) ∧
    (∀ fields, declaredFieldsOf (.StructType (some fields)) = declaredFields fields) ∧
    (∀ t, (∀ fields, t ≠ .StructType fields) → declaredFieldsOf t = []) :=
  ⟨fun e he => (enhanceType_found w typ astPkg ts e hfound he).2,
   fun hdoc hm hc hs hi => enhanceType_isSome w typ astPkg ts hfound hdoc hm hc hs hi,
   fun _ => rfl,
   fun t ht => by
     cases t <;> first | rfl | exact absurd rfl (ht _)⟩

/-- Claim C22 on the struct type `Point`: the group `X, Y int` gives two entries with the
tag and the leading comment of the group, the embedded `sync.Mutex` one entry with the
empty name and its trailing comment, `name string` one entry without tag and text. -/
theorem enhanceType_fields_witness :
    findTypeSpec pointType.Name pointPkg.Files = some pointSpec ∧
    ∃ e, enhanceType docWorld pointType pointPkg = some e ∧
      e.Fields =
        [{ Name := "X".toList, Type_ := "int".toList, Tag := "`json:\"xy\"`".toList,
           Doc := "X and Y are the coordinates.".toList },
         { Name := "Y".toList, Type_ := "int".toList, Tag := "`json:\"xy\"`".toList,
           Doc := "X and Y are the coordinates.".toList },
         { Name := [], Type_ := "sync.Mutex".toList, Tag := [],
           Doc := "guards the point".toList },
         { Name := "name".toList, Type_ := "string".toList, Tag := [], Doc := [] }] :=
  ⟨rfl,
   match h : enhanceType docWorld pointType pointPkg with
   | some e =>
     ⟨e, rfl, ((enhanceType_fields docWorld pointType pointPkg pointSpec rfl).1 e h).trans
       (by decide)⟩
   | none => absurd h (by decide)⟩

/-- Claim C23, the counterexample: for a type spec with a doc comment and a trailing
comment inside a declaration with a doc comment, the documentation is the three texts
joined, the text of the declaration first; without the doc comment of the spec it is
the text of the declaration joined with the trailing comment. -/
theorem type_documentation_joins_sources :
    extractTypeDocumentation docWorld "A".toList kindsPkg
      = some "Kinds of things. A is one kind. the A kind".toList ∧
    extractTypeDocumentation docWorld "A".toList groupedKindsPkg
      = some "Kinds of things. the A kind".toList := by
  decide

/-- Claim C23, amended: for a type that the tree declares once, in a declaration `g` of
the file `filename` as the type spec `ts`, `extractTypeDocumentation` returns the cleaned
texts of the doc comment of the declaration, of the doc comment of the type spec and of
its trailing comment, in this order, joined by single spaces; when all three are empty it
returns what `extractManualComments` reads from the lines above the type spec. -/
theorem extractTypeDocumentation_sources (w : World) (typeName : Str) (astPkg : AstPackage)
    (before after : List (Str × File)) (filename : Str) (file : File) (d1 d2 : List Decl)
    (g : GenDecl) (s1 s2 : List Spec) (ts : TypeSpec)
    (hfiles : astPkg.Files = before ++ (filename, file) :: after)
    (hbefore : ∀ entry ∈ before, NoTypeSpecIn typeName entry.2.Decls)
    (hafter : ∀ entry ∈ after, NoTypeSpecIn typeName entry.2.Decls)
    (hdecls : file.Decls = d1 ++ .GenDecl g :: d2)
    (hd1 : NoTypeSpecIn typeName d1) (hd2 : NoTypeSpecIn typeName d2)
    (htok : g.Tok = Token.TYPE) (hspecs : g.Specs = s1 ++ .TypeSpec ts :: s2)
    (hs1 : ∀ t, Spec.TypeSpec t ∈ s1 → t.Name ≠ typeName) (hname : ts.Name = typeName) :
    documentationSources g ts
      = groupTexts g.Doc ++ groupTexts ts.Doc ++ groupTexts ts.Comment ∧
    (documentationSources g ts ≠ [] →
      extractTypeDocumentation w typeName astPkg
        = some (trimSpace (join (documentationSources g ts) " ".toList))) ∧
    (documentationSources g ts = [] →
      extractTypeDocumentation w typeName astPkg
        = (extractManualComments w filename ts.Line).map trimSpace) := by
  have h := extractTypeDocumentation_at w typeName astPkg before after filename file d1 d2 g
    s1 s2 ts hfiles hbefore hdecls hd1 hd2 htok hspecs hs1 hname
  exact ⟨rfl, h.1, fun he => h.2 he hafter⟩

/-- Claim C23, amended, on the declaration `kindsDecl`: the documentation of `A` is the
text of the declaration, the text of the spec and the trailing comment, joined. -/
theorem extractTypeDocumentation_sources_witness :
    documentationSources kindsDecl kindSpec
      = ["Kinds of things.".toList, "A is one kind.".toList, "the A kind".toList] ∧
    extractTypeDocumentation docWorld "A".toList kindsPkg
      = some (trimSpace (join (documentationSources kindsDecl kindSpec) " ".toList)) :=
  ⟨by decide,
   (extractTypeDocumentation_sources docWorld "A".toList kindsPkg [] [] "kinds.go".toList
      ⟨[.GenDecl kindsDecl]⟩ [] [] kindsDecl [] [] kindSpec rfl (by simp) (by simp) rfl
      (fun _ hg => by simp at hg) (fun _ hg => by simp at hg) rfl rfl (by simp) rfl).2.1
      (by decide)⟩

/-- Claim C24, the counterexample: for the qualified type `time.Time` the example value
is the placeholder comment, not `time.Time` followed by braces; for `byte` it is `byte`
followed by braces, not `42`; for a slice it is `[]` and for a map `map[]`. -/
theorem qualified_type_example_is_placeholder :
    generateExampleValue timeType = "/* value */".toList ∧
    generateExampleValue (.Ident "byte".toList) = "byte\x7b\x7d".toList ∧
    generateExampleValue (.ArrayType .Nil intType) = "[]".toList ∧
    generateExampleValue (.MapType intType intType) = "map[]".toList := by
  decide

/-- Claim C24, amended: `generateExampleValue` gives the quoted text `example` for the
identifier `string`, `42` for `int`, `int8`, `int16`, `int32`, `int64`, `uint`, `uint8`,
`uint16`, `uint32` and `uint64`, `3.14` for `float32` and `float64`, `true` for `bool`,
the name followed by an empty pair of braces for every other identifier, `[]` for an
array or slice type, `map[]` for a map type, and the placeholder comment for every type
that is not an identifier, a pointer, an array, a slice or a map. -/
theorem generateExampleValue_table (name : Str) (len elt key value e : Expr)
    (hname : name ∉ exampleValueNames) (he : hasExampleCase e = false) :
    generateExampleValue (.Ident "string".toList) = "\"example\"".toList ∧
    (∀ n ∈ ["int", "int8", "int16", "int32", "int64", "uint", "uint8", "uint16", "uint32",
        "uint64"], generateExampleValue (.Ident n.toList) = "42".toList) ∧
    (∀ n ∈ ["float32", "float64"], generateExampleValue (.Ident n.toList) = "3.14".toList) ∧
    generateExampleValue (.Ident "bool".toList) = "true".toList ∧
    generateExampleValue (.Ident name) = name ++ "\x7b\x7d".toList ∧
    generateExampleValue (.ArrayType len elt) = "[]".toList ∧
    generateExampleValue (.MapType key value) = "map[]".toList ∧
    generateExampleValue e = "/* value */".toList :=
  ⟨by decide, by decide, by decide, by decide, generateExampleValue_ident name hname, rfl, rfl,
    generateExampleValue_other e he⟩

/-- Claim C24, amended, on the identifier `byte` and the qualified type `time.Time`. -/
theorem generateExampleValue_table_witness :
    "byte".toList ∉ exampleValueNames ∧ hasExampleCase timeType = false ∧
    generateExampleValue (.Ident "byte".toList) = "byte".toList ++ "\x7b\x7d".toList ∧
    generateExampleValue timeType = "/* value */".toList :=
  ⟨by decide, by decide,
   (generateExampleValue_table "byte".toList .Nil .Nil .Nil .Nil timeType (by decide)
      (by decide)).2.2.2.2.1,
   (generateExampleValue_table "byte".toList .Nil .Nil .Nil .Nil timeType (by decide)
      (by decide)).2.2.2.2.2.2.2⟩

/-- Claim C25, evaluated on the interface doc `The Read method reads data.` and the
method name `Read`: the result is the text after the first space of the line, which
begins with the method name itself, not the text after the method name. -/
theorem interface_method_doc_splits_at_first_space :
    extractInterfaceMethodDoc readerType "Read".toList = "Read method reads data.".toList ∧
    extractInterfaceMethodDoc readerType "Read".toList ≠ "method reads data.".toList := by
  decide

/-- Claim C26, evaluated on a package of two files and on a directory of two packages:
the order of `Files` in the summary is the order in which the file map is visited, and
the package that is summarised is the one that the package map gives first, so two runs
that visit the same maps in different orders return different summaries. -/
theorem file_order_follows_map_order :
    twoFilesSwappedPkg.Files.Perm twoFilesPkg.Files ∧
    (parseASTPackage defaultDiscoverer (orderWorld []) twoFilesPkg "/src/demo".toList).map
        (fun pkg => pkg.Files) = some ["a.go".toList, "b.go".toList] ∧
    (parseASTPackage defaultDiscoverer (orderWorld []) twoFilesSwappedPkg "/src/demo".toList).map
        (fun pkg => pkg.Files) = some ["b.go".toList, "a.go".toList] ∧
    [betaPkg, alphaPkg].Perm [alphaPkg, betaPkg] ∧
    (parsePackage defaultDiscoverer (orderWorld [alphaPkg, betaPkg]) "lib".toList).value.map
        (fun pkg => pkg.Name) = some "alpha".toList ∧
    (parsePackage defaultDiscoverer (orderWorld [betaPkg, alphaPkg]) "lib".toList).value.map
        (fun pkg => pkg.Name) = some "beta".toList :=
  ⟨List.Perm.swap _ _ _, by decide, by decide, List.Perm.swap _ _ _, by decide, by decide⟩

/-- Claim C27, evaluated on `func Pair(a, b int) (x, y int)`: the result group `x, y int`
gives one entry, named `x`, while the parameter group `a, b int` gives two entries. -/
theorem result_group_gives_one_entry :
    (enhanceFunction pairFunc pairPkg).map (fun e => e.Results)
      = some [{ Name := "x".toList, Type_ := "int".toList, Doc := "the first".toList }] ∧
    (enhanceFunction pairFunc pairPkg).map (fun e => e.Params.map (fun p => p.Name))
      = some ["a".toList, "b".toList] := by
  decide

/-- Claim C28: the declaration text of `generateFunctionDeclaration` is `func `, the name
and the text of `formatFuncSignature` on the function type of the declaration when there
is no receiver, and `func (`, the formatted type of the first receiver field, `) `, the
name and the same signature text when there is a receiver; on a receiver clause without a
field the function fails. -/
theorem generateFunctionDeclaration_signature (fn : DocFunc) (funcDecl : FuncDecl) :
    generateFunctionDeclaration fn funcDecl =
      match funcDecl.Recv with
      | none =>
        some ("func ".toList ++ fn.Name
          ++ formatFuncSignature funcDecl.Type_.Params funcDecl.Type_.Results)
      | some (recv :: _) =>
        some ("func (".toList ++ formatType recv.Type_ ++ ") ".toList ++ fn.Name
          ++ formatFuncSignature funcDecl.Type_.Params funcDecl.Type_.Results)
      | some [] => none := by
  obtain ⟨doc, recv, name, ⟨params, results⟩⟩ := funcDecl
  unfold generateFunctionDeclaration formatFuncSignature
  rcases recv with _ | _ | ⟨recv, rest⟩ <;> cases params <;> cases results <;>
    simp only [Option.map_some', Option.map_none', formatParams, formatResults,
      declarationParams_eq, declarationResults_eq, List.append_assoc]

/-- Claim C29: the map that `GetPackagesByCategory` returns has one entry per category
that occurs; the list under a category is the input list restricted to the packages of
that category, in input order, and is not empty; every input package has its category
among the keys; the lengths of the lists add up to the length of the input. -/
theorem GetPackagesByCategory_partition (packages : List PackageInfo) :
    ((GetPackagesByCategory packages).map Prod.fst).Nodup ∧
    (∀ entry ∈ GetPackagesByCategory packages,
      entry.2 = packages.filter (fun p => decide (determinePackageCategory p = entry.1)) ∧
        entry.2 ≠ []) ∧
    (∀ p ∈ packages, ∃ list,
      (determinePackageCategory p, list) ∈ GetPackagesByCategory packages) ∧
    ((GetPackagesByCategory packages).map fun entry => entry.2.length).sum
      = packages.length := by
  obtain ⟨h1, h2, h3, h4⟩ := getPackagesByCategory_spec packages
  refine ⟨h1, h2, ?_, h4⟩
  intro p hp
  obtain ⟨entry, he, hk⟩ := List.mem_map.1 (h3 p hp)
  exact ⟨entry.2, by rw [← hk]; exact he⟩

/-- Claim C30: `extractMainDescription` is idempotent, and its result holds no newline
and neither begins nor ends with white space. -/
theorem extractMainDescription_idempotent (doc : Str) :
    extractMainDescription (extractMainDescription doc) = extractMainDescription doc ∧
    '\n' ∉ extractMainDescription doc ∧ NoSpaceEnds (extractMainDescription doc) :=
  ⟨extractMainDescription_idem doc, (extractMainDescription_facts doc).2.1,
    (extractMainDescription_facts doc).1⟩

end Proton
